import Mathlib

/-
Verification of core components of the rsonpath JSONPath engine against its
natural-language specification.

The development shallowly embeds the Rust sources:
* `Classify` models the scalar structural classifier
  (crates/rsonpath-lib/src/classify/nosimd.rs and classify.rs),
* `Quotes` models the 32-bit quote/escape block classifier
  (crates/rsonpath-lib/src/classification/quotes/shared/mask_32.rs),
* `DepthBlocks` models the sequential and lazy depth blocks
  (simdpath/src/bytes/depth.rs),
* `Auto` models the query automaton (crates/rsonpath-lib/src/query/automaton.rs),
* `InputSlice` models the member-search helpers (crates/rsonpath-lib/src/input.rs),
* `Nodes` models the node-collecting recorder (crates/rsonpath-lib/src/result/nodes.rs).

Machine integers are embedded as `Nat` with explicit truncation (`% 2^32`)
where the Rust code relies on wrapping; bytes are `Nat` values below 256.
-/

namespace Rsonpath

/-! ## Structural characters (classify.rs) -/

/-- Structural characters of JSON documents, mirroring `enum Structural`
in classify.rs.  The payload is the byte index of the character. -/
inductive Structural where
  | Closing (idx : Nat)
  | Colon (idx : Nat)
  | Opening (idx : Nat)
  | Comma (idx : Nat)
deriving DecidableEq, Repr

/-- Mirrors `Structural::idx`: the index of the character in the document. -/
def Structural.idx : Structural → Nat
  | .Closing i => i
  | .Colon i => i
  | .Opening i => i
  | .Comma i => i

/-- Mirrors `Structural::offset`: add a given amount to the structural's index. -/
def Structural.offset : Structural → Nat → Structural
  | .Closing i, amount => .Closing (i + amount)
  | .Colon i, amount => .Colon (i + amount)
  | .Opening i, amount => .Opening (i + amount)
  | .Comma i, amount => .Comma (i + amount)

namespace Classify

/-- A block of input bytes together with its within-quotes bitmask,
mirroring `QuoteClassifiedBlock` of the quotes module.  Bit `i` of
`within_quotes_mask` corresponds to byte `i` of `block`. -/
structure QuoteClassifiedBlock where
  block : List Nat
  within_quotes_mask : Nat
deriving DecidableEq, Repr

/-- In-progress block state of the sequential structural classifier,
mirroring `struct Block` in classify/nosimd.rs. -/
structure Block where
  quote_classified : QuoteClassifiedBlock
  idx : Nat
  are_commas_on : Bool
deriving DecidableEq, Repr

/-- Loop body of `impl Iterator for Block` in classify/nosimd.rs, with the
remaining loop iteration count (`length - idx` at entry) made explicit as a
fuel argument so that the definition is structurally recursive. -/
def Block.nextGo : Nat → Block → Option Structural × Block
  | 0, b => (none, b)
  | fuel + 1, b =>
    if b.idx < b.quote_classified.block.length then
      if b.quote_classified.within_quotes_mask.testBit b.idx then
        Block.nextGo fuel { b with idx := b.idx + 1 }
      else if b.quote_classified.block.getD b.idx 0 = 58 then
        (some (Structural.Colon b.idx), { b with idx := b.idx + 1 })
      else if b.quote_classified.block.getD b.idx 0 = 91 ∨
          b.quote_classified.block.getD b.idx 0 = 123 then
        (some (Structural.Opening b.idx), { b with idx := b.idx + 1 })
      else if b.quote_classified.block.getD b.idx 0 = 44 ∧ b.are_commas_on then
        (some (Structural.Comma b.idx), { b with idx := b.idx + 1 })
      else if b.quote_classified.block.getD b.idx 0 = 93 ∨
          b.quote_classified.block.getD b.idx 0 = 125 then
        (some (Structural.Closing b.idx), { b with idx := b.idx + 1 })
      else Block.nextGo fuel { b with idx := b.idx + 1 }
    else (none, b)

/-- Mirrors `impl Iterator for Block` in classify/nosimd.rs: scan bytes from
`idx`, skipping quoted positions, and return the first structural character
together with the advanced block state (the Rust iterator mutates `idx`). -/
def Block.next (b : Block) : Option Structural × Block :=
  Block.nextGo (b.quote_classified.block.length - b.idx) b

/-- Modelled from the spec: the quote-classified block iterator (the old
`quotes` module backing `QuoteClassifiedIterator` is not part of the sources;
only its use sites are).  `consumed` is the total byte length of all yielded
blocks and `cur_len` the length of the most recently yielded block, so that
`get_offset` is the absolute start offset of the current block. -/
structure QuoteIter where
  rest : List QuoteClassifiedBlock
  consumed : Nat
  cur_len : Nat
deriving DecidableEq, Repr

/-- Modelled from the spec: yielding the next quote-classified block. -/
def QuoteIter.next : QuoteIter → Option QuoteClassifiedBlock × QuoteIter
  | ⟨[], c, l⟩ => (none, ⟨[], c, l⟩)
  | ⟨qb :: rest, c, _⟩ => (some qb, ⟨rest, c + qb.block.length, qb.block.length⟩)

/-- Modelled from the spec: `get_offset`, the absolute byte offset of the
start of the most recently yielded block. -/
def QuoteIter.get_offset (it : QuoteIter) : Nat := it.consumed - it.cur_len

/-- Mirrors `ResumeClassifierBlockState` as used in classify/nosimd.rs. -/
structure ResumeClassifierBlockState where
  block : QuoteClassifiedBlock
  idx : Nat
deriving DecidableEq, Repr

/-- Mirrors `ResumeClassifierState` as constructed and consumed in
classify/nosimd.rs: it carries only the iterator and the optional in-progress
block state (no toggle flags). -/
structure ResumeClassifierState where
  iter : QuoteIter
  block : Option ResumeClassifierBlockState
deriving DecidableEq, Repr

/-- Mirrors `SequentialClassifier` in classify/nosimd.rs. -/
structure SequentialClassifier where
  iter : QuoteIter
  block : Option Block
  are_commas_on : Bool
deriving DecidableEq, Repr

/-- Mirrors `SequentialClassifier::new`. -/
def SequentialClassifier.new (iter : QuoteIter) : SequentialClassifier :=
  ⟨iter, none, false⟩

/-- The `while item.is_none()` loop of `SequentialClassifier::next`, with the
number of remaining iterator blocks made explicit as fuel. -/
def SequentialClassifier.nextLoopGo : Nat → SequentialClassifier →
    Option Structural × SequentialClassifier
  | 0, c => (none, c)
  | fuel + 1, c =>
    match c.iter.rest with
    | [] => (none, c)
    | qb :: rest' =>
        let it' : QuoteIter := ⟨rest', c.iter.consumed + qb.block.length, qb.block.length⟩
        let r := Block.next ⟨qb, 0, c.are_commas_on⟩
        let c' : SequentialClassifier := ⟨it', some r.2, c.are_commas_on⟩
        match r.1 with
        | some s => (some (s.offset it'.get_offset), c')
        | none => SequentialClassifier.nextLoopGo fuel c'

/-- The `while item.is_none()` loop of `SequentialClassifier::next`: pull
blocks from the iterator until one yields an event or the iterator ends. -/
def SequentialClassifier.nextLoop (c : SequentialClassifier) :
    Option Structural × SequentialClassifier :=
  SequentialClassifier.nextLoopGo c.iter.rest.length c

/-- Mirrors `impl Iterator for SequentialClassifier`: advance the retained
block first, then fall back to pulling fresh blocks. -/
def SequentialClassifier.next (c : SequentialClassifier) :
    Option Structural × SequentialClassifier :=
  match c.block with
  | none => SequentialClassifier.nextLoop c
  | some b =>
      let r := Block.next b
      let c' : SequentialClassifier := { c with block := some r.2 }
      match r.1 with
      | some s => (some (s.offset c.iter.get_offset), c')
      | none => SequentialClassifier.nextLoop c'

/-- Mirrors `SequentialClassifier::stop`. -/
def SequentialClassifier.stop (c : SequentialClassifier) : ResumeClassifierState :=
  { iter := c.iter,
    block := c.block.map fun b => { block := b.quote_classified, idx := b.idx } }

/-- Mirrors `SequentialClassifier::resume`: note that `are_commas_on` is set
to `false` both on the classifier and on the restored block. -/
def SequentialClassifier.resume (state : ResumeClassifierState) : SequentialClassifier :=
  { iter := state.iter,
    block := state.block.map fun b =>
      { quote_classified := b.block, idx := b.idx, are_commas_on := false },
    are_commas_on := false }

/-- Mirrors `SequentialClassifier::turn_commas_on`. -/
def SequentialClassifier.turn_commas_on (c : SequentialClassifier) (idx : Nat) :
    SequentialClassifier :=
  if c.are_commas_on then c
  else
    match c.block with
    | none => { c with are_commas_on := true, block := none }
    | some b =>
        let qb := b.quote_classified
        let block_idx := (idx + 1) % qb.block.length
        if block_idx ≠ 0 then
          { c with are_commas_on := true, block := some ⟨qb, block_idx, true⟩ }
        else { c with are_commas_on := true, block := none }

/-- Mirrors `SequentialClassifier::turn_commas_off`. -/
def SequentialClassifier.turn_commas_off (c : SequentialClassifier) : SequentialClassifier :=
  { c with are_commas_on := false }

/-- Collect up to `n` events from the classifier, returning them together
with the final classifier state. -/
def takeEvents : Nat → SequentialClassifier → List Structural × SequentialClassifier
  | 0, c => ([], c)
  | n + 1, c =>
    match h : SequentialClassifier.next c with
    | (none, c') => ([], c')
    | (some s, c') =>
        let r := takeEvents n c'
        (s :: r.1, r.2)

/-- State facts about one `Block::next` call: the underlying block and the
comma toggle never change, the cursor only moves forward, it ends at or
past the block length exactly when no event is produced, and an event
leaves the cursor within the block. -/
theorem Block.nextGo_state (fuel : Nat) (b : Block)
    (hf : b.quote_classified.block.length - b.idx ≤ fuel) :
    (Block.nextGo fuel b).2.quote_classified = b.quote_classified ∧
    (Block.nextGo fuel b).2.are_commas_on = b.are_commas_on ∧
    b.idx ≤ (Block.nextGo fuel b).2.idx ∧
    ((Block.nextGo fuel b).1 = none →
      b.quote_classified.block.length ≤ (Block.nextGo fuel b).2.idx) ∧
    (∀ s, (Block.nextGo fuel b).1 = some s →
      b.idx < (Block.nextGo fuel b).2.idx ∧
      (Block.nextGo fuel b).2.idx ≤ b.quote_classified.block.length) := by
  induction fuel generalizing b with
  | zero =>
      have e : Block.nextGo 0 b = (none, b) := rfl
      rw [e]
      refine ⟨rfl, rfl, le_refl _, ?_, ?_⟩
      · intro _; dsimp only; omega
      · intro s hc; cases hc
  | succ fuel ih =>
      by_cases h : b.idx < b.quote_classified.block.length
      · by_cases hq : b.quote_classified.within_quotes_mask.testBit b.idx
        · have e : Block.nextGo (fuel + 1) b = Block.nextGo fuel { b with idx := b.idx + 1 } := by
            rw [Block.nextGo] ; simp only [if_pos h, if_pos hq]
          have ihb := ih { b with idx := b.idx + 1 } (by dsimp only ; omega)
          dsimp only at ihb
          rw [e]
          refine ⟨ihb.1, ihb.2.1, by have := ihb.2.2.1 ; omega, ?_, ?_⟩
          · intro hn
            have := ihb.2.2.2.1 hn
            omega
          · intro s hs
            have := ihb.2.2.2.2 s hs
            omega
        · by_cases h1 : b.quote_classified.block.getD b.idx 0 = 58
          · have e : Block.nextGo (fuel + 1) b =
                (some (Structural.Colon b.idx), { b with idx := b.idx + 1 }) := by
              rw [Block.nextGo] ; simp only [if_pos h, if_neg hq, if_pos h1]
            rw [e]
            refine ⟨rfl, rfl, ?_, ?_, ?_⟩
            · exact Nat.le_succ _
            · intro hc ; cases hc
            · intro s _ ; exact ⟨Nat.lt_succ_self _, h⟩
          · by_cases h2 : b.quote_classified.block.getD b.idx 0 = 91 ∨
                b.quote_classified.block.getD b.idx 0 = 123
            · have e : Block.nextGo (fuel + 1) b =
                  (some (Structural.Opening b.idx), { b with idx := b.idx + 1 }) := by
                rw [Block.nextGo] ; simp only [if_pos h, if_neg hq, if_neg h1, if_pos h2]
              rw [e]
              refine ⟨rfl, rfl, ?_, ?_, ?_⟩
              · exact Nat.le_succ _
              · intro hc ; cases hc
              · intro s _ ; exact ⟨Nat.lt_succ_self _, h⟩
            · by_cases h3 : b.quote_classified.block.getD b.idx 0 = 44 ∧ b.are_commas_on
              · have e : Block.nextGo (fuel + 1) b =
                    (some (Structural.Comma b.idx), { b with idx := b.idx + 1 }) := by
                  rw [Block.nextGo] ; simp only [if_pos h, if_neg hq, if_neg h1, if_neg h2,
                    if_pos h3]
                rw [e]
                refine ⟨rfl, rfl, ?_, ?_, ?_⟩
                · exact Nat.le_succ _
                · intro hc ; cases hc
                · intro s _ ; exact ⟨Nat.lt_succ_self _, h⟩
              · by_cases h4 : b.quote_classified.block.getD b.idx 0 = 93 ∨
                    b.quote_classified.block.getD b.idx 0 = 125
                · have e : Block.nextGo (fuel + 1) b =
                      (some (Structural.Closing b.idx), { b with idx := b.idx + 1 }) := by
                    rw [Block.nextGo] ; simp only [if_pos h, if_neg hq, if_neg h1, if_neg h2,
                      if_neg h3, if_pos h4]
                  rw [e]
                  refine ⟨rfl, rfl, ?_, ?_, ?_⟩
                  · exact Nat.le_succ _
                  · intro hc ; cases hc
                  · intro s _ ; exact ⟨Nat.lt_succ_self _, h⟩
                · have e : Block.nextGo (fuel + 1) b =
                      Block.nextGo fuel { b with idx := b.idx + 1 } := by
                    rw [Block.nextGo] ; simp only [if_pos h, if_neg hq, if_neg h1, if_neg h2,
                      if_neg h3, if_neg h4]
                  have ihb := ih { b with idx := b.idx + 1 } (by dsimp only ; omega)
                  dsimp only at ihb
                  rw [e]
                  refine ⟨ihb.1, ihb.2.1, by have := ihb.2.2.1 ; omega, ?_, ?_⟩
                  · intro hn
                    have := ihb.2.2.2.1 hn
                    omega
                  · intro s hs
                    have := ihb.2.2.2.2 s hs
                    omega
      · have e : Block.nextGo (fuel + 1) b = (none, b) := by
          rw [Block.nextGo] ; simp only [if_neg h]
        rw [e]
        refine ⟨rfl, rfl, le_refl _, ?_, ?_⟩
        · intro _ ; dsimp only ; omega
        · intro s hc ; cases hc

/-- State facts about one `Block::next` call: the underlying block and the
comma toggle never change, the cursor only moves forward, it ends at or past
the block length exactly when no event is produced, and an event leaves the
cursor within the block. -/
theorem Block.next_state (b : Block) :
    (Block.next b).2.quote_classified = b.quote_classified ∧
    (Block.next b).2.are_commas_on = b.are_commas_on ∧
    b.idx ≤ (Block.next b).2.idx ∧
    ((Block.next b).1 = none → b.quote_classified.block.length ≤ (Block.next b).2.idx) ∧
    (∀ s, (Block.next b).1 = some s →
      b.idx < (Block.next b).2.idx ∧
      (Block.next b).2.idx ≤ b.quote_classified.block.length) :=
  Block.nextGo_state _ b (le_refl _)

/-- An exhausted block yields nothing and is left unchanged. -/
theorem Block.next_exhausted (b : Block)
    (h : b.quote_classified.block.length ≤ b.idx) : Block.next b = (none, b) := by
  unfold Block.next
  have hz : b.quote_classified.block.length - b.idx = 0 := by omega
  rw [hz, Block.nextGo]


/-- State facts about the block-pulling loop: the comma toggle is preserved;
the retained block is either untouched or a freshly pulled one carrying the
classifier's toggle (exhausted whenever the loop produced no event); and a
`none` result means the iterator ran dry. -/
theorem SequentialClassifier.nextLoopGo_state (fuel : Nat) (c : SequentialClassifier)
    (hf : c.iter.rest.length ≤ fuel) :
    (SequentialClassifier.nextLoopGo fuel c).2.are_commas_on = c.are_commas_on ∧
    ((SequentialClassifier.nextLoopGo fuel c).2.block = c.block ∨
      ∃ b, (SequentialClassifier.nextLoopGo fuel c).2.block = some b ∧
        b.are_commas_on = c.are_commas_on ∧
        ((SequentialClassifier.nextLoopGo fuel c).1 = none →
          b.quote_classified.block.length ≤ b.idx)) ∧
    ((SequentialClassifier.nextLoopGo fuel c).1 = none →
      (SequentialClassifier.nextLoopGo fuel c).2.iter.rest = []) := by
  induction fuel generalizing c with
  | zero =>
      have hr : c.iter.rest = [] := List.length_eq_zero.mp (by omega)
      have e : SequentialClassifier.nextLoopGo 0 c = (none, c) := rfl
      rw [e]
      exact ⟨rfl, Or.inl rfl, fun _ => hr⟩
  | succ fuel ih =>
      cases hr : c.iter.rest with
      | nil =>
          have e : SequentialClassifier.nextLoopGo (fuel + 1) c = (none, c) := by
            rw [SequentialClassifier.nextLoopGo, hr]
          rw [e]
          exact ⟨rfl, Or.inl rfl, fun _ => hr⟩
      | cons qb rest' =>
          cases hr1 : (Block.next ⟨qb, 0, c.are_commas_on⟩).1 with
          | some s =>
              have e : SequentialClassifier.nextLoopGo (fuel + 1) c =
                  (some (s.offset (QuoteIter.get_offset
                      ⟨rest', c.iter.consumed + qb.block.length, qb.block.length⟩)),
                    ⟨⟨rest', c.iter.consumed + qb.block.length, qb.block.length⟩,
                      some (Block.next ⟨qb, 0, c.are_commas_on⟩).2, c.are_commas_on⟩) := by
                rw [SequentialClassifier.nextLoopGo, hr]
                simp only [hr1]
              rw [e]
              refine ⟨rfl, Or.inr ⟨(Block.next ⟨qb, 0, c.are_commas_on⟩).2, rfl, ?_, ?_⟩, ?_⟩
              · exact (Block.next_state ⟨qb, 0, c.are_commas_on⟩).2.1
              · intro hc; cases hc
              · intro hc; cases hc
          | none =>
              have e : SequentialClassifier.nextLoopGo (fuel + 1) c =
                  SequentialClassifier.nextLoopGo fuel
                    ⟨⟨rest', c.iter.consumed + qb.block.length, qb.block.length⟩,
                      some (Block.next ⟨qb, 0, c.are_commas_on⟩).2, c.are_commas_on⟩ := by
                rw [SequentialClassifier.nextLoopGo, hr]
                simp only [hr1]
              rw [e]
              have hf' : rest'.length ≤ fuel := by
                have := hf
                rw [hr] at this
                simpa using this
              have ihc := ih ⟨⟨rest', c.iter.consumed + qb.block.length, qb.block.length⟩,
                some (Block.next ⟨qb, 0, c.are_commas_on⟩).2, c.are_commas_on⟩ hf'
              refine ⟨ihc.1, ?_, ihc.2.2⟩
              rcases ihc.2.1 with hb | ⟨b, hb, hflag, hex⟩
              · rw [hb]
                refine Or.inr ⟨(Block.next ⟨qb, 0, c.are_commas_on⟩).2, rfl, ?_, ?_⟩
                · exact (Block.next_state ⟨qb, 0, c.are_commas_on⟩).2.1
                · intro _
                  rw [(Block.next_state ⟨qb, 0, c.are_commas_on⟩).1]
                  exact (Block.next_state ⟨qb, 0, c.are_commas_on⟩).2.2.2.1 hr1
              · exact Or.inr ⟨b, hb, hflag, hex⟩

/-- States with an empty iterator and an absent or exhausted retained block:
the terminal states of the classifier. -/
def SequentialClassifier.Drained (c : SequentialClassifier) : Prop :=
  c.iter.rest = [] ∧
  (c.block = none ∨ ∃ b, c.block = some b ∧ b.quote_classified.block.length ≤ b.idx)

/-- If `next` produces no event, the resulting classifier is drained. -/
theorem SequentialClassifier.next_none_drained (c : SequentialClassifier)
    (h : (SequentialClassifier.next c).1 = none) :
    SequentialClassifier.Drained (SequentialClassifier.next c).2 := by
  cases hb : c.block with
  | none =>
      have e : SequentialClassifier.next c = SequentialClassifier.nextLoop c := by
        rw [SequentialClassifier.next, hb]
      rw [e] at h ⊢
      rw [SequentialClassifier.nextLoop] at h ⊢
      have hs := SequentialClassifier.nextLoopGo_state c.iter.rest.length c (le_refl _)
      refine ⟨hs.2.2 h, ?_⟩
      rcases hs.2.1 with hbk | ⟨b, hbk, _, hex⟩
      · rw [hbk, hb]; exact Or.inl rfl
      · exact Or.inr ⟨b, hbk, hex h⟩
  | some b =>
      cases hr1 : (Block.next b).1 with
      | some s =>
          have e : (SequentialClassifier.next c).1 = some (s.offset c.iter.get_offset) := by
            rw [SequentialClassifier.next, hb]
            simp only [hr1]
          rw [e] at h
          cases h
      | none =>
          have e : SequentialClassifier.next c = SequentialClassifier.nextLoop
              { c with block := some (Block.next b).2 } := by
            rw [SequentialClassifier.next, hb]
            simp only [hr1]
          rw [e] at h ⊢
          rw [SequentialClassifier.nextLoop] at h ⊢
          have hs := SequentialClassifier.nextLoopGo_state _
            { c with block := some (Block.next b).2 } (le_refl _)
          refine ⟨hs.2.2 h, ?_⟩
          rcases hs.2.1 with hbk | ⟨b', hbk, _, hex⟩
          · rw [hbk]
            refine Or.inr ⟨(Block.next b).2, rfl, ?_⟩
            rw [(Block.next_state b).1]
            exact (Block.next_state b).2.2.2.1 hr1
          · exact Or.inr ⟨b', hbk, hex h⟩

/-- A drained classifier yields no further events and does not change. -/
theorem SequentialClassifier.drained_next (c : SequentialClassifier)
    (h : SequentialClassifier.Drained c) :
    SequentialClassifier.next c = (none, c) := by
  obtain ⟨hrest, hblk⟩ := h
  have hloop : SequentialClassifier.nextLoop c = (none, c) := by
    rw [SequentialClassifier.nextLoop, hrest]
    rfl
  rcases hblk with hb | ⟨b, hb, hex⟩
  · rw [SequentialClassifier.next, hb]
    exact hloop
  · rw [SequentialClassifier.next, hb]
    have hbe : Block.next b = (none, b) := Block.next_exhausted b hex
    simp only [hbe]
    have hc : ({ c with block := some b } : SequentialClassifier) = c := by
      cases c
      simp only at hb
      rw [hb]
    rw [hc]
    exact hloop

/-- Once `next` returns `none`, it keeps returning `none` with an unchanged
state (the classifier iterator is fused). -/
theorem SequentialClassifier.next_none_stable (c : SequentialClassifier)
    (h : (SequentialClassifier.next c).1 = none) :
    SequentialClassifier.next (SequentialClassifier.next c).2 =
      (none, (SequentialClassifier.next c).2) :=
  SequentialClassifier.drained_next _ (SequentialClassifier.next_none_drained c h)

/-- Classifier states whose comma toggle is off, both on the classifier and
on the retained block. -/
def SequentialClassifier.CommasOff (c : SequentialClassifier) : Prop :=
  c.are_commas_on = false ∧ ∀ b, c.block = some b → b.are_commas_on = false

/-- One classifier step preserves `CommasOff`. -/
theorem SequentialClassifier.next_commasOff (c : SequentialClassifier)
    (h : SequentialClassifier.CommasOff c) :
    SequentialClassifier.CommasOff (SequentialClassifier.next c).2 := by
  obtain ⟨h1, h2⟩ := h
  have loopOff : ∀ c' : SequentialClassifier, c'.are_commas_on = false →
      (∀ b, c'.block = some b → b.are_commas_on = false) →
      SequentialClassifier.CommasOff (SequentialClassifier.nextLoop c').2 := by
    intro c' h1' h2'
    have hs := SequentialClassifier.nextLoopGo_state c'.iter.rest.length c' (le_refl _)
    rw [SequentialClassifier.nextLoop]
    constructor
    · rw [hs.1, h1']
    · intro b hb
      rcases hs.2.1 with hbk | ⟨b', hbk, hflag, _⟩
      · exact h2' b (by rw [← hbk]; exact hb)
      · rw [hb] at hbk
        cases hbk
        rw [hflag, h1']
  cases hb : c.block with
  | none =>
      have e : SequentialClassifier.next c = SequentialClassifier.nextLoop c := by
        rw [SequentialClassifier.next, hb]
      rw [e]
      exact loopOff c h1 h2
  | some b =>
      have hbflag : (Block.next b).2.are_commas_on = false := by
        rw [(Block.next_state b).2.1]
        exact h2 b hb
      cases hr1 : (Block.next b).1 with
      | some s =>
          have e : SequentialClassifier.next c =
              (some (s.offset c.iter.get_offset), { c with block := some (Block.next b).2 }) := by
            rw [SequentialClassifier.next, hb]
            simp only [hr1]
          rw [e]
          refine ⟨h1, ?_⟩
          intro b' hb'
          cases hb'
          exact hbflag
      | none =>
          have e : SequentialClassifier.next c = SequentialClassifier.nextLoop
              { c with block := some (Block.next b).2 } := by
            rw [SequentialClassifier.next, hb]
            simp only [hr1]
          rw [e]
          refine loopOff _ h1 ?_
          intro b' hb'
          cases hb'
          exact hbflag

/-- `resume (stop c)` restores `c` exactly when the comma toggle was off. -/
theorem SequentialClassifier.resume_stop_eq (c : SequentialClassifier)
    (h : SequentialClassifier.CommasOff c) :
    SequentialClassifier.resume (SequentialClassifier.stop c) = c := by
  obtain ⟨h1, h2⟩ := h
  cases c with
  | mk iter block flag =>
      cases block with
      | none =>
          simp only at h1
          rw [SequentialClassifier.resume, SequentialClassifier.stop]
          simp only [Option.map_none']
          rw [h1]
      | some b =>
          cases b with
          | mk qc bidx bflag =>
              simp only at h1
              have : bflag = false := h2 ⟨qc, bidx, bflag⟩ rfl
              rw [SequentialClassifier.resume, SequentialClassifier.stop]
              simp only [Option.map_some']
              rw [h1, this]

/-- A classifier fixed by `next` absorbs every `takeEvents`. -/
theorem takeEvents_of_fixed (m : Nat) (c : SequentialClassifier)
    (h : SequentialClassifier.next c = (none, c)) : takeEvents m c = ([], c) := by
  induction m with
  | zero => rfl
  | succ m _ =>
      rw [takeEvents]
      split
      · next c' he => rw [h] at he; cases he; rfl
      · next s c' he => rw [h] at he; cases he

/-- Splitting a `takeEvents` run: the first `k` events followed by the next
`m` events from the intermediate state give the `k + m` event run. -/
theorem takeEvents_add (k m : Nat) (c : SequentialClassifier) :
    takeEvents (k + m) c =
      ((takeEvents k c).1 ++ (takeEvents m (takeEvents k c).2).1,
        (takeEvents m (takeEvents k c).2).2) := by
  induction k generalizing c with
  | zero =>
      simp only [Nat.zero_add, takeEvents, List.nil_append]
  | succ k ih =>
      have hkm : k + 1 + m = (k + m) + 1 := by omega
      rw [hkm, takeEvents, takeEvents]
      cases hn : SequentialClassifier.next c with
      | mk o c' =>
          cases o with
          | none =>
              simp only
              have hfix := SequentialClassifier.next_none_stable c (by rw [hn])
              rw [hn] at hfix
              simp only at hfix
              rw [takeEvents_of_fixed m c' hfix]
              rfl
          | some s =>
              simp only
              rw [ih c']
              rfl

/-- `takeEvents` preserves `CommasOff`. -/
theorem takeEvents_commasOff (k : Nat) (c : SequentialClassifier)
    (h : SequentialClassifier.CommasOff c) :
    SequentialClassifier.CommasOff (takeEvents k c).2 := by
  induction k generalizing c with
  | zero => exact h
  | succ k ih =>
      rw [takeEvents]
      cases hn : SequentialClassifier.next c with
      | mk o c' =>
          have hc' : SequentialClassifier.CommasOff c' := by
            have := SequentialClassifier.next_commasOff c h
            rw [hn] at this
            exact this
          cases o with
          | none => exact hc'
          | some s =>
              simp only
              exact ih c' hc'

/-- The structural classification of a single byte `ch` at position `i`,
with the comma toggle `commas`: the per-character match of `Block::next`. -/
def structuralOf (commas : Bool) (ch : Nat) (i : Nat) : Option Structural :=
  if ch = 58 then some (Structural.Colon i)
  else if ch = 91 ∨ ch = 123 then some (Structural.Opening i)
  else if ch = 44 ∧ commas then some (Structural.Comma i)
  else if ch = 93 ∨ ch = 125 then some (Structural.Closing i)
  else none

/-- Specification of the events of one block from position `start` on: the
structural characters at non-quoted positions, in position order.  This is
the set `structural & ~within_quotes` of the bit-parallel classifiers. -/
def blockSpec (qb : QuoteClassifiedBlock) (commas : Bool) (start : Nat) : List Structural :=
  (List.range' start (qb.block.length - start)).filterMap fun i =>
    if qb.within_quotes_mask.testBit i then none
    else structuralOf commas (qb.block.getD i 0) i

/-- Collect all remaining events of one block (fuel-based). -/
def Block.eventsGo : Nat → Block → List Structural
  | 0, _ => []
  | fuel + 1, b =>
    match Block.next b with
    | (none, _) => []
    | (some s, b') => s :: Block.eventsGo fuel b'

/-- Collect all remaining events of one block. -/
def Block.events (b : Block) : List Structural :=
  Block.eventsGo (b.quote_classified.block.length - b.idx) b

theorem blockSpec_of_ge (qb : QuoteClassifiedBlock) (commas : Bool) (start : Nat)
    (h : qb.block.length ≤ start) : blockSpec qb commas start = [] := by
  rw [blockSpec]
  have : qb.block.length - start = 0 := by omega
  rw [this]
  rfl

theorem blockSpec_of_lt (qb : QuoteClassifiedBlock) (commas : Bool) (start : Nat)
    (h : start < qb.block.length) :
    blockSpec qb commas start =
      (match (if qb.within_quotes_mask.testBit start then none
          else structuralOf commas (qb.block.getD start 0) start : Option Structural) with
        | none => []
        | some s => [s]) ++ blockSpec qb commas (start + 1) := by
  rw [blockSpec, blockSpec]
  have h1 : qb.block.length - start = (qb.block.length - (start + 1)) + 1 := by omega
  rw [h1, List.range'_succ, List.filterMap_cons]
  cases hv : (if qb.within_quotes_mask.testBit start then none
      else structuralOf commas (qb.block.getD start 0) start : Option Structural) with
  | none => simp
  | some s => simp

/-- The per-block scan agrees with `blockSpec`: a `none` result means the
specification is empty, and a produced event is the specification's head with
the cursor placed directly after it. -/
theorem Block.nextGo_spec (fuel : Nat) (b : Block)
    (hf : b.quote_classified.block.length - b.idx ≤ fuel) :
    blockSpec b.quote_classified b.are_commas_on b.idx =
      match (Block.nextGo fuel b).1 with
      | none => []
      | some s => s :: blockSpec b.quote_classified b.are_commas_on (Block.nextGo fuel b).2.idx := by
  induction fuel generalizing b with
  | zero =>
      have e : Block.nextGo 0 b = (none, b) := rfl
      rw [e]
      exact blockSpec_of_ge _ _ _ (by omega)
  | succ fuel ih =>
      by_cases h : b.idx < b.quote_classified.block.length
      · rw [blockSpec_of_lt _ _ _ h]
        by_cases hq : b.quote_classified.within_quotes_mask.testBit b.idx
        · have e : Block.nextGo (fuel + 1) b = Block.nextGo fuel { b with idx := b.idx + 1 } := by
            rw [Block.nextGo] ; simp only [if_pos h, if_pos hq]
          rw [e, if_pos hq]
          have := ih { b with idx := b.idx + 1 } (by dsimp only ; omega)
          dsimp only at this
          rw [List.nil_append]
          exact this
        · rw [if_neg hq]
          by_cases h1 : b.quote_classified.block.getD b.idx 0 = 58
          · have e : Block.nextGo (fuel + 1) b =
                (some (Structural.Colon b.idx), { b with idx := b.idx + 1 }) := by
              rw [Block.nextGo] ; simp only [if_pos h, if_neg hq, if_pos h1]
            rw [e, structuralOf, if_pos h1]
            rfl
          · by_cases h2 : b.quote_classified.block.getD b.idx 0 = 91 ∨
                b.quote_classified.block.getD b.idx 0 = 123
            · have e : Block.nextGo (fuel + 1) b =
                  (some (Structural.Opening b.idx), { b with idx := b.idx + 1 }) := by
                rw [Block.nextGo] ; simp only [if_pos h, if_neg hq, if_neg h1, if_pos h2]
              rw [e, structuralOf, if_neg h1, if_pos h2]
              rfl
            · by_cases h3 : b.quote_classified.block.getD b.idx 0 = 44 ∧ b.are_commas_on
              · have e : Block.nextGo (fuel + 1) b =
                    (some (Structural.Comma b.idx), { b with idx := b.idx + 1 }) := by
                  rw [Block.nextGo] ; simp only [if_pos h, if_neg hq, if_neg h1, if_neg h2,
                    if_pos h3]
                rw [e, structuralOf, if_neg h1, if_neg h2, if_pos h3]
                rfl
              · by_cases h4 : b.quote_classified.block.getD b.idx 0 = 93 ∨
                    b.quote_classified.block.getD b.idx 0 = 125
                · have e : Block.nextGo (fuel + 1) b =
                      (some (Structural.Closing b.idx), { b with idx := b.idx + 1 }) := by
                    rw [Block.nextGo] ; simp only [if_pos h, if_neg hq, if_neg h1, if_neg h2,
                      if_neg h3, if_pos h4]
                  rw [e, structuralOf, if_neg h1, if_neg h2, if_neg h3, if_pos h4]
                  rfl
                · have e : Block.nextGo (fuel + 1) b =
                      Block.nextGo fuel { b with idx := b.idx + 1 } := by
                    rw [Block.nextGo] ; simp only [if_pos h, if_neg hq, if_neg h1, if_neg h2,
                      if_neg h3, if_neg h4]
                  rw [e, structuralOf, if_neg h1, if_neg h2, if_neg h3, if_neg h4]
                  have := ih { b with idx := b.idx + 1 } (by dsimp only ; omega)
                  dsimp only at this
                  rw [List.nil_append]
                  exact this
      · have e : Block.nextGo (fuel + 1) b = (none, b) := by
          rw [Block.nextGo] ; simp only [if_neg h]
        rw [e]
        exact blockSpec_of_ge _ _ _ (by omega)

/-- The events of a block are exactly its `blockSpec`. -/
theorem Block.eventsGo_eq (fuel : Nat) (b : Block)
    (hf : b.quote_classified.block.length - b.idx ≤ fuel) :
    Block.eventsGo fuel b = blockSpec b.quote_classified b.are_commas_on b.idx := by
  induction fuel generalizing b with
  | zero =>
      rw [Block.eventsGo, blockSpec_of_ge _ _ _ (by omega)]
  | succ fuel ih =>
      rw [Block.eventsGo]
      have hspec := Block.nextGo_spec (b.quote_classified.block.length - b.idx) b (le_refl _)
      cases hn : Block.next b with
  | mk o b' =>
      cases o with
      | none =>
          rw [Block.next] at hn
          rw [hn] at hspec
          simp only at hspec
          rw [hspec]
      | some s =>
          rw [Block.next] at hn
          rw [hn] at hspec
          simp only at hspec
          have hst := Block.next_state b
          rw [Block.next, hn] at hst
          have hidx : b.idx < b'.idx ∧ b'.idx ≤ b.quote_classified.block.length :=
            hst.2.2.2.2 s rfl
          have ihb := ih b' (by rw [hst.1] ; omega)
          dsimp only
          rw [ihb, hspec, hst.1, hst.2.1]

theorem Block.events_eq (b : Block) :
    Block.events b = blockSpec b.quote_classified b.are_commas_on b.idx :=
  Block.eventsGo_eq _ b (le_refl _)

theorem structuralOf_comma (commas : Bool) (ch i j : Nat)
    (h : structuralOf commas ch i = some (Structural.Comma j)) : commas = true := by
  rw [structuralOf] at h
  split at h
  · cases h
  · split at h
    · cases h
    · split at h
      · next hc => exact hc.2
      · split at h
        · cases h
        · cases h

theorem structuralOf_idx (commas : Bool) (ch i : Nat) (s : Structural)
    (h : structuralOf commas ch i = some s) : s.idx = i := by
  rw [structuralOf] at h
  split at h
  · cases h ; rfl
  · split at h
    · cases h ; rfl
    · split at h
      · cases h ; rfl
      · split at h
        · cases h ; rfl
        · cases h

theorem blockSpec_comma (qb : QuoteClassifiedBlock) (commas : Bool) (start j : Nat)
    (h : Structural.Comma j ∈ blockSpec qb commas start) : commas = true := by
  rw [blockSpec] at h
  obtain ⟨i, _, hi⟩ := List.mem_filterMap.mp h
  split at hi
  · cases hi
  · exact structuralOf_comma _ _ _ _ hi

theorem Block.next_comma (b : Block) (j : Nat)
    (h : (Block.next b).1 = some (Structural.Comma j)) : b.are_commas_on = true := by
  have hspec := Block.nextGo_spec (b.quote_classified.block.length - b.idx) b (le_refl _)
  rw [show Block.nextGo (b.quote_classified.block.length - b.idx) b = Block.next b from rfl]
    at hspec
  rw [h] at hspec
  exact blockSpec_comma _ _ _ j (by rw [hspec] ; exact List.mem_cons_self _ _)

theorem Structural.offset_comma (s : Structural) (amount j : Nat)
    (h : s.offset amount = Structural.Comma j) : ∃ i, s = Structural.Comma i := by
  cases s with
  | Comma i => exact ⟨i, rfl⟩
  | Closing i => cases h
  | Colon i => cases h
  | Opening i => cases h

theorem SequentialClassifier.nextLoopGo_comma (fuel : Nat) (c : SequentialClassifier) (j : Nat)
    (h : (SequentialClassifier.nextLoopGo fuel c).1 = some (Structural.Comma j)) :
    c.are_commas_on = true := by
  induction fuel generalizing c with
  | zero => cases h
  | succ fuel ih =>
      cases hr : c.iter.rest with
      | nil =>
          rw [SequentialClassifier.nextLoopGo, hr] at h
          cases h
      | cons qb rest' =>
          cases hr1 : (Block.next ⟨qb, 0, c.are_commas_on⟩).1 with
          | some s =>
              rw [SequentialClassifier.nextLoopGo, hr] at h
              simp only [hr1] at h
              obtain ⟨i, hi⟩ := Structural.offset_comma s _ j (Option.some.inj h)
              rw [hi] at hr1
              exact Block.next_comma _ i hr1
          | none =>
              rw [SequentialClassifier.nextLoopGo, hr] at h
              simp only [hr1] at h
              have hrec := ih ⟨⟨rest', c.iter.consumed + qb.block.length, qb.block.length⟩,
                some (Block.next ⟨qb, 0, c.are_commas_on⟩).2, c.are_commas_on⟩ h
              exact hrec

theorem SequentialClassifier.classifier_next_comma (c : SequentialClassifier) (j : Nat)
    (hc : SequentialClassifier.CommasOff c) :
    (SequentialClassifier.next c).1 ≠ some (Structural.Comma j) := by
  intro h
  obtain ⟨h1, h2⟩ := hc
  cases hb : c.block with
  | none =>
      rw [SequentialClassifier.next, hb, SequentialClassifier.nextLoop] at h
      have := SequentialClassifier.nextLoopGo_comma _ c j h
      rw [h1] at this
      cases this
  | some b =>
      cases hr1 : (Block.next b).1 with
      | some s =>
          rw [SequentialClassifier.next, hb] at h
          simp only [hr1] at h
          obtain ⟨i, hi⟩ := Structural.offset_comma s _ j (Option.some.inj h)
          rw [hi] at hr1
          have := Block.next_comma b i hr1
          rw [h2 b hb] at this
          cases this
      | none =>
          rw [SequentialClassifier.next, hb] at h
          simp only [hr1] at h
          rw [SequentialClassifier.nextLoop] at h
          have := SequentialClassifier.nextLoopGo_comma _ _ j h
          simp only at this
          rw [h1] at this
          cases this

theorem takeEvents_no_comma (k : Nat) (c : SequentialClassifier)
    (hc : SequentialClassifier.CommasOff c) (j : Nat) :
    Structural.Comma j ∉ (takeEvents k c).1 := by
  induction k generalizing c with
  | zero => intro h ; cases h
  | succ k ih =>
      intro h
      rw [takeEvents] at h
      cases hn : SequentialClassifier.next c with
      | mk o c' =>
          rw [hn] at h
          cases o with
          | none => cases h
          | some s =>
              simp only at h
              rcases List.mem_cons.mp h with hh | ht
              · apply SequentialClassifier.classifier_next_comma c j hc
                rw [hn, ← hh]
              · have hc' : SequentialClassifier.CommasOff c' := by
                  have := SequentialClassifier.next_commasOff c hc
                  rw [hn] at this
                  exact this
                exact ih c' hc' ht

theorem SequentialClassifier.resume_commasOff (st : ResumeClassifierState) :
    SequentialClassifier.CommasOff (SequentialClassifier.resume st) := by
  refine ⟨rfl, ?_⟩
  intro b hb
  rw [SequentialClassifier.resume] at hb
  cases hst : st.block with
  | none => rw [hst] at hb ; cases hb
  | some bs =>
      rw [hst] at hb
      simp only [Option.map_some'] at hb
      cases hb
      rfl

end Classify

/-- C1 (amended): over any quote-classified block sequence, stopping the
sequential structural classifier after `k` events and resuming yields a
continuation whose events, appended to the first `k`, equal the uninterrupted
event stream — provided the comma toggle is off (which it is for a freshly
constructed classifier that never had commas enabled).  The resume state
does not carry the `are_commas_on` flag, so the toggle-on case fails
(`c1_counterexample`). -/
theorem c1_stop_resume_roundtrip (blocks : List Classify.QuoteClassifiedBlock) (k m : Nat) :
    (Classify.takeEvents k (Classify.SequentialClassifier.new ⟨blocks, 0, 0⟩)).1 ++
      (Classify.takeEvents m (Classify.SequentialClassifier.resume
        (Classify.SequentialClassifier.stop
          (Classify.takeEvents k (Classify.SequentialClassifier.new ⟨blocks, 0, 0⟩)).2))).1 =
    (Classify.takeEvents (k + m) (Classify.SequentialClassifier.new ⟨blocks, 0, 0⟩)).1 := by
  have h0 : Classify.SequentialClassifier.CommasOff
      (Classify.SequentialClassifier.new ⟨blocks, 0, 0⟩) := by
    refine ⟨rfl, ?_⟩
    intro b hb
    cases hb
  have hk := Classify.takeEvents_commasOff k _ h0
  rw [Classify.SequentialClassifier.resume_stop_eq _ hk]
  rw [Classify.takeEvents_add k m _]

/-- C1 counterexample: with commas toggled on, stop/resume loses comma
events, because `resume` resets `are_commas_on` to `false`.  On
`[1,2]` the uninterrupted classifier emits `Opening 0, Comma 2, Closing 4`,
but stopping after one event and resuming emits only `Closing 4`. -/
theorem c1_counterexample :
    (Classify.takeEvents 3 ((Classify.SequentialClassifier.new
        ⟨[⟨[91, 49, 44, 50, 93], 0⟩], 0, 0⟩).turn_commas_on 0)).1 =
      [Structural.Opening 0, Structural.Comma 2, Structural.Closing 4] ∧
    (Classify.takeEvents 2 (Classify.SequentialClassifier.resume
        (Classify.SequentialClassifier.stop
          (Classify.takeEvents 1 ((Classify.SequentialClassifier.new
            ⟨[⟨[91, 49, 44, 50, 93], 0⟩], 0, 0⟩).turn_commas_on 0)).2))).1 =
      [Structural.Closing 4] ∧
    [Structural.Opening 0] ++ [Structural.Closing 4] ≠
      [Structural.Opening 0, Structural.Comma 2, Structural.Closing 4] := by
  refine ⟨by decide, by decide, by decide⟩

/-- C3: the events emitted by the structural classifier over a block are
exactly the structural characters at positions whose `within_quotes` bit is
clear (the set `structural & ~within_quotes`); in particular no structural
event is ever emitted from inside a string. -/
theorem c3_nonquoted_structural (qb : Classify.QuoteClassifiedBlock) (commas : Bool)
    (start : Nat) :
    Classify.Block.events ⟨qb, start, commas⟩ = Classify.blockSpec qb commas start ∧
    ∀ s ∈ Classify.Block.events ⟨qb, start, commas⟩,
      qb.within_quotes_mask.testBit s.idx = false ∧
      Classify.structuralOf commas (qb.block.getD s.idx 0) s.idx = some s := by
  have he := Classify.Block.events_eq ⟨qb, start, commas⟩
  refine ⟨he, ?_⟩
  intro s hs
  rw [he, Classify.blockSpec] at hs
  obtain ⟨i, _, hi⟩ := List.mem_filterMap.mp hs
  by_cases hq : qb.within_quotes_mask.testBit i
  · rw [if_pos hq] at hi
    cases hi
  · rw [if_neg hq] at hi
    have hidx : s.idx = i := Classify.structuralOf_idx _ _ _ _ hi
    rw [hidx]
    exact ⟨Bool.not_eq_true _ ▸ (by simpa using hq), hi⟩

/-- C3 witness: on the block `[,]` with commas on and empty quote mask, the
comma event at index 1 is emitted and its quote bit is clear. -/
theorem c3_witness :
    Structural.Comma 1 ∈ Classify.Block.events ⟨⟨[91, 44, 93], 0⟩, 0, true⟩ ∧
    (Classify.QuoteClassifiedBlock.mk [91, 44, 93] 0).within_quotes_mask.testBit
      (Structural.Comma 1).idx = false := by
  refine ⟨by decide, ?_⟩
  exact ((c3_nonquoted_structural ⟨[91, 44, 93], 0⟩ true 0).2 (Structural.Comma 1)
    (by decide)).1

/-- C10: after `resume(state)`, comma classification is disabled regardless
of the toggle state when `stop` was called: the resumed classifier and its
restored block both have `are_commas_on = false`, and no comma event is
emitted by the resumed classifier (until a fresh `turn_commas_on`). -/
theorem c10_resume_disables_commas (c : Classify.SequentialClassifier) :
    (Classify.SequentialClassifier.resume
      (Classify.SequentialClassifier.stop c)).are_commas_on = false ∧
    (∀ b, (Classify.SequentialClassifier.resume
        (Classify.SequentialClassifier.stop c)).block = some b →
      b.are_commas_on = false) ∧
    ∀ n j, Structural.Comma j ∉ (Classify.takeEvents n
      (Classify.SequentialClassifier.resume (Classify.SequentialClassifier.stop c))).1 := by
  have hoff := Classify.SequentialClassifier.resume_commasOff
    (Classify.SequentialClassifier.stop c)
  refine ⟨hoff.1, hoff.2, ?_⟩
  intro n j
  exact Classify.takeEvents_no_comma n _ hoff j

/-! ## Depth blocks (simdpath/src/bytes/depth.rs) -/

namespace DepthBlocks

/-- Opening brackets `{` and `[`. -/
def isOpening (b : Nat) : Bool := b = 123 || b = 91

/-- Closing brackets `}` and `]`. -/
def isClosing (b : Nat) : Bool := b = 125 || b = 93

/-- Depth contribution of a byte, the `match` of `nosimd::Vector::advance`. -/
def depthDelta (b : Nat) : Int :=
  if b = 123 then 1
  else if b = 91 then 1
  else if b = 125 then -1
  else if b = 93 then -1
  else 0

/-- Mirrors `nosimd::Vector` of depth.rs. -/
structure Vector where
  bytes : List Nat
  depth : Int
  idx : Nat
deriving DecidableEq, Repr

/-- Mirrors `nosimd::Vector::advance`. -/
def Vector.advance (v : Vector) : Bool × Vector :=
  if v.bytes.length ≤ v.idx then (false, v)
  else (true, ⟨v.bytes, v.depth + depthDelta (v.bytes.getD v.idx 0), v.idx + 1⟩)

/-- Mirrors `nosimd::Vector::new` (constructs, then advances once). -/
def Vector.new (bytes : List Nat) : Vector × List Nat :=
  ((Vector.advance ⟨bytes, 0, 0⟩).2, [])

/-- Mirrors `nosimd::Vector::is_depth_greater_or_equal_to`. -/
def Vector.is_depth_greater_or_equal_to (v : Vector) (depth : Int) : Bool :=
  decide (v.depth ≥ depth)

/-- The `while self.advance() {}` loop of `depth_at_end`, fuel-based. -/
def Vector.advanceAll : Nat → Vector → Vector
  | 0, v => v
  | fuel + 1, v =>
    match Vector.advance v with
    | (false, v') => v'
    | (true, v') => Vector.advanceAll fuel v'

/-- Mirrors `nosimd::Vector::depth_at_end`. -/
def Vector.depth_at_end (v : Vector) : Int :=
  (Vector.advanceAll (v.bytes.length - v.idx) v).depth

/-- Apply `advance` a given number of times, ignoring the moved flags (the
default `advance_by` loop). -/
def Vector.advanceBy : Nat → Vector → Vector
  | 0, v => v
  | p + 1, v => Vector.advanceBy p (Vector.advance v).2

/-- The mask construction of `LazyAvx2Vector::new_sequential`: shift the mask
right one bit per byte and set bit 31 for each byte satisfying `p`.  (The
Rust loop updates the opening and closing masks in one pass; the two folds
compute the same masks.) -/
def seqMask (p : Nat → Bool) (bytes : List Nat) : Nat :=
  bytes.foldl (fun m b => (m >>> 1) ||| (if p b then 2 ^ 31 else 0)) 0

/-- Mirrors `LazyAvx2Vector` of depth.rs. -/
structure LazyVector where
  opening_mask : Nat
  closing_mask : Nat
  len : Nat
  rev_idx : Nat
deriving DecidableEq, Repr

/-- Mirrors `LazyAvx2Vector::new_sequential` (the path taken for blocks of
fewer than 32 bytes; for exactly 32 bytes the AVX2 movemask path produces
the same masks, with byte `i` at bit `i`). -/
def LazyVector.new_sequential (bytes : List Nat) : LazyVector × List Nat :=
  (⟨seqMask isOpening bytes, seqMask isClosing bytes, bytes.length, bytes.length - 1⟩, [])

/-- Number of set bits among the low `t` bits. -/
def bitsBelow (m t : Nat) : Nat := (List.range t).countP fun i => m.testBit i

/-- Mirrors `u32::count_ones` for values below `2^32`. -/
def popcount32 (m : Nat) : Nat := bitsBelow m 32

/-- Mirrors `LazyAvx2Vector::advance`. -/
def LazyVector.advance (v : LazyVector) : Bool × LazyVector :=
  if v.rev_idx = 0 then (false, v)
  else (true, { v with rev_idx := v.rev_idx - 1 })

/-- Mirrors `LazyAvx2Vector::advance_by`. -/
def LazyVector.advance_by (v : LazyVector) (i : Nat) : Nat × LazyVector :=
  (min i v.rev_idx, { v with rev_idx := v.rev_idx - min i v.rev_idx })

/-- Mirrors `LazyAvx2Vector::is_depth_greater_or_equal_to`: the early-exit
popcount heuristic, then the exact depth from the shifted masks. -/
def LazyVector.is_depth_greater_or_equal_to (v : LazyVector) (depth : Int) : Bool :=
  if depth ≤ -(popcount32 v.closing_mask : Int) then true
  else
    decide ((popcount32 ((v.opening_mask <<< v.rev_idx) % 2 ^ 32) : Int) -
      (popcount32 ((v.closing_mask <<< v.rev_idx) % 2 ^ 32) : Int) ≥ depth)

/-- Mirrors `LazyAvx2Vector::depth_at_end`. -/
def LazyVector.depth_at_end (v : LazyVector) : Int :=
  (popcount32 v.opening_mask : Int) - (popcount32 v.closing_mask : Int)

/-- Apply lazy `advance` a given number of times. -/
def LazyVector.advanceBy : Nat → LazyVector → LazyVector
  | 0, v => v
  | p + 1, v => LazyVector.advanceBy p (LazyVector.advance v).2

theorem seqMask_lt (p : Nat → Bool) (bytes : List Nat) : seqMask p bytes < 2 ^ 32 := by
  induction bytes using List.reverseRecOn with
  | nil => exact Nat.pos_pow_of_pos 32 (by omega)
  | append_singleton bs b ih =>
      rw [seqMask, List.foldl_append, List.foldl_cons, List.foldl_nil]
      apply Nat.or_lt_two_pow
      · have h1 : List.foldl (fun m b => (m >>> 1) ||| (if p b then 2 ^ 31 else 0)) 0 bs
            = seqMask p bs := rfl
        rw [h1, Nat.shiftRight_eq_div_pow]
        have := Nat.div_le_self (seqMask p bs) (2 ^ 1)
        omega
      · split
        · norm_num
        · exact Nat.pos_pow_of_pos 32 (by omega)

theorem testBit_ite_topbit (c : Bool) (j : Nat) :
    (if c then (2 : Nat) ^ 31 else 0).testBit j = (c && decide (j = 31)) := by
  cases c with
  | false =>
      rw [if_neg (by simp)]
      simp [Nat.zero_testBit]
  | true =>
      rw [if_pos rfl, Nat.testBit_two_pow]
      by_cases hj : j = 31
      · subst hj ; simp
      · simp [hj, Ne.symm hj]

/-- Bit layout of `seqMask`: after processing `bytes` (at most 32 of them),
byte `i` sits at bit `32 - length + i`. -/
theorem seqMask_testBit (p : Nat → Bool) (bytes : List Nat) (h : bytes.length ≤ 32)
    (j : Nat) :
    (seqMask p bytes).testBit j =
      (decide (32 - bytes.length ≤ j) && decide (j < 32) &&
        p (bytes.getD (j - (32 - bytes.length)) 0)) := by
  induction bytes using List.reverseRecOn generalizing j with
  | nil =>
      simp only [seqMask, List.foldl_nil, Nat.zero_testBit, List.length_nil, Nat.sub_zero]
      by_cases h1 : 32 ≤ j
      · have h2 : ¬ j < 32 := by omega
        simp [h2]
      · simp [h1]
  | append_singleton bs b ih =>
      have hL : bs.length + 1 ≤ 32 := by
        simp only [List.length_append, List.length_singleton] at h
        omega
      have hsm : seqMask p (bs ++ [b]) = (seqMask p bs >>> 1) ||| (if p b then 2 ^ 31 else 0) := by
        rw [seqMask, List.foldl_append, List.foldl_cons, List.foldl_nil]
        rfl
      rw [hsm, Nat.testBit_or, Nat.testBit_shiftRight, testBit_ite_topbit,
        ih (by omega) (1 + j), List.length_append, List.length_singleton]
      by_cases hj32 : j < 32
      · by_cases hj31 : j = 31
        · subst hj31
          have e1 : ¬ (1 + 31 < 32) := by omega
          have e2 : 32 - (bs.length + 1) ≤ 31 := by omega
          have hidx : 31 - (32 - (bs.length + 1)) = bs.length := by omega
          rw [hidx, List.getD_append_right bs [b] 0 bs.length (le_refl _), Nat.sub_self]
          simp [e1, e2]
        · have e1 : (decide (j = 31)) = false := by simp [hj31]
          rw [e1, Bool.and_false, Bool.or_false]
          by_cases hge : 32 - (bs.length + 1) ≤ j
          · have hge2 : 32 - bs.length ≤ 1 + j := by omega
            have key : 1 + j - (32 - bs.length) = j - (32 - (bs.length + 1)) := by omega
            have hidxlt : j - (32 - (bs.length + 1)) < bs.length := by omega
            rw [key, List.getD_append bs [b] 0 _ hidxlt]
            have e3 : (1 + j < 32) := by omega
            simp [hge, hge2, e3, hj32, show 31 ≤ j + bs.length by omega]
          · have hlt2 : ¬ (32 - bs.length ≤ 1 + j) := by omega
            simp [hge, hlt2]
            intro h1 h2
            exact absurd h1 (by omega)
      · have e1 : ¬ (1 + j < 32) := by omega
        have e2 : j ≠ 31 := by omega
        simp [e1, e2, hj32]

theorem take_succ_getD (l : List Nat) (i : Nat) (h : i < l.length) (d : Nat) :
    l.take (i + 1) = l.take i ++ [l.getD i d] := by
  rw [List.take_succ, List.getElem?_eq_getElem h, List.getD_eq_getElem?_getD,
    List.getElem?_eq_getElem h]
  simp

theorem bitsBelow_succ (m t : Nat) :
    bitsBelow m (t + 1) = bitsBelow m t + (if m.testBit t then 1 else 0) := by
  rw [bitsBelow, bitsBelow, List.range_succ, List.countP_append]
  simp [List.countP_cons]

theorem bitsBelow_shiftLeft_one (m t : Nat) :
    bitsBelow (m <<< 1) (t + 1) = bitsBelow m t := by
  induction t with
  | zero =>
      rw [bitsBelow, bitsBelow]
      simp [List.countP_cons, Nat.testBit_shiftLeft]
  | succ t ih =>
      rw [bitsBelow_succ, ih, bitsBelow_succ]
      have e : (m <<< 1).testBit (t + 1) = m.testBit t := by
        rw [Nat.testBit_shiftLeft]
        simp
      rw [e]

theorem bitsBelow_mod32 (m t : Nat) (h : t ≤ 32) :
    bitsBelow (m % 2 ^ 32) t = bitsBelow m t := by
  rw [bitsBelow, bitsBelow]
  apply List.countP_congr
  intro i hi
  rw [List.mem_range] at hi
  rw [Nat.testBit_mod_two_pow]
  simp [show i < 32 by omega]

theorem popcount32_shl (m r : Nat) (hr : r ≤ 32) :
    popcount32 ((m <<< r) % 2 ^ 32) = bitsBelow m (32 - r) := by
  induction r generalizing m with
  | zero =>
      rw [popcount32, Nat.shiftLeft_zero, bitsBelow_mod32 m 32 (le_refl _)]
  | succ r ih =>
      have e1 : m <<< (r + 1) = (m <<< 1) <<< r := by
        rw [show r + 1 = 1 + r by omega, Nat.shiftLeft_add]
      rw [e1, ih (m <<< 1) (by omega)]
      have e2 : 32 - r = (32 - (r + 1)) + 1 := by omega
      rw [e2, bitsBelow_shiftLeft_one]

theorem bitsBelow_seqMask (p : Nat → Bool) (bs : List Nat) (h : bs.length ≤ 32)
    (t : Nat) (ht : t ≤ 32) :
    bitsBelow (seqMask p bs) t = (bs.take (t - (32 - bs.length))).countP p := by
  induction t with
  | zero =>
      rw [bitsBelow]
      simp
  | succ t ih =>
      rw [bitsBelow_succ, ih (by omega), seqMask_testBit p bs h t]
      by_cases hge : 32 - bs.length ≤ t
      · have hidx : t - (32 - bs.length) < bs.length := by omega
        have e1 : t + 1 - (32 - bs.length) = (t - (32 - bs.length)) + 1 := by omega
        rw [e1, take_succ_getD bs _ hidx 0, List.countP_append]
        simp [List.countP_cons, hge, show t < 32 by omega]
      · have e1 : t + 1 - (32 - bs.length) = 0 := by omega
        have e2 : t - (32 - bs.length) = 0 := by omega
        rw [e1, e2]
        simp [hge]

/-- Popcount of the whole mask counts the matching bytes of the block. -/
theorem popcount32_seqMask (p : Nat → Bool) (bs : List Nat) (h : bs.length ≤ 32) :
    popcount32 (seqMask p bs) = bs.countP p := by
  rw [popcount32, bitsBelow_seqMask p bs h 32 (le_refl _)]
  have e : 32 - (32 - bs.length) = bs.length := by omega
  rw [e, List.take_length]

/-- Popcount of the shifted mask counts the matching bytes of the prefix up
to the cursor. -/
theorem popcount32_seqMask_shl (p : Nat → Bool) (bs : List Nat) (h : bs.length ≤ 32)
    (r : Nat) (hr : r ≤ 32) :
    popcount32 ((seqMask p bs <<< r) % 2 ^ 32) = (bs.take (bs.length - r)).countP p := by
  rw [popcount32_shl _ _ hr, bitsBelow_seqMask p bs h _ (by omega)]
  have e : 32 - r - (32 - bs.length) = bs.length - r := by omega
  rw [e]

/-- Sum of the depth contributions of a byte list. -/
def sumDelta (l : List Nat) : Int := (l.map depthDelta).sum

theorem depthDelta_eq (b : Nat) :
    depthDelta b = (if isOpening b then (1 : Int) else 0) - (if isClosing b then 1 else 0) := by
  rw [depthDelta, isOpening, isClosing]
  by_cases h1 : b = 123
  · subst h1 ; simp
  · by_cases h2 : b = 91
    · subst h2 ; simp
    · by_cases h3 : b = 125
      · subst h3 ; simp
      · by_cases h4 : b = 93
        · subst h4 ; simp
        · simp [h1, h2, h3, h4]

theorem sumDelta_eq (l : List Nat) :
    sumDelta l = (l.countP isOpening : Int) - (l.countP isClosing : Int) := by
  induction l with
  | nil => rfl
  | cons b l ih =>
      rw [sumDelta, List.map_cons, List.sum_cons,
        show (List.map depthDelta l).sum = sumDelta l from rfl, ih,
        List.countP_cons, List.countP_cons, depthDelta_eq]
      by_cases ho : isOpening b <;> by_cases hc : isClosing b <;>
        simp [ho, hc] <;> push_cast <;> omega

theorem sumDelta_append (l1 l2 : List Nat) :
    sumDelta (l1 ++ l2) = sumDelta l1 + sumDelta l2 := by
  rw [sumDelta, sumDelta, sumDelta, List.map_append, List.sum_append]

theorem Vector.advanceBy_succ (p : Nat) (v : Vector) :
    Vector.advanceBy (p + 1) v = (Vector.advance (Vector.advanceBy p v)).2 := by
  induction p generalizing v with
  | zero => rfl
  | succ p ih =>
      rw [Vector.advanceBy, ih (Vector.advance v).2]
      rfl

/-- State of the sequential vector after `new` and `p` more advances. -/
theorem Vector.advanceBy_state (bs : List Nat) (p : Nat) (hp : p < bs.length) :
    Vector.advanceBy p (Vector.new bs).1 = ⟨bs, sumDelta (bs.take (p + 1)), p + 1⟩ := by
  induction p with
  | zero =>
      rw [Vector.advanceBy, Vector.new, Vector.advance]
      rw [if_neg (by dsimp only ; omega)]
      dsimp only
      rw [take_succ_getD bs 0 (by omega) 0]
      simp [sumDelta]
  | succ p ih =>
      rw [Vector.advanceBy_succ, ih (by omega), Vector.advance]
      rw [if_neg (by dsimp only ; omega)]
      dsimp only
      rw [take_succ_getD bs (p + 1) (by omega) 0, sumDelta_append]
      simp [sumDelta]

theorem Vector.advanceAll_depth (fuel : Nat) (v : Vector)
    (hf : v.bytes.length - v.idx ≤ fuel) :
    (Vector.advanceAll fuel v).depth = v.depth + sumDelta (v.bytes.drop v.idx) := by
  induction fuel generalizing v with
  | zero =>
      rw [Vector.advanceAll, List.drop_eq_nil_of_le (by omega)]
      simp [sumDelta]
  | succ fuel ih =>
      rw [Vector.advanceAll]
      by_cases h : v.bytes.length ≤ v.idx
      · rw [Vector.advance, if_pos h]
        rw [List.drop_eq_nil_of_le h]
        simp [sumDelta]
      · rw [Vector.advance, if_neg h]
        dsimp only
        rw [ih ⟨v.bytes, v.depth + depthDelta (v.bytes.getD v.idx 0), v.idx + 1⟩
          (by dsimp only ; omega)]
        dsimp only
        have e : v.bytes.drop v.idx =
            v.bytes.getD v.idx 0 :: v.bytes.drop (v.idx + 1) := by
          rw [List.getD_eq_getElem?_getD, List.getElem?_eq_getElem (by omega)]
          exact List.drop_eq_getElem_cons (by omega)
        rw [e]
        simp only [sumDelta, List.map_cons, List.sum_cons]
        ring

/-- State of the lazy vector after `p` advances: only `rev_idx` moves. -/
theorem LazyVector.lazy_advanceBy_state (v : LazyVector) (p : Nat) (hp : p ≤ v.rev_idx) :
    LazyVector.advanceBy p v = { v with rev_idx := v.rev_idx - p } := by
  induction p generalizing v with
  | zero =>
      rw [LazyVector.advanceBy]
      cases v
      simp
  | succ p ih =>
      rw [LazyVector.advanceBy, LazyVector.advance, if_neg (by omega)]
      dsimp only
      rw [ih { v with rev_idx := v.rev_idx - 1 } (by dsimp only ; omega)]
      dsimp only
      congr 1
      omega

end DepthBlocks

/-- C7: on every decorated block (at most 32 bytes, as produced by the lazy
constructor paths), the lazy depth vector is equivalent to the sequential
one: at every cursor position `p`, `is_depth_greater_or_equal_to d` agrees
for every `d` — the popcount early-exit heuristic never changes the answer —
and `depth_at_end` of both equals the count of opening brackets minus the
count of closing brackets of the block. -/
theorem c7_lazy_sequential_equiv (bs : List Nat) (h1 : 1 ≤ bs.length)
    (h2 : bs.length ≤ 32) (p : Nat) (hp : p < bs.length) (d : Int) :
    DepthBlocks.LazyVector.is_depth_greater_or_equal_to
        (DepthBlocks.LazyVector.advanceBy p (DepthBlocks.LazyVector.new_sequential bs).1) d =
      DepthBlocks.Vector.is_depth_greater_or_equal_to
        (DepthBlocks.Vector.advanceBy p (DepthBlocks.Vector.new bs).1) d ∧
    DepthBlocks.LazyVector.depth_at_end (DepthBlocks.LazyVector.new_sequential bs).1 =
      (bs.countP DepthBlocks.isOpening : Int) - (bs.countP DepthBlocks.isClosing : Int) ∧
    DepthBlocks.Vector.depth_at_end (DepthBlocks.Vector.new bs).1 =
      (bs.countP DepthBlocks.isOpening : Int) - (bs.countP DepthBlocks.isClosing : Int) := by
  have hlazy : DepthBlocks.LazyVector.advanceBy p (DepthBlocks.LazyVector.new_sequential bs).1 =
      ⟨DepthBlocks.seqMask DepthBlocks.isOpening bs, DepthBlocks.seqMask DepthBlocks.isClosing bs,
        bs.length, bs.length - 1 - p⟩ := by
    rw [DepthBlocks.LazyVector.new_sequential]
    dsimp only
    rw [DepthBlocks.LazyVector.lazy_advanceBy_state _ p (by dsimp only ; omega)]
  have hseq := DepthBlocks.Vector.advanceBy_state bs p hp
  have hrev : bs.length - 1 - p ≤ 32 := by omega
  have hcount_shift : DepthBlocks.popcount32
        ((DepthBlocks.seqMask DepthBlocks.isOpening bs <<< (bs.length - 1 - p)) % 2 ^ 32) =
      (bs.take (p + 1)).countP DepthBlocks.isOpening := by
    rw [DepthBlocks.popcount32_seqMask_shl _ bs h2 _ hrev]
    have e : bs.length - (bs.length - 1 - p) = p + 1 := by omega
    rw [e]
  have hcount_shift_c : DepthBlocks.popcount32
        ((DepthBlocks.seqMask DepthBlocks.isClosing bs <<< (bs.length - 1 - p)) % 2 ^ 32) =
      (bs.take (p + 1)).countP DepthBlocks.isClosing := by
    rw [DepthBlocks.popcount32_seqMask_shl _ bs h2 _ hrev]
    have e : bs.length - (bs.length - 1 - p) = p + 1 := by omega
    rw [e]
  refine ⟨?_, ?_, ?_⟩
  · rw [hlazy, hseq, DepthBlocks.LazyVector.is_depth_greater_or_equal_to,
      DepthBlocks.Vector.is_depth_greater_or_equal_to]
    dsimp only
    rw [hcount_shift, hcount_shift_c, DepthBlocks.popcount32_seqMask _ bs h2,
      DepthBlocks.sumDelta_eq]
    by_cases hheur : d ≤ -((bs.countP DepthBlocks.isClosing : Nat) : Int)
    · rw [if_pos hheur]
      have hmono : (bs.take (p + 1)).countP DepthBlocks.isClosing ≤
          bs.countP DepthBlocks.isClosing :=
        (List.take_sublist _ _).countP_le _
      have : ((bs.take (p + 1)).countP DepthBlocks.isOpening : Int) -
          ((bs.take (p + 1)).countP DepthBlocks.isClosing : Int) ≥ d := by
        have hge0 : (0 : Int) ≤ ((bs.take (p + 1)).countP DepthBlocks.isOpening : Int) := by
          positivity
        have h1' : ((bs.take (p + 1)).countP DepthBlocks.isClosing : Int) ≤
            (bs.countP DepthBlocks.isClosing : Int) := by exact_mod_cast hmono
        omega
      simp [this]
    · rw [if_neg hheur]
  · rw [DepthBlocks.LazyVector.new_sequential, DepthBlocks.LazyVector.depth_at_end]
    dsimp only
    rw [DepthBlocks.popcount32_seqMask _ bs h2, DepthBlocks.popcount32_seqMask _ bs h2]
  · rw [DepthBlocks.Vector.depth_at_end]
    have hnew : (DepthBlocks.Vector.new bs).1 = ⟨bs, DepthBlocks.sumDelta (bs.take 1), 1⟩ := by
      have := DepthBlocks.Vector.advanceBy_state bs 0 (by omega)
      rw [DepthBlocks.Vector.advanceBy] at this
      exact this
    rw [hnew]
    rw [DepthBlocks.Vector.advanceAll_depth _ _ (by dsimp only ; omega)]
    dsimp only
    rw [show (1 : Nat) = min 1 bs.length by omega] at *
    rw [← DepthBlocks.sumDelta_append, List.take_append_drop, DepthBlocks.sumDelta_eq]

/-- C7 witness: the block `[0]` at cursor position 1 with query depth 1. -/
theorem c7_witness :
    DepthBlocks.LazyVector.is_depth_greater_or_equal_to
        (DepthBlocks.LazyVector.advanceBy 1 (DepthBlocks.LazyVector.new_sequential
          [91, 48, 93]).1) 1 =
      DepthBlocks.Vector.is_depth_greater_or_equal_to
        (DepthBlocks.Vector.advanceBy 1 (DepthBlocks.Vector.new [91, 48, 93]).1) 1 ∧
    DepthBlocks.LazyVector.depth_at_end (DepthBlocks.LazyVector.new_sequential
        [91, 48, 93]).1 =
      (List.countP DepthBlocks.isOpening [91, 48, 93] : Int) -
        (List.countP DepthBlocks.isClosing [91, 48, 93] : Int) :=
  ⟨(c7_lazy_sequential_equiv [91, 48, 93] (by decide) (by decide) 1 (by decide) 1).1,
    (c7_lazy_sequential_equiv [91, 48, 93] (by decide) (by decide) 1 (by decide) 1).2.1⟩

/-! ## Quote classification: the escaped mask (quotes/shared/mask_32.rs)

`BlockClassifier32Bit::classify` computes, from the 32-bit `slashes` and
`quotes` masks of a block and the inter-block `prev_block_mask` carry, the
mask of escaped characters.  The arithmetic on `u32` is embedded as `Nat`
with explicit truncation `% 2 ^ 32`. -/

namespace Quotes

/-- Mirrors `ODD` of mask_32.rs: bits on even positions. -/
def ODD : Nat := 0x55555555

/-- Mirrors `EVEN` of mask_32.rs: bits on odd positions. -/
def EVEN : Nat := 0xAAAAAAAA

/-- 32-bit bitwise complement, as `!x` computes on `u32`. -/
def not32 (x : Nat) : Nat := (2 ^ 32 - 1) ^^^ x

/-- Mirrors `get_prev_slash_mask`: `0x01` iff the first bit of the
inter-block state is lit, i.e. the previous block ended with an unescaped
escape character. -/
def prev_slash_mask (c : Bool) : Nat := if c then 1 else 0

/-- Mirrors `slashes_excluding_escaped_first` of `classify`. -/
def slashes_excluding (slashes : Nat) (c : Bool) : Nat :=
  slashes &&& not32 (prev_slash_mask c)

/-- Mirrors `starts` of `classify`; the `<< 1` wraps on `u32`. -/
def starts (slashes : Nat) (c : Bool) : Nat :=
  slashes_excluding slashes c &&&
    not32 ((slashes_excluding slashes c <<< 1) % 2 ^ 32)

/-- Mirrors `odd_starts` of `classify`. -/
def odd_starts (slashes : Nat) (c : Bool) : Nat := ODD &&& starts slashes c

/-- Mirrors `even_starts` of `classify`. -/
def even_starts (slashes : Nat) (c : Bool) : Nat := EVEN &&& starts slashes c

/-- Mirrors `ends_of_odd_starts` of `classify`, with the wrapping add
`odd_starts_carry = odd_starts.wrapping_add(slashes)` inlined. -/
def ends_of_odd_starts (slashes : Nat) (c : Bool) : Nat :=
  (odd_starts slashes c + slashes) % 2 ^ 32 &&& not32 slashes

/-- Mirrors `ends_of_even_starts` of `classify`, with the overflowing add
`even_starts_carry` inlined. -/
def ends_of_even_starts (slashes : Nat) (c : Bool) : Nat :=
  (even_starts slashes c + slashes) % 2 ^ 32 &&& not32 slashes

/-- Mirrors the `escaped` result of `BlockClassifier32Bit::classify`: the
`slashes == 0` branch returns the prev_slash carry alone, the other branch
combines the ends of odd and even starts with the carry bit. -/
def escaped (slashes : Nat) (c : Bool) : Nat :=
  if slashes = 0 then prev_slash_mask c
  else
    (ends_of_odd_starts slashes c &&& EVEN) |||
      (ends_of_even_starts slashes c &&& ODD) ||| prev_slash_mask c

/-- Mirrors `set_prev_slash_mask` of `classify`: the overflow flag of
`even_starts.overflowing_add(slashes)` (`false` when `slashes == 0`). -/
def set_prev_slash_mask (slashes : Nat) (c : Bool) : Bool :=
  if slashes = 0 then false
  else decide (2 ^ 32 ≤ even_starts slashes c + slashes)

/-- The sequential escaping recurrence: position `0` is escaped iff the
prev_slash carry is set, and position `i + 1` is escaped iff position `i`
holds a backslash that is not itself escaped. -/
def escSeq (slashes : Nat) (c : Bool) : Nat → Bool
  | 0 => c
  | i + 1 => slashes.testBit i && !escSeq slashes c i

/-- Length of the maximal run of consecutive backslashes ending right
below position `i`. -/
def backRun (slashes : Nat) : Nat → Nat
  | 0 => 0
  | i + 1 => if slashes.testBit i then backRun slashes i + 1 else 0

/-- Follows the spec's words: bit `i` of the escaped mask should be set
exactly when an odd-length (maximal) run of backslashes ends at position
`i - 1`, where a run reaching position `0` is extended by one backslash
when the prev_slash carry says the previous block ended with an unescaped
backslash, and bit `0` is escaped exactly when the carry is set. -/
def escapedSpec (slashes : Nat) (c : Bool) (i : Nat) : Bool :=
  if i = 0 then c
  else
    !slashes.testBit i &&
      decide (Odd (backRun slashes i +
        if backRun slashes i = i ∧ c = true then 1 else 0))

/-- The carry into bit `i` when adding two naturals. -/
def carryAt (a b : Nat) : Nat → Bool
  | 0 => false
  | i + 1 =>
    (a.testBit i && b.testBit i) || (a.testBit i && carryAt a b i) ||
      (b.testBit i && carryAt a b i)

theorem mod_pow_succ (x i : Nat) :
    x % 2 ^ (i + 1) = x % 2 ^ i + (x.testBit i).toNat * 2 ^ i := by
  rw [pow_succ, Nat.mod_mul, Nat.testBit_to_div_mod]
  have h2 : x / 2 ^ i % 2 < 2 := Nat.mod_lt _ (by omega)
  by_cases h : x / 2 ^ i % 2 = 1
  · rw [h]
    simp [Nat.mul_comm]
  · have h0 : x / 2 ^ i % 2 = 0 := by omega
    rw [h0]
    simp

theorem carryAt_overflow (a b : Nat) : ∀ i,
    carryAt a b i = decide (2 ^ i ≤ a % 2 ^ i + b % 2 ^ i)
  | 0 => by simp [carryAt, Nat.mod_one]
  | i + 1 => by
    have ih := carryAt_overflow a b i
    have ha : a % 2 ^ i < 2 ^ i := Nat.mod_lt _ (Nat.two_pow_pos i)
    have hb : b % 2 ^ i < 2 ^ i := Nat.mod_lt _ (Nat.two_pow_pos i)
    have hp : (2 : Nat) ^ (i + 1) = 2 * 2 ^ i := by rw [pow_succ] ; ring
    rw [mod_pow_succ a i, mod_pow_succ b i]
    show (a.testBit i && b.testBit i || (a.testBit i && carryAt a b i) ||
        (b.testBit i && carryAt a b i)) = _
    rw [ih]
    by_cases hcb : 2 ^ i ≤ a % 2 ^ i + b % 2 ^ i
    · rw [decide_eq_true hcb]
      cases hx : a.testBit i <;> cases hy : b.testBit i <;>
        simp only [Bool.toNat_true, Bool.toNat_false, Bool.false_and, Bool.true_and,
          Bool.and_false, Bool.and_true, Bool.or_false, Bool.false_or, Bool.or_true,
          Bool.true_or, Bool.and_self, Bool.or_self] <;> symm
      · rw [decide_eq_false_iff_not]
        omega
      · rw [decide_eq_true_eq]
        omega
      · rw [decide_eq_true_eq]
        omega
      · rw [decide_eq_true_eq]
        omega
    · rw [decide_eq_false hcb]
      cases hx : a.testBit i <;> cases hy : b.testBit i <;>
        simp only [Bool.toNat_true, Bool.toNat_false, Bool.false_and, Bool.true_and,
          Bool.and_false, Bool.and_true, Bool.or_false, Bool.false_or, Bool.or_true,
          Bool.true_or, Bool.and_self, Bool.or_self] <;> symm
      · rw [decide_eq_false_iff_not]
        omega
      · rw [decide_eq_false_iff_not]
        omega
      · rw [decide_eq_false_iff_not]
        omega
      · rw [decide_eq_true_eq]
        omega

theorem carryAt_key (a b i : Nat) :
    a % 2 ^ i + b % 2 ^ i = (a + b) % 2 ^ i + (carryAt a b i).toNat * 2 ^ i := by
  have hmod := Nat.add_mod a b (2 ^ i)
  have ha : a % 2 ^ i < 2 ^ i := Nat.mod_lt _ (Nat.two_pow_pos i)
  have hb : b % 2 ^ i < 2 ^ i := Nat.mod_lt _ (Nat.two_pow_pos i)
  rw [carryAt_overflow]
  by_cases h : 2 ^ i ≤ a % 2 ^ i + b % 2 ^ i
  · rw [decide_eq_true h]
    have hsplit : (a % 2 ^ i + b % 2 ^ i) % 2 ^ i =
        a % 2 ^ i + b % 2 ^ i - 2 ^ i := by
      rw [Nat.mod_eq_sub_mod h]
      exact Nat.mod_eq_of_lt (by omega)
    simp only [Bool.toNat_true]
    omega
  · rw [decide_eq_false h]
    have hsplit : (a % 2 ^ i + b % 2 ^ i) % 2 ^ i = a % 2 ^ i + b % 2 ^ i :=
      Nat.mod_eq_of_lt (by omega)
    simp only [Bool.toNat_false]
    omega

theorem testBit_add (a b i : Nat) :
    (a + b).testBit i = ((a.testBit i).xor ((b.testBit i).xor (carryAt a b i))) := by
  have k1 := carryAt_key a b i
  have k2 := carryAt_key a b (i + 1)
  rw [mod_pow_succ a i, mod_pow_succ b i, mod_pow_succ (a + b) i] at k2
  have hC : carryAt a b (i + 1) =
      (a.testBit i && b.testBit i || (a.testBit i && carryAt a b i) ||
        (b.testBit i && carryAt a b i)) := rfl
  rw [hC] at k2
  have hp : (2 : Nat) ^ (i + 1) = 2 * 2 ^ i := by rw [pow_succ] ; ring
  have hpos : 0 < 2 ^ i := Nat.two_pow_pos i
  cases hx : a.testBit i <;> cases hy : b.testBit i <;> cases hc : carryAt a b i <;>
    cases ht : (a + b).testBit i <;>
    simp only [hx, hy, hc, ht, Bool.toNat_true, Bool.toNat_false, Bool.false_and,
      Bool.true_and, Bool.and_false, Bool.and_true, Bool.or_false, Bool.false_or,
      Bool.or_true, Bool.true_or, Bool.and_self, Bool.or_self, Bool.xor_false,
      Bool.xor_true, Bool.false_xor, Bool.true_xor, Bool.not_true, Bool.not_false] at k1 k2 ⊢ <;>
    omega

theorem carryAt_subset (A S : Nat)
    (hAS : ∀ j, A.testBit j = true → S.testBit j = true) : ∀ i,
    (carryAt A S i = true ↔
      ∃ s, s < i ∧ A.testBit s = true ∧ ∀ j, s ≤ j → j < i → S.testBit j = true)
  | 0 => by
    simp [carryAt]
  | i + 1 => by
    have ih := carryAt_subset A S hAS i
    have hunf : carryAt A S (i + 1) =
        (A.testBit i && S.testBit i || (A.testBit i && carryAt A S i) ||
          (S.testBit i && carryAt A S i)) := rfl
    rw [hunf]
    simp only [Bool.or_eq_true, Bool.and_eq_true]
    constructor
    · intro h
      rcases h with (⟨hA, hS⟩ | ⟨hA, hc⟩) | ⟨hS, hc⟩
      · refine ⟨i, by omega, hA, fun j hj1 hj2 => ?_⟩
        have : j = i := by omega
        rw [this]
        exact hS
      · refine ⟨i, by omega, hA, fun j hj1 hj2 => ?_⟩
        have : j = i := by omega
        rw [this]
        exact hAS i hA
      · obtain ⟨s, hs, hAs, hrun⟩ := ih.mp hc
        refine ⟨s, by omega, hAs, fun j hj1 hj2 => ?_⟩
        rcases Nat.lt_or_ge j i with h' | h'
        · exact hrun j hj1 h'
        · have : j = i := by omega
          rw [this]
          exact hS
    · rintro ⟨s, hs, hAs, hrun⟩
      rcases Nat.lt_or_ge s i with h' | h'
      · right
        exact ⟨hrun i (by omega) (by omega),
          ih.mpr ⟨s, h', hAs, fun j hj1 hj2 => hrun j hj1 (by omega)⟩⟩
      · have hsi : s = i := by omega
        rw [hsi] at hAs
        left
        left
        exact ⟨hAs, hAS i hAs⟩

theorem ODD_testBit (j : Nat) :
    ODD.testBit j = (decide (j < 32) && decide (j % 2 = 0)) := by
  by_cases h : j < 32
  · rw [decide_eq_true h, Bool.true_and]
    revert h
    revert j
    decide
  · rw [decide_eq_false h, Bool.false_and]
    exact Nat.testBit_lt_two_pow (lt_of_lt_of_le (show ODD < 2 ^ 32 by decide)
      (Nat.pow_le_pow_right (by omega) (by omega)))

theorem EVEN_testBit (j : Nat) :
    EVEN.testBit j = (decide (j < 32) && decide (j % 2 = 1)) := by
  by_cases h : j < 32
  · rw [decide_eq_true h, Bool.true_and]
    revert h
    revert j
    decide
  · rw [decide_eq_false h, Bool.false_and]
    exact Nat.testBit_lt_two_pow (lt_of_lt_of_le (show EVEN < 2 ^ 32 by decide)
      (Nat.pow_le_pow_right (by omega) (by omega)))

theorem not32_testBit (x j : Nat) :
    (not32 x).testBit j = ((decide (j < 32)).xor (x.testBit j)) := by
  rw [not32, Nat.testBit_xor, Nat.testBit_two_pow_sub_one]

theorem prev_slash_mask_testBit (c : Bool) (j : Nat) :
    (prev_slash_mask c).testBit j = (decide (j = 0) && c) := by
  cases c
  · simp [prev_slash_mask]
  · by_cases hj : j = 0
    · rw [hj]
      simp [prev_slash_mask]
    · rw [prev_slash_mask, if_pos rfl,
        Nat.testBit_lt_two_pow (Nat.one_lt_two_pow hj)]
      simp [hj]

/-- The bits of `slashes_excluding_escaped_first`, abstractly: the block's
slashes with the first bit dropped when consumed by the prev_slash carry. -/
def sxBit (slashes : Nat) (c : Bool) (s : Nat) : Bool :=
  if s = 0 then slashes.testBit 0 && !c else slashes.testBit s

theorem testBit_high (slashes : Nat) (hs : slashes < 2 ^ 32) (k : Nat)
    (hk : 32 ≤ k) : slashes.testBit k = false :=
  Nat.testBit_lt_two_pow
    (lt_of_lt_of_le hs (Nat.pow_le_pow_right (by omega) hk))

theorem sx_testBit (slashes : Nat) (hs : slashes < 2 ^ 32) (c : Bool) (j : Nat) :
    (slashes_excluding slashes c).testBit j = sxBit slashes c j := by
  rw [slashes_excluding, Nat.testBit_and, not32_testBit, prev_slash_mask_testBit,
    sxBit]
  by_cases hj : j = 0
  · rw [hj]
    cases c <;> simp
  · by_cases hj32 : j < 32
    · simp [hj, hj32]
    · rw [testBit_high slashes hs j (by omega)]
      simp [hj]

theorem starts_testBit (slashes : Nat) (hs : slashes < 2 ^ 32) (c : Bool)
    (s : Nat) (hlt : s < 32) :
    (starts slashes c).testBit s =
      (sxBit slashes c s && !(decide (1 ≤ s) && sxBit slashes c (s - 1))) := by
  rw [starts, Nat.testBit_and, sx_testBit slashes hs c s, not32_testBit,
    Nat.testBit_mod_two_pow, Nat.testBit_shiftLeft, sx_testBit slashes hs c (s - 1)]
  simp [hlt, Bool.true_xor, ge_iff_le]

theorem starts_subset (slashes : Nat) (c : Bool) (j : Nat)
    (h : (starts slashes c).testBit j = true) : slashes.testBit j = true := by
  rw [starts, Nat.testBit_and] at h
  have h2 := (Bool.and_eq_true _ _).mp h |>.1
  rw [slashes_excluding, Nat.testBit_and] at h2
  exact ((Bool.and_eq_true _ _).mp h2).1

theorem odd_starts_subset (slashes : Nat) (c : Bool) (j : Nat)
    (h : (odd_starts slashes c).testBit j = true) : slashes.testBit j = true := by
  rw [odd_starts, Nat.testBit_and] at h
  exact starts_subset slashes c j ((Bool.and_eq_true _ _).mp h).2

theorem even_starts_subset (slashes : Nat) (c : Bool) (j : Nat)
    (h : (even_starts slashes c).testBit j = true) : slashes.testBit j = true := by
  rw [even_starts, Nat.testBit_and] at h
  exact starts_subset slashes c j ((Bool.and_eq_true _ _).mp h).2

theorem backRun_le (slashes : Nat) : ∀ i, backRun slashes i ≤ i
  | 0 => Nat.le_refl 0
  | i + 1 => by
    have ih := backRun_le slashes i
    rw [backRun]
    split <;> omega

theorem backRun_run (slashes : Nat) : ∀ i j, i - backRun slashes i ≤ j → j < i →
    slashes.testBit j = true
  | 0, j, _, hj => absurd hj (by omega)
  | i + 1, j, h1, h2 => by
    have hle := backRun_le slashes i
    rw [backRun] at h1
    by_cases hsl : slashes.testBit i = true
    · rw [if_pos hsl] at h1
      rcases Nat.lt_or_ge j i with h' | h'
      · exact backRun_run slashes i j (by omega) h'
      · have : j = i := by omega
        rw [this]
        exact hsl
    · rw [if_neg hsl] at h1
      omega

theorem backRun_max (slashes : Nat) : ∀ i, backRun slashes i < i →
    slashes.testBit (i - backRun slashes i - 1) = false
  | 0, h => absurd h (by omega)
  | i + 1, h => by
    have hle := backRun_le slashes i
    rw [backRun] at h ⊢
    by_cases hsl : slashes.testBit i = true
    · rw [if_pos hsl] at h ⊢
      have e : i + 1 - (backRun slashes i + 1) - 1 = i - backRun slashes i - 1 := by
        omega
      rw [e]
      exact backRun_max slashes i (by omega)
    · rw [if_neg hsl] at h ⊢
      have e : i + 1 - 0 - 1 = i := by omega
      rw [e]
      exact Bool.not_eq_true _ ▸ hsl

theorem backRun_ge (slashes : Nat) : ∀ i s, s ≤ i →
    (∀ j, s ≤ j → j < i → slashes.testBit j = true) → i - s ≤ backRun slashes i
  | 0, s, hsi, _ => by omega
  | i + 1, s, hsi, hrun => by
    rcases Nat.lt_or_ge s (i + 1) with h' | h'
    · have hsl : slashes.testBit i = true := hrun i (by omega) (by omega)
      have ih := backRun_ge slashes i s (by omega)
        (fun j hj1 hj2 => hrun j hj1 (by omega))
      rw [backRun, if_pos hsl]
      omega
    · omega

/-- The start position of the backslash run ending right below `i`, as the
bit-parallel algorithm sees it: the first in-block backslash of the run,
shifted to `1` when the run reaches position `0` but its first backslash
is consumed by the prev_slash carry. -/
def runStart (slashes : Nat) (c : Bool) (i : Nat) : Nat :=
  if backRun slashes i = i ∧ c = true then 1 else i - backRun slashes i

theorem starts_run_unique (slashes : Nat) (hs : slashes < 2 ^ 32) (c : Bool)
    (i s : Nat) (hi32 : i ≤ 32) (hsi : s < i)
    (hst : (starts slashes c).testBit s = true)
    (hrun : ∀ j, s ≤ j → j < i → slashes.testBit j = true) :
    1 ≤ backRun slashes i ∧ s = runStart slashes c i := by
  have hle := backRun_le slashes i
  have hr1 : 1 ≤ backRun slashes i := by
    have := backRun_ge slashes i (i - 1)
      (by omega) (fun j hj1 hj2 => hrun j (by omega) hj2)
    omega
  have hge : i - backRun slashes i ≤ s := by
    have := backRun_ge slashes i s (by omega) hrun
    omega
  rw [starts_testBit slashes hs c s (by omega)] at hst
  have hsx : sxBit slashes c s = true ∧
      (s = 0 ∨ sxBit slashes c (s - 1) = false) := by
    rcases (Bool.and_eq_true _ _).mp hst with ⟨h1, h2⟩
    refine ⟨h1, ?_⟩
    by_cases h0 : s = 0
    · exact Or.inl h0
    · right
      rw [decide_eq_true (show 1 ≤ s by omega)] at h2
      simp only [Bool.true_and, Bool.not_eq_true'] at h2
      exact h2
  refine ⟨hr1, ?_⟩
  rw [runStart]
  by_cases h0 : s = 0
  · have hri : backRun slashes i = i := by omega
    have hc : c = false := by
      rcases hsx with ⟨h1, _⟩
      rw [sxBit, if_pos h0] at h1
      rcases (Bool.and_eq_true _ _).mp h1 with ⟨_, hnc⟩
      exact (Bool.not_eq_true' _).mp hnc
    rw [if_neg (by rw [hc] ; exact fun h => by cases h.2)]
    omega
  · rcases hsx with ⟨hsxs, hsx2⟩
    rcases hsx2 with h | hsx2
    · exact absurd h h0
    by_cases h1 : s = 1
    · rw [h1] at hsx2
      rw [sxBit, if_pos rfl] at hsx2
      by_cases hir : i - backRun slashes i = 0
      · have hsl0 : slashes.testBit 0 = true :=
          backRun_run slashes i 0 (by omega) (by omega)
        have hc : c = true := by
          cases hcv : c
          · rw [hcv, hsl0] at hsx2
            simp at hsx2
          · rfl
        rw [if_pos ⟨by omega, hc⟩, h1]
      · rw [if_neg (fun h => by omega)]
        omega
    · have hs2 : 2 ≤ s := by omega
      rw [sxBit, if_neg (by omega)] at hsx2
      have hlt2 : s - 1 < i - backRun slashes i := by
        by_contra hcon
        have := backRun_run slashes i (s - 1) (by omega) (by omega)
        rw [this] at hsx2
        cases hsx2
      have hse : s = i - backRun slashes i := by omega
      rw [if_neg (fun h => by omega)]
      exact hse

theorem starts_run_exists (slashes : Nat) (hs : slashes < 2 ^ 32) (c : Bool)
    (i : Nat) (hi32 : i ≤ 32) (hr : 1 ≤ backRun slashes i)
    (hlt : runStart slashes c i < i) :
    (starts slashes c).testBit (runStart slashes c i) = true ∧
      ∀ j, runStart slashes c i ≤ j → j < i → slashes.testBit j = true := by
  have hle := backRun_le slashes i
  rw [runStart] at hlt ⊢
  by_cases hrc : backRun slashes i = i ∧ c = true
  · rw [if_pos hrc] at hlt ⊢
    constructor
    · rw [starts_testBit slashes hs c 1 (by omega)]
      have hsx1 : sxBit slashes c 1 = true := by
        rw [sxBit, if_neg (by omega)]
        exact backRun_run slashes i 1 (by omega) (by omega)
      have hsx0 : sxBit slashes c 0 = false := by
        rw [sxBit, if_pos rfl, hrc.2]
        simp
      rw [hsx1, hsx0]
      simp
    · intro j hj1 hj2
      exact backRun_run slashes i j (by omega) hj2
  · rw [if_neg hrc] at hlt ⊢
    refine ⟨?_, fun j hj1 hj2 => backRun_run slashes i j (by omega) hj2⟩
    rw [starts_testBit slashes hs c _ (by omega)]
    by_cases hir : i - backRun slashes i = 0
    · have hc : c = false := by
        cases hcv : c
        · rfl
        · exact absurd ⟨by omega, hcv⟩ hrc
      rw [hir, sxBit, if_pos rfl, hc]
      have hsl0 : slashes.testBit 0 = true :=
        backRun_run slashes i 0 (by omega) (by omega)
      rw [hsl0]
      simp
    · have hsxs : sxBit slashes c (i - backRun slashes i) = true := by
        rw [sxBit, if_neg hir]
        exact backRun_run slashes i _ (by omega) (by omega)
      have hsxp : sxBit slashes c (i - backRun slashes i - 1) = false := by
        have hmax := backRun_max slashes i (by omega)
        rw [sxBit]
        by_cases h0 : i - backRun slashes i - 1 = 0
        · rw [if_pos h0, ← h0, hmax]
          simp
        · rw [if_neg h0]
          exact hmax
      rw [hsxs, hsxp]
      simp

theorem carry_odd_iff (slashes : Nat) (hs : slashes < 2 ^ 32) (c : Bool)
    (i : Nat) (hi32 : i ≤ 32) :
    (carryAt (odd_starts slashes c) slashes i = true ↔
      (1 ≤ backRun slashes i ∧ runStart slashes c i < i ∧
        runStart slashes c i % 2 = 0)) := by
  rw [carryAt_subset (odd_starts slashes c) slashes
    (odd_starts_subset slashes c) i]
  constructor
  · rintro ⟨s, hsi, hA, hrun⟩
    rw [odd_starts, Nat.testBit_and, ODD_testBit] at hA
    rcases (Bool.and_eq_true _ _).mp hA with ⟨hodd, hstart⟩
    rcases (Bool.and_eq_true _ _).mp hodd with ⟨_, hpar⟩
    rw [decide_eq_true_eq] at hpar
    obtain ⟨hr1, hse⟩ := starts_run_unique slashes hs c i s hi32 hsi hstart hrun
    rw [← hse]
    exact ⟨hr1, by omega, hpar⟩
  · rintro ⟨hr1, hlt, hpar⟩
    obtain ⟨hstart, hrun⟩ := starts_run_exists slashes hs c i hi32 hr1 hlt
    refine ⟨runStart slashes c i, hlt, ?_, hrun⟩
    rw [odd_starts, Nat.testBit_and, ODD_testBit, hstart,
      decide_eq_true (show runStart slashes c i < 32 by omega),
      decide_eq_true hpar]
    rfl

theorem carry_even_iff (slashes : Nat) (hs : slashes < 2 ^ 32) (c : Bool)
    (i : Nat) (hi32 : i ≤ 32) :
    (carryAt (even_starts slashes c) slashes i = true ↔
      (1 ≤ backRun slashes i ∧ runStart slashes c i < i ∧
        runStart slashes c i % 2 = 1)) := by
  rw [carryAt_subset (even_starts slashes c) slashes
    (even_starts_subset slashes c) i]
  constructor
  · rintro ⟨s, hsi, hA, hrun⟩
    rw [even_starts, Nat.testBit_and, EVEN_testBit] at hA
    rcases (Bool.and_eq_true _ _).mp hA with ⟨hodd, hstart⟩
    rcases (Bool.and_eq_true _ _).mp hodd with ⟨_, hpar⟩
    rw [decide_eq_true_eq] at hpar
    obtain ⟨hr1, hse⟩ := starts_run_unique slashes hs c i s hi32 hsi hstart hrun
    rw [← hse]
    exact ⟨hr1, by omega, hpar⟩
  · rintro ⟨hr1, hlt, hpar⟩
    obtain ⟨hstart, hrun⟩ := starts_run_exists slashes hs c i hi32 hr1 hlt
    refine ⟨runStart slashes c i, hlt, ?_, hrun⟩
    rw [even_starts, Nat.testBit_and, EVEN_testBit, hstart,
      decide_eq_true (show runStart slashes c i < 32 by omega),
      decide_eq_true hpar]
    rfl

theorem ends_of_odd_testBit (slashes : Nat) (hs : slashes < 2 ^ 32) (c : Bool)
    (i : Nat) (hi : i < 32) :
    (ends_of_odd_starts slashes c).testBit i =
      (!slashes.testBit i && carryAt (odd_starts slashes c) slashes i) := by
  rw [ends_of_odd_starts, Nat.testBit_and, Nat.testBit_mod_two_pow, testBit_add,
    not32_testBit, decide_eq_true hi, Bool.true_and, Bool.true_xor]
  cases hsl : slashes.testBit i
  · have ho : (odd_starts slashes c).testBit i = false := by
      cases hov : (odd_starts slashes c).testBit i
      · rfl
      · exact absurd (odd_starts_subset slashes c i hov) (by rw [hsl] ; simp)
    rw [ho]
    simp
  · simp

theorem ends_of_even_testBit (slashes : Nat) (hs : slashes < 2 ^ 32) (c : Bool)
    (i : Nat) (hi : i < 32) :
    (ends_of_even_starts slashes c).testBit i =
      (!slashes.testBit i && carryAt (even_starts slashes c) slashes i) := by
  rw [ends_of_even_starts, Nat.testBit_and, Nat.testBit_mod_two_pow, testBit_add,
    not32_testBit, decide_eq_true hi, Bool.true_and, Bool.true_xor]
  cases hsl : slashes.testBit i
  · have ho : (even_starts slashes c).testBit i = false := by
      cases hov : (even_starts slashes c).testBit i
      · rfl
      · exact absurd (even_starts_subset slashes c i hov) (by rw [hsl] ; simp)
    rw [ho]
    simp
  · simp

theorem backRun_zero : ∀ i, backRun 0 i = 0
  | 0 => rfl
  | i + 1 => by
    rw [backRun, Nat.zero_testBit]
    simp

theorem escaped_testBit (slashes : Nat) (hs : slashes < 2 ^ 32) (c : Bool)
    (i : Nat) (hi : i < 32) :
    (escaped slashes c).testBit i = escapedSpec slashes c i := by
  have hle := backRun_le slashes i
  by_cases h0 : slashes = 0
  · rw [h0, escaped, if_pos rfl, prev_slash_mask_testBit, escapedSpec]
    by_cases hiz : i = 0
    · rw [hiz]
      simp
    · rw [if_neg hiz, backRun_zero i,
        if_neg (show ¬((0 : Nat) = i ∧ c = true) from fun h => hiz h.1.symm)]
      simp [hiz, Nat.odd_iff]
  · rw [escaped, if_neg h0, Nat.testBit_or, Nat.testBit_or, Nat.testBit_and,
      Nat.testBit_and, ends_of_odd_testBit slashes hs c i hi,
      ends_of_even_testBit slashes hs c i hi, EVEN_testBit, ODD_testBit,
      prev_slash_mask_testBit, decide_eq_true hi, Bool.true_and, Bool.true_and]
    by_cases hiz : i = 0
    · rw [hiz]
      have hco : carryAt (odd_starts slashes c) slashes 0 = false := rfl
      have hce : carryAt (even_starts slashes c) slashes 0 = false := rfl
      rw [hco, hce, escapedSpec]
      simp
    · rw [decide_eq_false hiz, Bool.false_and, Bool.or_false, escapedSpec,
        if_neg hiz]
      cases hsl : slashes.testBit i
      · rw [Bool.not_false, Bool.true_and, Bool.true_and, Bool.true_and,
          Bool.eq_iff_iff]
        simp only [Bool.or_eq_true, Bool.and_eq_true, decide_eq_true_eq,
          carry_odd_iff slashes hs c i (by omega),
          carry_even_iff slashes hs c i (by omega), Nat.odd_iff]
        rw [runStart]
        by_cases hrc : backRun slashes i = i ∧ c = true
        · rw [if_pos hrc, if_pos hrc]
          have hri : backRun slashes i = i := hrc.1
          omega
        · rw [if_neg hrc, if_neg hrc]
          omega
      · rw [Bool.not_true, Bool.false_and, Bool.false_and, Bool.false_and]
        simp

theorem escaped_zero_mask (slashes : Nat) (c : Bool) (h0 : slashes = 0) :
    escaped slashes c = prev_slash_mask c := by
  rw [escaped, if_pos h0]

theorem not_decide_odd (n : Nat) : (!decide (Odd n)) = decide (Odd (n + 1)) := by
  rw [Bool.eq_iff_iff]
  simp only [Bool.not_eq_true', decide_eq_false_iff_not, decide_eq_true_eq,
    Nat.odd_iff]
  omega

theorem escSeq_eq (slashes : Nat) (c : Bool) : ∀ i,
    escSeq slashes c i = decide (Odd (backRun slashes i +
      if backRun slashes i = i ∧ c = true then 1 else 0))
  | 0 => by
    cases c <;> simp [escSeq, backRun, Nat.odd_iff]
  | i + 1 => by
    have ih := escSeq_eq slashes c i
    show (slashes.testBit i && !escSeq slashes c i) = _
    rw [ih]
    cases hsl : slashes.testBit i
    · rw [Bool.false_and]
      have hb : backRun slashes (i + 1) = 0 := by
        show (if slashes.testBit i then backRun slashes i + 1 else 0) = 0
        rw [hsl]
        simp
      rw [hb, if_neg (fun h => Nat.succ_ne_zero i h.1.symm)]
      simp [Nat.odd_iff]
    · rw [Bool.true_and]
      have hb : backRun slashes (i + 1) = backRun slashes i + 1 := by
        show (if slashes.testBit i then backRun slashes i + 1 else 0) = _
        rw [hsl]
        simp
      rw [hb]
      by_cases hd : backRun slashes i = i ∧ c = true
      · rw [if_pos hd, if_pos ⟨by rw [hd.1], hd.2⟩]
        exact not_decide_odd (backRun slashes i + 1)
      · rw [if_neg hd, if_neg (fun h => hd ⟨Nat.add_right_cancel h.1, h.2⟩),
          Nat.add_zero, Nat.add_zero]
        exact not_decide_odd (backRun slashes i)

theorem escaped_testBit_seq (slashes : Nat) (hs : slashes < 2 ^ 32) (c : Bool)
    (i : Nat) (hi : i < 32) :
    (escaped slashes c).testBit i =
      (if i = 0 then c else (escSeq slashes c i && !slashes.testBit i)) := by
  rw [escaped_testBit slashes hs c i hi, escapedSpec, escSeq_eq]
  by_cases hiz : i = 0
  · rw [if_pos hiz, if_pos hiz]
  · rw [if_neg hiz, if_neg hiz, Bool.and_comm]

theorem set_prev_slash_eq_escSeq (slashes : Nat) (hs : slashes < 2 ^ 32)
    (c : Bool) : set_prev_slash_mask slashes c = escSeq slashes c 32 := by
  rw [set_prev_slash_mask]
  by_cases h0 : slashes = 0
  · rw [if_pos h0, h0]
    cases c <;> decide
  · rw [if_neg h0]
    have hle := backRun_le slashes 32
    have hev : even_starts slashes c < 2 ^ 32 :=
      Nat.lt_of_le_of_lt Nat.and_le_left (by decide)
    have h1 : even_starts slashes c % 2 ^ 32 = even_starts slashes c :=
      Nat.mod_eq_of_lt hev
    have h2 : slashes % 2 ^ 32 = slashes := Nat.mod_eq_of_lt hs
    rw [show decide (2 ^ 32 ≤ even_starts slashes c + slashes) =
        carryAt (even_starts slashes c) slashes 32 by
      rw [carryAt_overflow, h1, h2], escSeq_eq]
    rw [Bool.eq_iff_iff]
    simp only [carry_even_iff slashes hs c 32 (by omega), decide_eq_true_eq,
      Nat.odd_iff]
    rw [runStart]
    by_cases hrc : backRun slashes 32 = 32 ∧ c = true
    · rw [if_pos hrc, if_pos hrc]
      have hri : backRun slashes 32 = 32 := hrc.1
      omega
    · rw [if_neg hrc, if_neg hrc]
      omega

/-- Is the byte a quote (`"`)? -/
def isQuote (b : Nat) : Bool := b == 34

/-- Is the byte an escape character (`\`)? -/
def isSlash (b : Nat) : Bool := b == 92

/-- The bit mask of a (up to 32-byte) block: bit `i` is set iff `pr` holds
of byte `i` (as the SIMD byte comparisons compute). -/
def maskOf (pr : Nat → Bool) : List Nat → Nat
  | [] => 0
  | b :: rest => (if pr b then 1 else 0) + 2 * maskOf pr rest

/-- The `k`-th 32-byte block of the stream (padded implicitly: positions
past the end read the zero byte). -/
def blockAt (bs : List Nat) (k : Nat) : List Nat := (bs.drop (32 * k)).take 32

/-- Mirrors `get_prev_quote_mask`: `0x01` iff the second bit of the
inter-block state is lit (the previous block ended inside quotes). -/
def prev_quote_mask (q : Bool) : Nat := if q then 1 else 0

/-- Modelled from the spec: the `_mm_clmulepi64_si128` carry-less multiply
with an all-ones second operand XOR-accumulates an all-ones mask shifted
to every set bit of the input, computing a cumulative (prefix) XOR. -/
def clmulAcc (x : Nat) : Nat → Nat
  | 0 => 0
  | j + 1 => clmulAcc x j ^^^ (if x.testBit j then (2 ^ 64 - 1) <<< j else 0)

/-- Mirrors the `within_quotes` computation of `classify`: cumulative XOR
of the nonescaped-quotes mask, truncated to 32 bits
(`_mm_cvtsi128_si32`). -/
def within_quotes (nonescaped : Nat) : Nat := clmulAcc nonescaped 64 % 2 ^ 32

/-- Mirrors `nonescaped_quotes` of `classify`. -/
def nonescaped_quotes (quotes escapedMask : Nat) (pq : Bool) : Nat :=
  (quotes &&& not32 escapedMask) ^^^ prev_quote_mask pq

/-- The prev_slash carry bit of the inter-block state before block `k`,
threaded by `update_prev_block_mask`. -/
def prevSlashAt (bs : List Nat) : Nat → Bool
  | 0 => false
  | k + 1 =>
    set_prev_slash_mask (maskOf isSlash (blockAt bs k)) (prevSlashAt bs k)

/-- The nonescaped-quotes mask of block `k`, given the prev_quote carry. -/
def nonescapedAt (bs : List Nat) (k : Nat) (pq : Bool) : Nat :=
  nonescaped_quotes (maskOf isQuote (blockAt bs k))
    (escaped (maskOf isSlash (blockAt bs k)) (prevSlashAt bs k)) pq

/-- The prev_quote carry bit of the inter-block state before block `k`:
`update_prev_block_mask` stores bit 31 of the `within_quotes` mask. -/
def prevQuoteAt (bs : List Nat) : Nat → Bool
  | 0 => false
  | k + 1 =>
    (within_quotes (nonescapedAt bs k (prevQuoteAt bs k))).testBit 31

/-- The within_quotes mask returned by `classify` for block `k`. -/
def withinAt (bs : List Nat) (k : Nat) : Nat :=
  within_quotes (nonescapedAt bs k (prevQuoteAt bs k))

/-- The globally-escaped predicate of the whole byte stream: byte `p + 1`
is escaped iff byte `p` is a backslash that is not itself escaped. -/
def escG (bs : List Nat) : Nat → Bool
  | 0 => false
  | p + 1 => isSlash (bs.getD p 0) && !escG bs p

/-- A nonescaped quote of the stream at position `p`. -/
def nqG (bs : List Nat) (p : Nat) : Bool := isQuote (bs.getD p 0) && !escG bs p

theorem maskOf_lt (pr : Nat → Bool) : ∀ bs : List Nat,
    maskOf pr bs < 2 ^ bs.length
  | [] => by rw [maskOf] ; simp
  | b :: rest => by
    have ih := maskOf_lt pr rest
    rw [maskOf, List.length_cons, pow_succ]
    split <;> omega

theorem half_bit_aux (x m : Nat) (hx : x ≤ 1) : (x + 2 * m) / 2 = m := by
  omega

theorem maskOf_testBit (pr : Nat → Bool) (hpr : pr 0 = false) :
    ∀ (bs : List Nat) (j : Nat), (maskOf pr bs).testBit j = pr (bs.getD j 0)
  | [], j => by
    rw [maskOf, Nat.zero_testBit, List.getD]
    simp [hpr]
  | b :: rest, 0 => by
    rw [maskOf, Nat.testBit_zero, List.getD_cons_zero]
    cases h : pr b
    · rw [if_neg Bool.false_ne_true, decide_eq_false (by omega)]
    · rw [if_pos rfl, decide_eq_true (by omega)]
  | b :: rest, j + 1 => by
    have ih := maskOf_testBit pr hpr rest j
    rw [maskOf, Nat.testBit_add_one, List.getD_cons_succ,
      half_bit_aux (if pr b then 1 else 0) (maskOf pr rest)
        (by cases h : pr b <;> simp)]
    exact ih

theorem blockAt_getD (bs : List Nat) (k i : Nat) (hi : i < 32) :
    (blockAt bs k).getD i 0 = bs.getD (32 * k + i) 0 := by
  rw [blockAt, List.getD, List.getD, List.get?_eq_getElem?, List.get?_eq_getElem?,
    List.getElem?_take, List.getElem?_drop]
  simp [hi]

theorem blockAt_lt (bs : List Nat) (k : Nat) (pr : Nat → Bool) :
    maskOf pr (blockAt bs k) < 2 ^ 32 := by
  have h := maskOf_lt pr (blockAt bs k)
  have hlen : (blockAt bs k).length ≤ 32 := by
    rw [blockAt]
    exact le_trans (List.length_take_le _ _) (le_refl _)
  exact Nat.lt_of_lt_of_le h (Nat.pow_le_pow_right (by omega) hlen)

theorem decide_mod2_congr (m n : Nat) (h : m % 2 = n % 2) :
    decide (m % 2 = 1) = decide (n % 2 = 1) := by
  rw [h]

theorem not_decide_mod2 (n m : Nat) (h : (n + 1) % 2 = m % 2) :
    (!decide (n % 2 = 1)) = decide (m % 2 = 1) := by
  rw [Bool.eq_iff_iff]
  simp only [Bool.not_eq_true', decide_eq_false_iff_not, decide_eq_true_eq]
  omega

theorem clmulAcc_testBit (x : Nat) : ∀ t, t ≤ 64 → ∀ i, i < 64 →
    ((clmulAcc x t).testBit i =
      decide ((List.range (min t (i + 1))).countP x.testBit % 2 = 1))
  | 0, _, i, _ => by
    rw [clmulAcc, Nat.zero_testBit, Nat.min_def]
    simp
  | t + 1, ht, i, hi => by
    have ih := clmulAcc_testBit x t (by omega) i hi
    show (clmulAcc x t ^^^
        (if x.testBit t then (2 ^ 64 - 1) <<< t else 0)).testBit i = _
    rw [Nat.testBit_xor, ih]
    rcases Nat.lt_or_ge i t with hit | hit
    · rw [(by omega : min t (i + 1) = i + 1),
        (by omega : min (t + 1) (i + 1) = i + 1)]
      cases hx : x.testBit t
      · rw [if_neg Bool.false_ne_true, Nat.zero_testBit, Bool.xor_false]
      · rw [if_pos rfl, Nat.testBit_shiftLeft,
          decide_eq_false (by omega : ¬ i ≥ t), Bool.false_and, Bool.xor_false]
    · rw [(by omega : min t (i + 1) = t),
        (by omega : min (t + 1) (i + 1) = t + 1),
        List.range_succ, List.countP_append, List.countP_cons, List.countP_nil]
      cases hx : x.testBit t
      · rw [if_neg Bool.false_ne_true, if_neg Bool.false_ne_true,
          Nat.zero_testBit, Bool.xor_false]
        exact decide_mod2_congr _ _ (by omega)
      · rw [if_pos rfl, if_pos rfl, Nat.testBit_shiftLeft,
          decide_eq_true (show i ≥ t from hit), Bool.true_and,
          Nat.testBit_two_pow_sub_one, decide_eq_true (show i - t < 64 by omega),
          Bool.xor_true]
        exact not_decide_mod2 _ _ (by omega)

theorem within_quotes_testBit (nq : Nat) (i : Nat) (hi : i < 32) :
    (within_quotes nq).testBit i =
      decide ((List.range (i + 1)).countP nq.testBit % 2 = 1) := by
  rw [within_quotes, Nat.testBit_mod_two_pow, decide_eq_true hi, Bool.true_and,
    clmulAcc_testBit nq 64 (by omega) i (by omega),
    (by omega : min 64 (i + 1) = i + 1)]

theorem escSeq_blockAt (bs : List Nat) (k : Nat)
    (hps : prevSlashAt bs k = escG bs (32 * k)) :
    ∀ i, i ≤ 32 →
      escSeq (maskOf isSlash (blockAt bs k)) (prevSlashAt bs k) i =
        escG bs (32 * k + i)
  | 0, _ => by rw [Nat.add_zero] ; exact hps
  | i + 1, h => by
    have ih := escSeq_blockAt bs k hps i (by omega)
    show ((maskOf isSlash (blockAt bs k)).testBit i &&
      !escSeq (maskOf isSlash (blockAt bs k)) (prevSlashAt bs k) i) = _
    rw [maskOf_testBit isSlash rfl _ i, blockAt_getD bs k i (by omega), ih,
      ← Nat.add_assoc]
    rfl

theorem prevSlashAt_correct (bs : List Nat) : ∀ k,
    prevSlashAt bs k = escG bs (32 * k)
  | 0 => rfl
  | k + 1 => by
    have ih := prevSlashAt_correct bs k
    show set_prev_slash_mask (maskOf isSlash (blockAt bs k))
      (prevSlashAt bs k) = _
    rw [set_prev_slash_eq_escSeq _ (blockAt_lt bs k isSlash) _,
      escSeq_blockAt bs k ih 32 (by omega),
      (by ring : 32 * (k + 1) = 32 * k + 32)]

theorem quote_not_slash (b : Nat) (h : isQuote b = true) : isSlash b = false := by
  rw [isQuote, beq_iff_eq] at h
  rw [isSlash, h]
  rfl

theorem prev_quote_mask_testBit (pq : Bool) (i : Nat) :
    (prev_quote_mask pq).testBit i = (decide (i = 0) && pq) := by
  cases pq
  · simp [prev_quote_mask]
  · by_cases hiz : i = 0
    · rw [hiz]
      simp [prev_quote_mask]
    · rw [prev_quote_mask, if_pos rfl,
        Nat.testBit_lt_two_pow (Nat.one_lt_two_pow hiz)]
      simp [hiz]

theorem nonescapedAt_testBit (bs : List Nat) (k : Nat) (pq : Bool)
    (hps : prevSlashAt bs k = escG bs (32 * k)) (i : Nat) (hi : i < 32) :
    (nonescapedAt bs k pq).testBit i =
      ((nqG bs (32 * k + i)).xor (decide (i = 0) && pq)) := by
  rw [nonescapedAt, nonescaped_quotes, Nat.testBit_xor, Nat.testBit_and,
    not32_testBit, decide_eq_true hi, Bool.true_xor,
    maskOf_testBit isQuote rfl _ i, blockAt_getD bs k i hi,
    prev_quote_mask_testBit pq i]
  congr 1
  rw [escaped_testBit_seq _ (blockAt_lt bs k isSlash) _ i hi, nqG]
  by_cases hq : isQuote (bs.getD (32 * k + i) 0) = true
  · rw [hq, Bool.true_and, Bool.true_and]
    by_cases hiz : i = 0
    · rw [if_pos hiz, hps, hiz, Nat.add_zero]
    · rw [if_neg hiz, escSeq_blockAt bs k hps i (by omega),
        maskOf_testBit isSlash rfl _ i, blockAt_getD bs k i hi,
        quote_not_slash _ hq, Bool.not_false, Bool.and_true]
  · have hq' : isQuote (bs.getD (32 * k + i) 0) = false := by
      cases hqq : isQuote (bs.getD (32 * k + i) 0)
      · rfl
      · exact absurd hqq hq
    rw [hq', Bool.false_and, Bool.false_and]

theorem withinAt_testBit_aux (bs : List Nat) (k : Nat)
    (hps : prevSlashAt bs k = escG bs (32 * k))
    (hpq : prevQuoteAt bs k =
      decide ((List.range (32 * k)).countP (nqG bs) % 2 = 1))
    (i : Nat) (hi : i < 32) :
    (withinAt bs k).testBit i =
      decide ((List.range (32 * k + i + 1)).countP (nqG bs) % 2 = 1) := by
  have hbit := nonescapedAt_testBit bs k (prevQuoteAt bs k) hps
  have hcnt : ∀ t, t < 32 →
      (List.range (t + 1)).countP
          (nonescapedAt bs k (prevQuoteAt bs k)).testBit % 2 =
        ((List.range (t + 1)).countP (fun j => nqG bs (32 * k + j)) +
          (if prevQuoteAt bs k then 1 else 0)) % 2 := by
    intro t
    induction t with
    | zero =>
      intro _
      have e : List.range 1 = [0] := rfl
      rw [e, List.countP_cons, List.countP_cons, List.countP_nil,
        hbit 0 (by omega)]
      cases hnq : nqG bs (32 * k + 0) <;> cases hpqv : prevQuoteAt bs k <;>
        simp
    | succ t ih =>
      intro ht
      rw [List.range_succ, List.countP_append, List.countP_append,
        List.countP_cons, List.countP_cons, List.countP_nil,
        hbit (t + 1) (by omega),
        decide_eq_false (show ¬(t + 1 = 0) by omega), Bool.false_and,
        Bool.xor_false]
      have ih' := ih (by omega)
      cases hnq : nqG bs (32 * k + (t + 1)) <;>
        cases hpqv : prevQuoteAt bs k <;>
        rw [hpqv] at ih' <;> simp at ih' ⊢ <;> omega
  have hsplit : (List.range (32 * k + (i + 1))).countP (nqG bs) =
      (List.range (32 * k)).countP (nqG bs) +
        (List.range (i + 1)).countP (fun j => nqG bs (32 * k + j)) := by
    rw [List.range_add, List.countP_append, List.countP_map]
    rfl
  have hloc := hcnt i hi
  have hglob : (List.range (32 * k)).countP (nqG bs) % 2 =
      (if prevQuoteAt bs k then 1 else 0) % 2 := by
    rw [hpq]
    by_cases h : (List.range (32 * k)).countP (nqG bs) % 2 = 1
    · rw [decide_eq_true h, if_pos rfl, h]
    · rw [decide_eq_false h]
      simp
      omega
  rw [withinAt, within_quotes_testBit _ i hi]
  apply decide_mod2_congr
  have hIdx : 32 * k + i + 1 = 32 * k + (i + 1) := by ring
  rw [hIdx, hsplit]
  omega

theorem stream_invariant (bs : List Nat) : ∀ k,
    prevSlashAt bs k = escG bs (32 * k) ∧
    prevQuoteAt bs k = decide ((List.range (32 * k)).countP (nqG bs) % 2 = 1)
  | 0 => ⟨rfl, by
      show false = decide ((List.range (32 * 0)).countP (nqG bs) % 2 = 1)
      simp⟩
  | k + 1 => by
    obtain ⟨ihs, ihq⟩ := stream_invariant bs k
    refine ⟨prevSlashAt_correct bs (k + 1), ?_⟩
    show (withinAt bs k).testBit 31 = _
    rw [withinAt_testBit_aux bs k ihs ihq 31 (by omega),
      (by ring : 32 * (k + 1) = 32 * k + 31 + 1)]

theorem withinAt_correct (bs : List Nat) (k i : Nat) (hi : i < 32) :
    (withinAt bs k).testBit i =
      decide ((List.range (32 * k + i + 1)).countP (nqG bs) % 2 = 1) :=
  withinAt_testBit_aux bs k (stream_invariant bs k).1
    (stream_invariant bs k).2 i hi

/-- One item of a JSON string body: a plain byte (not a quote, not a
backslash) or an escape pair (a backslash followed by any byte). -/
inductive StrItem where
  | ch (b : Nat) : StrItem
  | esc (b : Nat) : StrItem
deriving DecidableEq, Repr

/-- The bytes of a string-body item. -/
def StrItem.bytes : StrItem → List Nat
  | .ch b => [b]
  | .esc b => [92, b]

/-- Well-formedness of a string-body item: a plain byte is neither a
quote nor a backslash. -/
def StrItem.wfB : StrItem → Bool
  | .ch b => !isQuote b && !isSlash b
  | .esc _ => true

/-- One lexical segment of a JSON document: a byte outside strings
(neither a quote nor a backslash) or a complete string literal. -/
inductive Seg where
  | raw (b : Nat) : Seg
  | str (items : List StrItem) : Seg
deriving DecidableEq, Repr

/-- The bytes of a segment. -/
def Seg.bytes : Seg → List Nat
  | .raw b => [b]
  | .str items => 34 :: (items.flatMap StrItem.bytes ++ [34])

/-- Well-formedness of a segment. -/
def Seg.wfB : Seg → Bool
  | .raw b => !isQuote b && !isSlash b
  | .str items => items.all StrItem.wfB

/-- The byte stream of a lexically well-formed JSON document. -/
def docBytes (d : List Seg) : List Nat := d.flatMap Seg.bytes

/-- Lexical well-formedness of a document. -/
def docWf (d : List Seg) : Bool := d.all Seg.wfB

/-- The bytes of `sub` occur in `bs` at offset `p`. -/
def bytesAt (bs : List Nat) (p : Nat) (sub : List Nat) : Prop :=
  ∀ off, off < sub.length → bs.getD (p + off) 0 = sub.getD off 0

theorem getD_append_lt (x y : List Nat) (n d : Nat) (h : n < x.length) :
    (x ++ y).getD n d = x.getD n d := by
  rw [List.getD, List.getD, List.get?_eq_getElem?, List.get?_eq_getElem?,
    List.getElem?_append, if_pos h]

theorem getD_append_ge (x y : List Nat) (n d : Nat) (h : x.length ≤ n) :
    (x ++ y).getD n d = y.getD (n - x.length) d := by
  rw [List.getD, List.getD, List.get?_eq_getElem?, List.get?_eq_getElem?,
    List.getElem?_append, if_neg (by omega)]

theorem bytesAt_append (bs : List Nat) (p : Nat) (x y : List Nat)
    (h : bytesAt bs p (x ++ y)) :
    bytesAt bs p x ∧ bytesAt bs (p + x.length) y := by
  constructor
  · intro off hoff
    rw [← getD_append_lt x y off 0 hoff]
    exact h off (by rw [List.length_append] ; omega)
  · intro off hoff
    have h2 := h (x.length + off) (by rw [List.length_append] ; omega)
    rw [getD_append_ge x y _ 0 (by omega),
      (by omega : x.length + off - x.length = off)] at h2
    rw [(by omega : p + x.length + off = p + (x.length + off))]
    exact h2

theorem bytesAt_cons (bs : List Nat) (p : Nat) (b : Nat) (rest : List Nat)
    (h : bytesAt bs p (b :: rest)) :
    bs.getD p 0 = b ∧ bytesAt bs (p + 1) rest := by
  constructor
  · have h0 := h 0 (by simp)
    rw [Nat.add_zero] at h0
    exact h0
  · intro off hoff
    have h2 := h (off + 1) (by simp ; omega)
    rw [List.getD_cons_succ] at h2
    rw [(by omega : p + 1 + off = p + (off + 1))]
    exact h2

theorem escG_succ (bs : List Nat) (p : Nat) :
    escG bs (p + 1) = (isSlash (bs.getD p 0) && !escG bs p) := rfl

theorem items_step (bs : List Nat) : ∀ (items : List StrItem) (q : Nat),
    items.all StrItem.wfB = true →
    bytesAt bs q (items.flatMap StrItem.bytes) →
    escG bs q = false →
    (escG bs (q + (items.flatMap StrItem.bytes).length) = false ∧
      ∀ r, q ≤ r → r < q + (items.flatMap StrItem.bytes).length →
        nqG bs r = false)
  | [], q, _, _, hesc => by
    rw [List.flatMap_nil, List.length_nil, Nat.add_zero]
    exact ⟨hesc, fun r h1 h2 => absurd h2 (by omega)⟩
  | .ch b :: rest, q, hwf, hb, hesc => by
    rw [List.flatMap_cons] at hb ⊢
    rw [List.all_cons] at hwf
    rcases (Bool.and_eq_true _ _).mp hwf with ⟨hwb, hwrest⟩
    rw [StrItem.wfB] at hwb
    rcases (Bool.and_eq_true _ _).mp hwb with ⟨hqb, hsb⟩
    rw [Bool.not_eq_true'] at hqb hsb
    obtain ⟨hbyte, hbrest⟩ := bytesAt_cons bs q b _ hb
    have hesc1 : escG bs (q + 1) = false := by
      rw [escG_succ, hbyte, hsb]
      rfl
    obtain ⟨ihe, ihn⟩ := items_step bs rest (q + 1) hwrest hbrest hesc1
    constructor
    · have e : q + ((StrItem.ch b).bytes ++ rest.flatMap StrItem.bytes).length =
          q + 1 + (rest.flatMap StrItem.bytes).length := by
        rw [StrItem.bytes, List.length_append, List.length_cons, List.length_nil]
        omega
      rw [e]
      exact ihe
    · intro r h1 h2
      rw [StrItem.bytes, List.length_append, List.length_cons,
        List.length_nil] at h2
      rcases Nat.lt_or_ge r (q + 1) with h' | h'
      · have : r = q := by omega
        rw [this, nqG, hbyte, hqb]
        rfl
      · exact ihn r h' (by omega)
  | .esc b :: rest, q, hwf, hb, hesc => by
    rw [List.flatMap_cons] at hb ⊢
    rw [List.all_cons] at hwf
    rcases (Bool.and_eq_true _ _).mp hwf with ⟨_, hwrest⟩
    rw [StrItem.bytes] at hb ⊢
    obtain ⟨hbyte1, hbrest1⟩ := bytesAt_cons bs q 92 _ hb
    obtain ⟨hbyte2, hbrest2⟩ := bytesAt_cons bs (q + 1) b _ hbrest1
    have hesc1 : escG bs (q + 1) = true := by
      rw [escG_succ, hbyte1, hesc]
      rfl
    have hesc2 : escG bs (q + 1 + 1) = false := by
      rw [escG_succ, hesc1]
      simp
    obtain ⟨ihe, ihn⟩ := items_step bs rest (q + 2) hwrest
      (by rw [(by omega : q + 2 = q + 1 + 1)] ; exact hbrest2)
      (by rw [(by omega : q + 2 = q + 1 + 1)] ; exact hesc2)
    constructor
    · have e : q + (([92, b] : List Nat) ++ rest.flatMap StrItem.bytes).length =
          q + 2 + (rest.flatMap StrItem.bytes).length := by
        rw [List.length_append, List.length_cons, List.length_cons,
          List.length_nil]
        omega
      rw [e]
      exact ihe
    · intro r h1 h2
      rw [List.length_append, List.length_cons, List.length_cons,
        List.length_nil] at h2
      rcases Nat.lt_or_ge r (q + 2) with h' | h'
      · rcases Nat.lt_or_ge r (q + 1) with h'' | h''
        · have : r = q := by omega
          rw [this, nqG, hbyte1]
          rfl
        · have : r = q + 1 := by omega
          rw [this, nqG, hesc1]
          simp
      · exact ihn r h' (by omega)

theorem countP_map_range_split (P : Nat → Bool) (p a b : Nat) :
    ((List.range (a + b)).map (p + ·)).countP P =
      ((List.range a).map (p + ·)).countP P +
        ((List.range b).map (p + a + ·)).countP P := by
  rw [List.range_add, List.map_append, List.countP_append, List.map_map]
  congr 2
  exact List.map_congr_left fun x _ => by simp [Function.comp, Nat.add_assoc]

theorem countP_map_range_one (P : Nat → Bool) (p : Nat) :
    ((List.range 1).map (p + ·)).countP P = if P p then 1 else 0 := by
  have e : List.range 1 = [0] := rfl
  rw [e, List.map_cons, List.map_nil, List.countP_cons, List.countP_nil]
  simp

theorem countP_map_range_false (bs : List Nat) (p n : Nat)
    (h : ∀ r, p ≤ r → r < p + n → nqG bs r = false) :
    ((List.range n).map (p + ·)).countP (nqG bs) = 0 := by
  rw [List.countP_eq_zero]
  intro a ha
  obtain ⟨x, hx, rfl⟩ := List.mem_map.mp ha
  rw [List.mem_range] at hx
  rw [h (p + x) (by omega) (by omega)]
  exact Bool.false_ne_true

theorem str_seg_facts (bs : List Nat) (items : List StrItem) (p : Nat)
    (hwf : (Seg.str items).wfB = true)
    (hb : bytesAt bs p (Seg.str items).bytes)
    (hesc : escG bs p = false) :
    nqG bs p = true ∧
    (∀ r, p + 1 ≤ r → r < p + 1 + (items.flatMap StrItem.bytes).length →
      nqG bs r = false) ∧
    nqG bs (p + 1 + (items.flatMap StrItem.bytes).length) = true ∧
    escG bs (p + (Seg.str items).bytes.length) = false := by
  rw [Seg.wfB] at hwf
  rw [Seg.bytes] at hb
  obtain ⟨hbyte0, hbrest⟩ := bytesAt_cons bs p 34 _ hb
  obtain ⟨hbinner, hbclose⟩ := bytesAt_append bs (p + 1) _ _ hbrest
  have hbyteC : bs.getD (p + 1 + (items.flatMap StrItem.bytes).length) 0 = 34 :=
    (bytesAt_cons bs _ 34 _ hbclose).1
  have hesc1 : escG bs (p + 1) = false := by
    rw [escG_succ, hbyte0]
    rfl
  obtain ⟨ihe, ihn⟩ := items_step bs items (p + 1) hwf hbinner hesc1
  refine ⟨?_, ihn, ?_, ?_⟩
  · rw [nqG, hbyte0, hesc]
    rfl
  · rw [nqG, hbyteC, ihe]
    rfl
  · have e : p + (Seg.bytes (Seg.str items)).length =
        p + 1 + (items.flatMap StrItem.bytes).length + 1 := by
      rw [Seg.bytes, List.length_cons, List.length_append, List.length_cons,
        List.length_nil]
      omega
    rw [e, escG_succ, hbyteC]
    rfl

theorem raw_seg_facts (bs : List Nat) (b : Nat) (p : Nat)
    (hwf : (Seg.raw b).wfB = true) (hb : bytesAt bs p (Seg.raw b).bytes)
    (hesc : escG bs p = false) :
    nqG bs p = false ∧ escG bs (p + 1) = false := by
  rw [Seg.wfB] at hwf
  rcases (Bool.and_eq_true _ _).mp hwf with ⟨hqb, hsb⟩
  rw [Bool.not_eq_true'] at hqb hsb
  have hbyte : bs.getD p 0 = b := (bytesAt_cons bs p b [] hb).1
  constructor
  · rw [nqG, hbyte, hqb]
    rfl
  · rw [escG_succ, hbyte, hsb]
    rfl

theorem segs_step (bs : List Nat) : ∀ (segs : List Seg) (p : Nat),
    segs.all Seg.wfB = true →
    bytesAt bs p (docBytes segs) →
    escG bs p = false →
    (escG bs (p + (docBytes segs).length) = false ∧
      ((List.range (docBytes segs).length).map (p + ·)).countP (nqG bs) % 2 = 0)
  | [], p, _, _, hesc => by
    rw [docBytes, List.flatMap_nil, List.length_nil, Nat.add_zero]
    exact ⟨hesc, by simp⟩
  | s :: rest, p, hwf, hb, hesc => by
    rw [docBytes, List.flatMap_cons] at hb ⊢
    rw [List.all_cons] at hwf
    rcases (Bool.and_eq_true _ _).mp hwf with ⟨hws, hwrest⟩
    obtain ⟨hbs, hbrest⟩ := bytesAt_append bs p _ _ hb
    have hlen : (s.bytes ++ rest.flatMap Seg.bytes).length =
        s.bytes.length + (rest.flatMap Seg.bytes).length := List.length_append _ _
    have hsegfacts : escG bs (p + s.bytes.length) = false ∧
        ((List.range s.bytes.length).map (p + ·)).countP (nqG bs) % 2 = 0 := by
      cases s with
      | raw b =>
        obtain ⟨hnq, hesc'⟩ := raw_seg_facts bs b p hws hbs hesc
        refine ⟨hesc', ?_⟩
        rw [show (Seg.raw b).bytes.length = 1 from rfl, countP_map_range_one,
          hnq]
        simp
      | str items =>
        obtain ⟨hnqo, hinner, hnqc, hesc'⟩ := str_seg_facts bs items p hws hbs hesc
        refine ⟨hesc', ?_⟩
        have e : (Seg.str items).bytes.length =
            1 + ((items.flatMap StrItem.bytes).length + 1) := by
          rw [Seg.bytes, List.length_cons, List.length_append, List.length_cons,
            List.length_nil]
          omega
        rw [e, countP_map_range_split, countP_map_range_one, hnqo,
          countP_map_range_split, countP_map_range_one,
          countP_map_range_false bs (p + 1) _ (by
            intro r h1 h2
            exact hinner r h1 (by omega)),
          (by omega : p + 1 + (items.flatMap StrItem.bytes).length =
            p + 1 + (items.flatMap StrItem.bytes).length)]
        rw [show p + 1 + (items.flatMap StrItem.bytes).length =
          p + 1 + (items.flatMap StrItem.bytes).length from rfl] at hnqc
        rw [hnqc]
        simp
    obtain ⟨hse, hsc⟩ := hsegfacts
    obtain ⟨ihe, ihc⟩ := segs_step bs rest (p + s.bytes.length) hwrest hbrest hse
    rw [docBytes] at ihe ihc
    rw [hlen]
    constructor
    · rw [(by omega : p + (s.bytes.length + (rest.flatMap Seg.bytes).length) =
        p + s.bytes.length + (rest.flatMap Seg.bytes).length)]
      exact ihe
    · rw [countP_map_range_split]
      omega

end Quotes

/-- C2: for every lexically well-formed JSON byte stream (a sequence of
strings — quote-delimited, with escape pairs inside — and non-string
bytes that are neither quotes nor backslashes), processed in 32-byte
blocks by the quote classifier, and every string in it: the
within_quotes mask has the bit of the string's opening quote set and the
bit of its matching closing quote clear. -/
theorem c2_within_quotes_boundary (pre post : List Quotes.Seg)
    (items : List Quotes.StrItem)
    (hwf : Quotes.docWf (pre ++ Quotes.Seg.str items :: post) = true) :
    (Quotes.withinAt (Quotes.docBytes (pre ++ Quotes.Seg.str items :: post))
        ((Quotes.docBytes pre).length / 32)).testBit
      ((Quotes.docBytes pre).length % 32) = true ∧
    (Quotes.withinAt (Quotes.docBytes (pre ++ Quotes.Seg.str items :: post))
        (((Quotes.docBytes pre).length + 1 +
            (items.flatMap Quotes.StrItem.bytes).length) / 32)).testBit
      (((Quotes.docBytes pre).length + 1 +
          (items.flatMap Quotes.StrItem.bytes).length) % 32) = false := by
  have hdb : Quotes.docBytes (pre ++ Quotes.Seg.str items :: post) =
      Quotes.docBytes pre ++
        ((Quotes.Seg.str items).bytes ++ Quotes.docBytes post) := by
    rw [Quotes.docBytes, Quotes.docBytes, Quotes.docBytes, List.flatMap_append,
      List.flatMap_cons]
  rw [Quotes.docWf, List.all_append, List.all_cons] at hwf
  rcases (Bool.and_eq_true _ _).mp hwf with ⟨hwpre, hwrest⟩
  rcases (Bool.and_eq_true _ _).mp hwrest with ⟨hwstr, _⟩
  have hba0 : Quotes.bytesAt
      (Quotes.docBytes (pre ++ Quotes.Seg.str items :: post)) 0
      (Quotes.docBytes pre ++
        ((Quotes.Seg.str items).bytes ++ Quotes.docBytes post)) := by
    rw [← hdb]
    intro off hoff
    rw [Nat.zero_add]
  obtain ⟨hbpre, hbrest⟩ := Quotes.bytesAt_append _ 0 _ _ hba0
  rw [Nat.zero_add] at hbrest
  obtain ⟨hbstr, _⟩ := Quotes.bytesAt_append _ _ _ _ hbrest
  have hesc0 : Quotes.escG
      (Quotes.docBytes (pre ++ Quotes.Seg.str items :: post)) 0 = false := rfl
  obtain ⟨hescpo, hcpre⟩ := Quotes.segs_step _ pre 0 hwpre hbpre hesc0
  rw [Nat.zero_add] at hescpo
  have hmapid : (List.range (Quotes.docBytes pre).length).map (0 + ·) =
      List.range (Quotes.docBytes pre).length := by
    rw [List.map_congr_left (fun a _ => Nat.zero_add a), List.map_id']
  rw [hmapid] at hcpre
  obtain ⟨hnqo, hinner, hnqc, _⟩ :=
    Quotes.str_seg_facts _ items (Quotes.docBytes pre).length hwstr hbstr hescpo
  have hopen := Quotes.withinAt_correct
    (Quotes.docBytes (pre ++ Quotes.Seg.str items :: post))
    ((Quotes.docBytes pre).length / 32) ((Quotes.docBytes pre).length % 32)
    (by omega)
  rw [(by omega : 32 * ((Quotes.docBytes pre).length / 32) +
      (Quotes.docBytes pre).length % 32 + 1 =
      (Quotes.docBytes pre).length + 1)] at hopen
  have hcount_open : (List.range ((Quotes.docBytes pre).length + 1)).countP
      (Quotes.nqG (Quotes.docBytes (pre ++ Quotes.Seg.str items :: post))) % 2 =
        1 := by
    rw [List.range_succ, List.countP_append, List.countP_cons, List.countP_nil,
      hnqo, if_pos rfl]
    omega
  have hclose := Quotes.withinAt_correct
    (Quotes.docBytes (pre ++ Quotes.Seg.str items :: post))
    (((Quotes.docBytes pre).length + 1 +
        (items.flatMap Quotes.StrItem.bytes).length) / 32)
    (((Quotes.docBytes pre).length + 1 +
        (items.flatMap Quotes.StrItem.bytes).length) % 32)
    (by omega)
  rw [(by omega : 32 * (((Quotes.docBytes pre).length + 1 +
        (items.flatMap Quotes.StrItem.bytes).length) / 32) +
      ((Quotes.docBytes pre).length + 1 +
        (items.flatMap Quotes.StrItem.bytes).length) % 32 + 1 =
      (Quotes.docBytes pre).length + 1 +
        (items.flatMap Quotes.StrItem.bytes).length + 1)] at hclose
  have hcount_close : (List.range ((Quotes.docBytes pre).length + 1 +
      (items.flatMap Quotes.StrItem.bytes).length + 1)).countP
      (Quotes.nqG (Quotes.docBytes (pre ++ Quotes.Seg.str items :: post))) % 2 =
        0 := by
    rw [(by omega : (Quotes.docBytes pre).length + 1 +
        (items.flatMap Quotes.StrItem.bytes).length + 1 =
        (Quotes.docBytes pre).length +
          (1 + ((items.flatMap Quotes.StrItem.bytes).length + 1))),
      List.range_add, List.countP_append, Quotes.countP_map_range_split,
      Quotes.countP_map_range_one, hnqo, if_pos rfl,
      Quotes.countP_map_range_split, Quotes.countP_map_range_one,
      Quotes.countP_map_range_false _ ((Quotes.docBytes pre).length + 1) _
        (fun r h1 h2 => hinner r h1 (by omega)),
      hnqc, if_pos rfl]
    omega
  constructor
  · rw [hopen]
    exact decide_eq_true hcount_open
  · rw [hclose]
    exact decide_eq_false (by omega)

/-- C2 witness: the document `x"a\""}`-style: one raw byte, then the
string `"a\""` (a plain byte and an escaped quote), then a raw byte.  The
opening quote sits at offset 1 and the closing quote at offset 5 of the
single block. -/
theorem c2_witness :
    Quotes.docWf ([Quotes.Seg.raw 120] ++
      Quotes.Seg.str [Quotes.StrItem.ch 97, Quotes.StrItem.esc 34] ::
        [Quotes.Seg.raw 125]) = true ∧
    (Quotes.withinAt (Quotes.docBytes ([Quotes.Seg.raw 120] ++
        Quotes.Seg.str [Quotes.StrItem.ch 97, Quotes.StrItem.esc 34] ::
          [Quotes.Seg.raw 125]))
      ((Quotes.docBytes [Quotes.Seg.raw 120]).length / 32)).testBit
        ((Quotes.docBytes [Quotes.Seg.raw 120]).length % 32) = true ∧
    (Quotes.withinAt (Quotes.docBytes ([Quotes.Seg.raw 120] ++
        Quotes.Seg.str [Quotes.StrItem.ch 97, Quotes.StrItem.esc 34] ::
          [Quotes.Seg.raw 125]))
      (((Quotes.docBytes [Quotes.Seg.raw 120]).length + 1 +
        ([Quotes.StrItem.ch 97, Quotes.StrItem.esc 34].flatMap
          Quotes.StrItem.bytes).length) / 32)).testBit
        (((Quotes.docBytes [Quotes.Seg.raw 120]).length + 1 +
          ([Quotes.StrItem.ch 97, Quotes.StrItem.esc 34].flatMap
            Quotes.StrItem.bytes).length) % 32) = false := by
  refine ⟨by decide, ?_, ?_⟩
  · exact (c2_within_quotes_boundary [Quotes.Seg.raw 120] [Quotes.Seg.raw 125]
      [Quotes.StrItem.ch 97, Quotes.StrItem.esc 34] (by decide)).1
  · exact (c2_within_quotes_boundary [Quotes.Seg.raw 120] [Quotes.Seg.raw 125]
      [Quotes.StrItem.ch 97, Quotes.StrItem.esc 34] (by decide)).2

/-- C4: for every 32-bit `slashes` mask and prev_slash carry bit,
`BlockClassifier32Bit::classify` computes an `escaped` mask whose bit `i`
is set exactly when an odd-length (maximal) run of backslashes ends at
position `i - 1`, where a run reaching position `0` continues into the
previous block via the one-bit prev_slash carry (bit `0` is escaped
exactly when the carry is set); and when `slashes` is zero the escaped
mask is exactly the prev_slash carry bit. -/
theorem c4_escaped_odd_backslash_runs (slashes : Nat) (hs : slashes < 2 ^ 32)
    (c : Bool) :
    (∀ i, i < 32 →
      (Quotes.escaped slashes c).testBit i = Quotes.escapedSpec slashes c i) ∧
    (slashes = 0 → Quotes.escaped slashes c = Quotes.prev_slash_mask c) :=
  ⟨fun i hi => Quotes.escaped_testBit slashes hs c i hi,
    fun h0 => Quotes.escaped_zero_mask slashes c h0⟩

/-- C4 witness: the block `\\\…` (slashes = 0b111, no carry): only bit 3,
right after the odd-length run, is escaped — the two backslashes inside
the run are not. -/
theorem c4_witness :
    Quotes.escaped 7 false = 8 ∧
    (Quotes.escaped 7 false).testBit 3 = Quotes.escapedSpec 7 false 3 ∧
    (Quotes.escaped 7 false).testBit 1 = Quotes.escapedSpec 7 false 1 ∧
    Quotes.escapedSpec 7 false 3 = true ∧ Quotes.escapedSpec 7 false 1 = false :=
  ⟨by decide,
    (c4_escaped_odd_backslash_runs 7 (by decide) false).1 3 (by decide),
    (c4_escaped_odd_backslash_runs 7 (by decide) false).1 1 (by decide),
    by decide, by decide⟩

/-! ## Query automaton (query/automaton.rs)

The `Automaton` structure and its accessors are embedded from
query/automaton.rs.  The construction pipeline (`nfa.rs` and `minimizer.rs`)
is not part of the sources, so it is modelled from the spec: an NFA with one
state per path prefix and self-loops on descendant carrier states,
determinized by subset construction and minimized by merging
observationally equivalent subsets, with the empty (rejecting) subset as
state 0 and the initial subset `{0}` as state 1. -/

namespace Auto

/-- Labels abstracted as numbers (a label is a member name or an array
index; only equality of labels matters to the automaton). -/
abbrev NLabel := Nat

/-- One query selector: a child (`.label`) or descendant (`..label`)
member selector. -/
structure Selector where
  descendant : Bool
  label : NLabel
deriving DecidableEq, Repr

/-- A parsed query: the list of selectors after the root `$`. -/
abbrev Query := List Selector

/-- Modelled from the spec: the NFA transition relation.  NFA state `i`
stands for the path prefix of length `i`; selector `i + 1` moves `i` to
`i + 1` on its label, and a descendant selector adds a self-loop on the
carrier state over all labels.  `none` stands for any label not occurring
in the query (the fallback letter). -/
def nfaDelta (q : Query) (i : Nat) (l : Option NLabel) : Finset Nat :=
  (if i < q.length ∧ some ((q.getD i ⟨false, 0⟩).label) = l then {i + 1} else ∅) ∪
  (if i < q.length ∧ (q.getD i ⟨false, 0⟩).descendant then {i} else ∅)

/-- Modelled from the spec: the subset-construction transition. -/
def dDelta (q : Query) (S : Finset Nat) (l : Option NLabel) : Finset Nat :=
  S.biUnion fun i => nfaDelta q i l

/-- A subset is accepting when it contains the final NFA state. -/
def acceptB (q : Query) (S : Finset Nat) : Bool := decide (q.length ∈ S)

/-- The distinct labels of the query, plus the fallback letter `none`. -/
def alphabet (q : Query) : List (Option NLabel) :=
  (q.map fun s => some s.label).dedup ++ [none]

/-- Append a set to a worklist unless already present. -/
def addNew (A : List (Finset Nat)) (S : Finset Nat) : List (Finset Nat) :=
  if S ∈ A then A else A ++ [S]

/-- One round of subset exploration: add all successors of known subsets. -/
def exploreStep (q : Query) (A : List (Finset Nat)) : List (Finset Nat) :=
  A.foldl (fun acc S => (alphabet q).foldl (fun acc2 l => addNew acc2 (dDelta q S l)) acc) A

/-- `n` rounds of subset exploration from the initial subset `{0}`. -/
def exploreN (q : Query) : Nat → List (Finset Nat)
  | 0 => [{0}]
  | n + 1 => exploreStep q (exploreN q n)

/-- Exploration bound: `2 ^ (#selectors + 1)` rounds suffice for all
subsets of the NFA state space. -/
def exploreBound (q : Query) : Nat := 2 ^ (q.length + 1)

/-- The candidate DFA states: the rejecting empty subset first, then the
explored subsets (whose first element is the initial subset `{0}`). -/
def candidates (q : Query) : List (Finset Nat) := ∅ :: exploreN q (exploreBound q)

/-- Modelled from the spec: observational equivalence of subsets up to word
length `n` (Hopcroft-style merging criterion; at the exploration bound this
is Nerode equivalence of the subset automaton). -/
def eqUpTo (q : Query) : Nat → Finset Nat → Finset Nat → Bool
  | 0, S, T => acceptB q S == acceptB q T
  | n + 1, S, T =>
    (acceptB q S == acceptB q T) &&
      (alphabet q).all fun l => eqUpTo q n (dDelta q S l) (dDelta q T l)

/-- The representative of a subset: the first equivalent candidate. -/
def repOf (q : Query) (S : Finset Nat) : Finset Nat :=
  ((candidates q).find? fun T => eqUpTo q (exploreBound q) T S).getD S

/-- Deduplicate keeping first occurrences. -/
def dedupFirst (xs : List (Finset Nat)) : List (Finset Nat) := xs.foldl addNew []

/-- The states of the minimized automaton: distinct representatives in
first-seen order (rejecting first, initial second). -/
def reps (q : Query) : List (Finset Nat) := dedupFirst ((candidates q).map (repOf q))

/-- Dense state id of a representative subset. -/
def stateId (q : Query) (S : Finset Nat) : Nat := (reps q).indexOf S

/-- Mirrors `TransitionTable` of query/automaton.rs: labelled transitions
plus a fallback, each target paired with its accepting flag. -/
structure TransitionTable where
  transitions : List (NLabel × Nat × Bool)
  fallback_state : Nat × Bool
deriving DecidableEq, Repr

instance : Inhabited TransitionTable := ⟨⟨[], (0, false)⟩⟩

/-- Mirrors `Automaton` of query/automaton.rs. -/
structure Automaton where
  states : List TransitionTable
deriving DecidableEq, Repr

/-- The distinct labels of the query. -/
def queryLabels (q : Query) : List NLabel := (q.map Selector.label).dedup

/-- Modelled from the spec: the transition table of one minimized state. -/
def tableFor (q : Query) (T : Finset Nat) : TransitionTable :=
  { transitions := (queryLabels q).map fun l =>
      (l, stateId q (repOf q (dDelta q T (some l))), acceptB q (dDelta q T (some l))),
    fallback_state :=
      (stateId q (repOf q (dDelta q T none)), acceptB q (dDelta q T none)) }

/-- Modelled from the spec: the minimal DFA of a query. -/
def automatonFor (q : Query) : Automaton := ⟨(reps q).map (tableFor q)⟩

/-- Mirrors `Automaton::rejecting_state`. -/
def Automaton.rejecting_state (_ : Automaton) : Nat := 0

/-- Mirrors `Automaton::initial_state`. -/
def Automaton.initial_state (_ : Automaton) : Nat := 1

/-- Mirrors `Automaton::is_rejecting`. -/
def Automaton.is_rejecting (a : Automaton) (s : Nat) : Bool :=
  decide (s = a.rejecting_state)

/-- Mirrors `Automaton::is_empty_query`. -/
def Automaton.is_empty_query (a : Automaton) : Bool := decide (a.states.length = 2)

/-- Mirrors `Automaton::accepting_states`: all targets of transitions whose
accepting flag is set. -/
def Automaton.accepting_states (a : Automaton) : List Nat :=
  a.states.flatMap fun tab =>
    (if tab.fallback_state.2 then [tab.fallback_state.1] else []) ++
      tab.transitions.filterMap fun tr => if tr.2.2 then some tr.2.1 else none

/-- Mirrors `Automaton::is_accepting`. -/
def Automaton.is_accepting (a : Automaton) (s : Nat) : Bool :=
  decide (s ∈ a.accepting_states)

/-- Transition targets of a state (labelled transitions and fallback). -/
def Automaton.successors (a : Automaton) (s : Nat) : List Nat :=
  (a.states.getD s default).transitions.map (fun tr => tr.2.1) ++
    [(a.states.getD s default).fallback_state.1]

/-- Reachability along transitions of the automaton. -/
inductive Automaton.ReachableFrom (a : Automaton) (s : Nat) : Nat → Prop where
  | refl : Automaton.ReachableFrom a s s
  | step (t u : Nat) : Automaton.ReachableFrom a s t → u ∈ a.successors t →
      Automaton.ReachableFrom a s u

/-- Mirrors `CompilerError` as relevant to compilation. -/
inductive CompilerError where
  | QueryTooComplex
  | NotSupported
deriving DecidableEq, Repr

/-- Modelled from the spec: `Automaton::new` — build the minimal DFA,
failing with `QueryTooComplex` exactly when minimization would need more
than 255 states. -/
def Automaton.new (q : Query) : Except CompilerError Automaton :=
  if 255 < (automatonFor q).states.length then Except.error CompilerError.QueryTooComplex
  else Except.ok (automatonFor q)

theorem mem_addNew_iff (A : List (Finset Nat)) (S x : Finset Nat) :
    x ∈ addNew A S ↔ x ∈ A ∨ x = S := by
  rw [addNew]
  split
  · next h =>
      constructor
      · exact fun hx => Or.inl hx
      · rintro (hx | rfl)
        · exact hx
        · exact h
  · simp

theorem addNew_nodup (A : List (Finset Nat)) (S : Finset Nat) (h : A.Nodup) :
    (addNew A S).Nodup := by
  rw [addNew]
  split
  · exact h
  · next hn => simp [List.nodup_append, h, hn]

theorem addNew_append (A : List (Finset Nat)) (S : Finset Nat) :
    ∃ ext, addNew A S = A ++ ext := by
  rw [addNew]
  split
  · exact ⟨[], by simp⟩
  · exact ⟨[S], rfl⟩

theorem foldl_addNew_mem (xs : List (Finset Nat)) (acc : List (Finset Nat)) (x : Finset Nat) :
    x ∈ xs.foldl addNew acc ↔ x ∈ acc ∨ x ∈ xs := by
  induction xs generalizing acc with
  | nil => simp
  | cons y ys ih =>
      rw [List.foldl_cons, ih, mem_addNew_iff]
      simp [or_assoc]

theorem foldl_addNew_nodup (xs : List (Finset Nat)) (acc : List (Finset Nat))
    (h : acc.Nodup) : (xs.foldl addNew acc).Nodup := by
  induction xs generalizing acc with
  | nil => exact h
  | cons y ys ih => exact ih _ (addNew_nodup _ _ h)

theorem foldl_addNew_append (xs : List (Finset Nat)) (acc : List (Finset Nat)) :
    ∃ ext, xs.foldl addNew acc = acc ++ ext := by
  induction xs generalizing acc with
  | nil => exact ⟨[], by simp⟩
  | cons y ys ih =>
      obtain ⟨e1, he1⟩ := addNew_append acc y
      obtain ⟨e2, he2⟩ := ih (addNew acc y)
      exact ⟨e1 ++ e2, by rw [List.foldl_cons, he2, he1, List.append_assoc]⟩

theorem dedupFirst_mem (xs : List (Finset Nat)) (x : Finset Nat) :
    x ∈ dedupFirst xs ↔ x ∈ xs := by
  rw [dedupFirst, foldl_addNew_mem]
  simp

theorem dedupFirst_nodup (xs : List (Finset Nat)) : (dedupFirst xs).Nodup :=
  foldl_addNew_nodup xs [] List.nodup_nil

theorem dedupFirst_cons_cons (x y : Finset Nat) (xs : List (Finset Nat)) (h : y ≠ x) :
    ∃ ext, dedupFirst (x :: y :: xs) = x :: y :: ext := by
  rw [dedupFirst, List.foldl_cons, List.foldl_cons]
  have e1 : addNew [] x = [x] := by rw [addNew] ; simp
  have e2 : addNew [x] y = [x, y] := by
    rw [addNew, if_neg (by simp [h])]
    rfl
  rw [e1, e2]
  obtain ⟨ext, hext⟩ := foldl_addNew_append xs [x, y]
  exact ⟨ext, by rw [hext] ; rfl⟩

theorem mem_foldl_letters (q : Query) (S : Finset Nat) (ls : List (Option NLabel))
    (acc : List (Finset Nat)) (x : Finset Nat) (hx : x ∈ acc) :
    x ∈ ls.foldl (fun acc2 l => addNew acc2 (dDelta q S l)) acc := by
  induction ls generalizing acc with
  | nil => exact hx
  | cons l ls ih =>
      rw [List.foldl_cons]
      exact ih _ ((mem_addNew_iff _ _ _).mpr (Or.inl hx))

theorem mem_foldl_letters_self (q : Query) (S : Finset Nat) (ls : List (Option NLabel))
    (acc : List (Finset Nat)) (l : Option NLabel) (hl : l ∈ ls) :
    dDelta q S l ∈ ls.foldl (fun acc2 l => addNew acc2 (dDelta q S l)) acc := by
  induction ls generalizing acc with
  | nil => cases hl
  | cons l0 ls ih =>
      rw [List.foldl_cons]
      rcases List.mem_cons.mp hl with rfl | hl
      · exact mem_foldl_letters q S ls _ _ ((mem_addNew_iff _ _ _).mpr (Or.inr rfl))
      · exact ih _ hl

theorem mem_exploreStep_outer (q : Query) (L : List (Finset Nat)) (acc : List (Finset Nat))
    (x : Finset Nat) (hx : x ∈ acc) :
    x ∈ L.foldl (fun acc S => (alphabet q).foldl
      (fun acc2 l => addNew acc2 (dDelta q S l)) acc) acc := by
  induction L generalizing acc with
  | nil => exact hx
  | cons S L ih =>
      rw [List.foldl_cons]
      exact ih _ (mem_foldl_letters q S _ _ _ hx)

theorem mem_exploreStep_mono (q : Query) (A : List (Finset Nat)) (x : Finset Nat)
    (hx : x ∈ A) : x ∈ exploreStep q A := by
  rw [exploreStep]
  exact mem_exploreStep_outer q A A x hx

theorem mem_exploreStep_succ_aux (q : Query) (L : List (Finset Nat))
    (acc : List (Finset Nat)) (S : Finset Nat) (l : Option NLabel)
    (hS : S ∈ L) (hl : l ∈ alphabet q) :
    dDelta q S l ∈ L.foldl (fun acc S => (alphabet q).foldl
      (fun acc2 l => addNew acc2 (dDelta q S l)) acc) acc := by
  induction L generalizing acc with
  | nil => cases hS
  | cons S0 L ih =>
      rw [List.foldl_cons]
      rcases List.mem_cons.mp hS with rfl | hS
      · exact mem_exploreStep_outer q L _ _ (mem_foldl_letters_self q S _ acc l hl)
      · exact ih _ hS

theorem mem_exploreStep_succ (q : Query) (A : List (Finset Nat)) (S : Finset Nat)
    (l : Option NLabel) (hS : S ∈ A) (hl : l ∈ alphabet q) :
    dDelta q S l ∈ exploreStep q A := by
  rw [exploreStep]
  exact mem_exploreStep_succ_aux q A A S l hS hl

theorem exploreN_mono (q : Query) (n m : Nat) (h : n ≤ m) (x : Finset Nat)
    (hx : x ∈ exploreN q n) : x ∈ exploreN q m := by
  induction m with
  | zero =>
      have : n = 0 := by omega
      subst this
      exact hx
  | succ m ih =>
      by_cases hnm : n = m + 1
      · subst hnm ; exact hx
      · have : n ≤ m := by omega
        rw [exploreN]
        exact mem_exploreStep_mono q _ x (ih this)

theorem foldl_letters_append (q : Query) (S : Finset Nat) (ls : List (Option NLabel))
    (acc : List (Finset Nat)) :
    ∃ ext, ls.foldl (fun acc2 l => addNew acc2 (dDelta q S l)) acc = acc ++ ext := by
  induction ls generalizing acc with
  | nil => exact ⟨[], by simp⟩
  | cons l ls ih =>
      rw [List.foldl_cons]
      obtain ⟨e1, he1⟩ := addNew_append acc (dDelta q S l)
      obtain ⟨e2, he2⟩ := ih (addNew acc (dDelta q S l))
      exact ⟨e1 ++ e2, by rw [he2, he1, List.append_assoc]⟩

theorem foldl_outer_append (q : Query) (L : List (Finset Nat)) (acc : List (Finset Nat)) :
    ∃ ext, L.foldl (fun acc S => (alphabet q).foldl
      (fun acc2 l => addNew acc2 (dDelta q S l)) acc) acc = acc ++ ext := by
  induction L generalizing acc with
  | nil => exact ⟨[], by simp⟩
  | cons S L ih =>
      rw [List.foldl_cons]
      obtain ⟨e1, he1⟩ := foldl_letters_append q S (alphabet q) acc
      obtain ⟨e2, he2⟩ := ih ((alphabet q).foldl (fun acc2 l => addNew acc2 (dDelta q S l)) acc)
      exact ⟨e1 ++ e2, by rw [he2, he1, List.append_assoc]⟩

theorem exploreN_head (q : Query) (n : Nat) :
    ∃ ext, exploreN q n = {0} :: ext := by
  induction n with
  | zero => exact ⟨[], rfl⟩
  | succ n ih =>
      obtain ⟨ext, hext⟩ := ih
      rw [exploreN, exploreStep]
      obtain ⟨e2, he2⟩ := foldl_outer_append q (exploreN q n) (exploreN q n)
      rw [he2, hext]
      exact ⟨ext ++ e2, rfl⟩

theorem word_reach_explore (q : Query) (w : List (Option NLabel))
    (hw : ∀ l ∈ w, l ∈ alphabet q) (k : Nat) (S : Finset Nat) (hS : S ∈ exploreN q k) :
    w.foldl (dDelta q) S ∈ exploreN q (k + w.length) := by
  induction w generalizing k S with
  | nil => simpa using hS
  | cons l w ih =>
      rw [List.foldl_cons]
      have h1 : dDelta q S l ∈ exploreN q (k + 1) := by
        rw [exploreN]
        exact mem_exploreStep_succ q _ S l hS (hw l (List.mem_cons_self _ _))
      have h2 := ih (fun l' hl' => hw l' (List.mem_cons_of_mem _ hl')) (k + 1) _ h1
      have e : k + 1 + w.length = k + (w.length + 1) := by omega
      rw [e] at h2
      simpa using h2

theorem eqUpTo_refl (q : Query) (n : Nat) (S : Finset Nat) : eqUpTo q n S S = true := by
  induction n generalizing S with
  | zero => simp [eqUpTo]
  | succ n ih =>
      rw [eqUpTo]
      simp only [Bool.and_eq_true, beq_self_eq_true, true_and, List.all_eq_true]
      intro l _
      exact ih _

theorem eqUpTo_accept (q : Query) (n : Nat) (S T : Finset Nat)
    (h : eqUpTo q n S T = true) : acceptB q S = acceptB q T := by
  cases n with
  | zero => rw [eqUpTo] at h ; exact eq_of_beq h
  | succ n =>
      rw [eqUpTo] at h
      exact eq_of_beq ((Bool.and_eq_true _ _).mp h).1

theorem eqUpTo_sound (q : Query) (n : Nat) (S T : Finset Nat) (w : List (Option NLabel))
    (h : eqUpTo q n S T = true) (hw : ∀ l ∈ w, l ∈ alphabet q) (hlen : w.length ≤ n) :
    acceptB q (w.foldl (dDelta q) S) = acceptB q (w.foldl (dDelta q) T) := by
  induction w generalizing n S T with
  | nil => exact eqUpTo_accept q n S T h
  | cons l w ih =>
      cases n with
      | zero => simp at hlen
      | succ n =>
          rw [eqUpTo] at h
          have h2 := ((Bool.and_eq_true _ _).mp h).2
          rw [List.all_eq_true] at h2
          have hstep := h2 l (hw l (List.mem_cons_self _ _))
          rw [List.foldl_cons, List.foldl_cons]
          exact ih n _ _ hstep (fun l' hl' => hw l' (List.mem_cons_of_mem _ hl'))
            (by simpa using hlen)

theorem dDelta_empty (q : Query) (l : Option NLabel) : dDelta q ∅ l = ∅ := by
  rw [dDelta, Finset.biUnion_empty]

theorem foldl_dDelta_empty (q : Query) (w : List (Option NLabel)) :
    w.foldl (dDelta q) ∅ = ∅ := by
  induction w with
  | nil => rfl
  | cons l w ih => rw [List.foldl_cons, dDelta_empty, ih]

theorem acceptB_empty (q : Query) : acceptB q ∅ = false := by
  simp [acceptB]

/-- The word of the query's own labels, in order. -/
def queryWord (q : Query) : List (Option NLabel) := q.map fun s => some s.label

theorem queryWord_alphabet (q : Query) (l : Option NLabel) (h : l ∈ queryWord q) :
    l ∈ alphabet q := by
  rw [alphabet]
  apply List.mem_append_left
  rw [List.mem_dedup]
  exact h

theorem queryWord_drop_reach (q : Query) (j : Nat) (hj : j ≤ q.length) (S : Finset Nat)
    (hS : j ∈ S) :
    q.length ∈ ((q.drop j).map fun s => some s.label).foldl (dDelta q) S := by
  suffices hgen : ∀ n j S, q.length - j = n → j ≤ q.length → j ∈ S →
      q.length ∈ ((q.drop j).map fun s => some s.label).foldl (dDelta q) S by
    exact hgen _ j S rfl hj hS
  intro n
  induction n with
  | zero =>
      intro j S hn hj hS
      have : j = q.length := by omega
      subst this
      rw [List.drop_length]
      simpa using hS
  | succ n ih =>
      intro j S hn hj hS
      have hjlt : j < q.length := by omega
      have hdrop : q.drop j = q.getD j ⟨false, 0⟩ :: q.drop (j + 1) := by
        rw [List.getD_eq_getElem?_getD, List.getElem?_eq_getElem hjlt]
        exact List.drop_eq_getElem_cons hjlt
      rw [hdrop, List.map_cons, List.foldl_cons]
      apply ih (j + 1) _ (by omega) (by omega)
      rw [dDelta, Finset.mem_biUnion]
      refine ⟨j, hS, ?_⟩
      rw [nfaDelta, Finset.mem_union]
      left
      rw [if_pos ⟨hjlt, rfl⟩]
      simp

theorem queryWord_reach (q : Query) :
    q.length ∈ (queryWord q).foldl (dDelta q) {0} := by
  have := queryWord_drop_reach q 0 (by omega) {0} (by simp)
  simpa [queryWord] using this

theorem acceptB_init (q : Query) : acceptB q {0} = decide (q.length = 0) := by
  simp [acceptB, eq_comm]

theorem not_eqUpTo_empty_init (q : Query) :
    eqUpTo q (exploreBound q) ∅ {0} = false := by
  by_contra hne
  have h : eqUpTo q (exploreBound q) ∅ {0} = true := by
    cases hc : eqUpTo q (exploreBound q) ∅ {0}
    · exact absurd hc hne
    · rfl
  have hlen : (queryWord q).length ≤ exploreBound q := by
    rw [queryWord, List.length_map, exploreBound]
    have := Nat.lt_two_pow (q.length + 1)
    omega
  have := eqUpTo_sound q _ ∅ {0} (queryWord q) h (queryWord_alphabet q) hlen
  rw [foldl_dDelta_empty, acceptB_empty] at this
  have haccept : acceptB q ((queryWord q).foldl (dDelta q) {0}) = true := by
    rw [acceptB]
    simp [queryWord_reach q]
  rw [haccept] at this
  cases this

theorem repOf_empty (q : Query) : repOf q ∅ = ∅ := by
  rw [repOf, candidates]
  have e : List.find? (fun T => eqUpTo q (exploreBound q) T ∅)
      (∅ :: exploreN q (exploreBound q)) = some ∅ :=
    List.find?_cons_of_pos _ (eqUpTo_refl q (exploreBound q) ∅)
  rw [e]
  rfl

theorem repOf_init (q : Query) : repOf q {0} = {0} := by
  obtain ⟨ext, hext⟩ := exploreN_head q (exploreBound q)
  rw [repOf, candidates, hext]
  have e1 : List.find? (fun T => eqUpTo q (exploreBound q) T {0})
      (∅ :: {0} :: ext) = List.find? (fun T => eqUpTo q (exploreBound q) T {0}) ({0} :: ext) :=
    List.find?_cons_of_neg _ (by rw [not_eqUpTo_empty_init q] ; simp)
  have e2 : List.find? (fun T => eqUpTo q (exploreBound q) T {0}) ({0} :: ext) = some {0} :=
    List.find?_cons_of_pos _ (eqUpTo_refl q (exploreBound q) {0})
  rw [e1, e2]
  rfl

theorem repOf_accept (q : Query) (S : Finset Nat) :
    acceptB q (repOf q S) = acceptB q S := by
  rw [repOf]
  cases hf : (candidates q).find? fun T => eqUpTo q (exploreBound q) T S with
  | none => rfl
  | some T =>
      have := List.find?_some hf
      rw [Option.getD_some]
      exact eqUpTo_accept q _ T S this

theorem repOf_mem_candidates (q : Query) (S : Finset Nat) (h : S ∈ candidates q) :
    repOf q S ∈ candidates q := by
  rw [repOf]
  cases hf : (candidates q).find? fun T => eqUpTo q (exploreBound q) T S with
  | none => exact h
  | some T =>
      rw [Option.getD_some]
      exact List.mem_of_find?_eq_some hf

theorem repOf_mem_reps (q : Query) (S : Finset Nat) (h : S ∈ candidates q) :
    repOf q S ∈ reps q := by
  rw [reps, dedupFirst_mem]
  exact List.mem_map_of_mem _ h

theorem reps_structure (q : Query) : ∃ ext, reps q = ∅ :: {0} :: ext := by
  obtain ⟨ext, hext⟩ := exploreN_head q (exploreBound q)
  have hmap : (candidates q).map (repOf q) = ∅ :: {0} :: ext.map (repOf q) := by
    rw [candidates, hext, List.map_cons, List.map_cons, repOf_empty, repOf_init]
  rw [reps, hmap]
  apply dedupFirst_cons_cons
  intro hc
  have : (0 : Nat) ∈ (∅ : Finset Nat) := by rw [← hc] ; simp
  simp at this

theorem stateId_empty (q : Query) : stateId q ∅ = 0 := by
  obtain ⟨ext, hext⟩ := reps_structure q
  rw [stateId, hext, List.indexOf_cons_self]

theorem stateId_ne_zero (q : Query) (x : Finset Nat) (hx : x ≠ ∅) : stateId q x ≠ 0 := by
  obtain ⟨ext, hext⟩ := reps_structure q
  rw [stateId, hext, List.indexOf_cons_ne _ (Ne.symm hx)]
  exact Nat.succ_ne_zero _

theorem automatonFor_getD_zero (q : Query) :
    (automatonFor q).states.getD 0 default = tableFor q ∅ := by
  obtain ⟨ext, hext⟩ := reps_structure q
  rw [automatonFor]
  dsimp only
  rw [hext, List.map_cons, List.getD_cons_zero]

theorem successors_zero (q : Query) (u : Nat)
    (hu : u ∈ (automatonFor q).successors 0) : u = 0 := by
  rw [Automaton.successors, automatonFor_getD_zero] at hu
  rcases List.mem_append.mp hu with hu | hu
  · rw [tableFor] at hu
    dsimp only at hu
    rw [List.map_map] at hu
    obtain ⟨l, _, hl⟩ := List.mem_map.mp hu
    dsimp only [Function.comp] at hl
    rw [dDelta_empty, repOf_empty, stateId_empty] at hl
    exact hl.symm
  · rw [List.mem_singleton] at hu
    rw [tableFor] at hu
    dsimp only at hu
    rw [dDelta_empty, repOf_empty, stateId_empty] at hu
    exact hu

theorem reachable_from_zero (q : Query) (t : Nat)
    (h : Automaton.ReachableFrom (automatonFor q) 0 t) : t = 0 := by
  induction h with
  | refl => rfl
  | step t u _ hu ih =>
      rw [ih] at hu
      exact successors_zero q u hu

theorem not_accepting_target_zero (q : Query) (T : Finset Nat) (l : Option NLabel)
    (hflag : acceptB q (dDelta q T l) = true) :
    stateId q (repOf q (dDelta q T l)) ≠ 0 := by
  apply stateId_ne_zero
  intro hc
  have := repOf_accept q (dDelta q T l)
  rw [hc, acceptB_empty] at this
  rw [hflag] at this
  cases this

theorem is_accepting_zero (q : Query) : (automatonFor q).is_accepting 0 = false := by
  rw [Automaton.is_accepting, decide_eq_false_iff_not]
  intro hmem
  rw [Automaton.accepting_states, List.mem_flatMap] at hmem
  obtain ⟨tab, htab, hin⟩ := hmem
  rw [automatonFor] at htab
  dsimp only at htab
  obtain ⟨T, _, rfl⟩ := List.mem_map.mp htab
  rcases List.mem_append.mp hin with hin | hin
  · rw [tableFor] at hin
    dsimp only at hin
    split at hin
    · next hflag =>
        rw [List.mem_singleton] at hin
        exact not_accepting_target_zero q T none hflag hin.symm
    · cases hin
  · rw [tableFor] at hin
    dsimp only at hin
    obtain ⟨tr, htr, hval⟩ := List.mem_filterMap.mp hin
    obtain ⟨l, _, rfl⟩ := List.mem_map.mp htr
    dsimp only at hval
    split at hval
    · next hflag =>
        exact not_accepting_target_zero q T (some l) hflag (Option.some.inj hval)
    · cases hval

theorem states_length_ge_three (q : Query) (hq : q ≠ []) :
    3 ≤ (automatonFor q).states.length := by
  obtain ⟨ext, hext⟩ := reps_structure q
  have hA : (queryWord q).foldl (dDelta q) {0} ∈ exploreN q (exploreBound q) := by
    have h0 : ({0} : Finset Nat) ∈ exploreN q 0 := by
      rw [exploreN]
      exact List.mem_singleton.mpr rfl
    have := word_reach_explore q (queryWord q) (queryWord_alphabet q) 0 {0} h0
    apply exploreN_mono q _ _ _ _ this
    rw [queryWord, List.length_map, exploreBound]
    have := Nat.lt_two_pow (q.length + 1)
    omega
  have hAc : (queryWord q).foldl (dDelta q) {0} ∈ candidates q :=
    List.mem_cons_of_mem _ hA
  have hR : repOf q ((queryWord q).foldl (dDelta q) {0}) ∈ reps q :=
    repOf_mem_reps q _ hAc
  have hRacc : acceptB q (repOf q ((queryWord q).foldl (dDelta q) {0})) = true := by
    rw [repOf_accept, acceptB]
    simp [queryWord_reach q]
  have hRne1 : repOf q ((queryWord q).foldl (dDelta q) {0}) ≠ ∅ := by
    intro hc
    rw [hc, acceptB_empty] at hRacc
    cases hRacc
  have hRne2 : repOf q ((queryWord q).foldl (dDelta q) {0}) ≠ {0} := by
    intro hc
    rw [hc, acceptB_init] at hRacc
    have : q.length = 0 := of_decide_eq_true hRacc
    exact hq (List.length_eq_zero.mp this)
  rw [hext] at hR
  rcases List.mem_cons.mp hR with hc | hR
  · exact absurd hc hRne1
  rcases List.mem_cons.mp hR with hc | hR
  · exact absurd hc hRne2
  have : 1 ≤ ext.length := List.length_pos.mpr (List.ne_nil_of_mem hR)
  rw [automatonFor]
  dsimp only
  rw [List.length_map, hext]
  simp only [List.length_cons]
  omega

end Auto

/-- C5: for every automaton built by `Automaton.new` from a query:
`rejecting_state` returns state `0` and `is_rejecting` holds exactly at
`0`; state `0` is a sink from which no accepting state is reachable;
`initial_state` returns state `1`; and `is_empty_query` holds exactly when
the automaton has 2 states, which is the case exactly for the trivial
query `$` (the empty selector list). -/
theorem c5_automaton_invariants (q : Auto.Query) (a : Auto.Automaton)
    (h : Auto.Automaton.new q = Except.ok a) :
    a.rejecting_state = 0 ∧
    (∀ s, a.is_rejecting s = true ↔ s = 0) ∧
    (∀ t, Auto.Automaton.ReachableFrom a 0 t → a.is_accepting t = false) ∧
    a.initial_state = 1 ∧
    (a.is_empty_query = true ↔ a.states.length = 2) ∧
    (a.states.length = 2 ↔ q = []) := by
  have ha : a = Auto.automatonFor q := by
    rw [Auto.Automaton.new] at h
    split at h
    · cases h
    · exact (Except.ok.inj h).symm
  subst ha
  refine ⟨rfl, ?_, ?_, rfl, ?_, ?_⟩
  · intro s
    rw [Auto.Automaton.is_rejecting]
    simp [Auto.Automaton.rejecting_state]
  · intro t ht
    rw [Auto.reachable_from_zero q t ht]
    exact Auto.is_accepting_zero q
  · rw [Auto.Automaton.is_empty_query]
    simp
  · constructor
    · intro h2
      by_contra hq
      have := Auto.states_length_ge_three q hq
      omega
    · intro hq
      subst hq
      decide

/-- C5 witness: the single descendant selector `$..⟨5⟩` compiles, and its
automaton does not have 2 states (it is not the empty query). -/
theorem c5_witness :
    Auto.Automaton.new [⟨true, 5⟩] =
      Except.ok (Auto.automatonFor [⟨true, 5⟩]) ∧
    ((Auto.automatonFor [⟨true, 5⟩]).states.length = 2 ↔
      ([⟨true, 5⟩] : Auto.Query) = []) := by
  have hnew : Auto.Automaton.new [⟨true, 5⟩] =
      Except.ok (Auto.automatonFor [⟨true, 5⟩]) := by
    rw [Auto.Automaton.new, if_neg (by decide)]
  refine ⟨hnew, ?_⟩
  exact (c5_automaton_invariants [⟨true, 5⟩] (Auto.automatonFor [⟨true, 5⟩])
    hnew).2.2.2.2.2

/-- C6: `Automaton.new` fails with `QueryTooComplex` exactly when the
minimal DFA of the query needs more than 255 states; every query within
that capacity yields the minimal DFA, and no other failure is possible
(in particular the error is never `NotSupported` for the modelled
selector language). -/
theorem c6_new_query_too_complex (q : Auto.Query) :
    (Auto.Automaton.new q = Except.error Auto.CompilerError.QueryTooComplex ↔
      255 < (Auto.automatonFor q).states.length) ∧
    (Auto.Automaton.new q = Except.ok (Auto.automatonFor q) ↔
      (Auto.automatonFor q).states.length ≤ 255) ∧
    Auto.Automaton.new q ≠ Except.error Auto.CompilerError.NotSupported := by
  rw [Auto.Automaton.new]
  by_cases h : 255 < (Auto.automatonFor q).states.length
  · rw [if_pos h]
    exact ⟨⟨fun _ => h, fun _ => rfl⟩,
      ⟨fun hc => Except.noConfusion hc, fun hh => absurd h (by omega)⟩,
      fun hc => Auto.CompilerError.noConfusion (Except.error.inj hc)⟩
  · rw [if_neg h]
    exact ⟨⟨fun hc => Except.noConfusion hc, fun hh => absurd hh h⟩,
      ⟨fun _ => by omega, fun _ => rfl⟩,
      fun hc => Except.noConfusion hc⟩

/-! ## The Nodes recorder (result/nodes.rs)

`InternalRecorder` assembles the byte spans of matched values from the
stream of blocks, match events and value-terminator events.  Byte buffers
are `List Nat`; the `Depth` values are `Nat`. -/

namespace Nodes

/-- Mirrors `MatchedNodeType`. -/
inductive MatchedNodeType where
  | Atomic
  | Complex
deriving DecidableEq, Repr

/-- Mirrors `PartialNode`. -/
structure PartialNode where
  start_idx : Nat
  start_depth : Nat
  buf : List Nat
  ty : MatchedNodeType
deriving DecidableEq, Repr

/-- Mirrors `PreparedNode`. -/
structure PreparedNode where
  start_idx : Nat
  buf : List Nat
  end_idx : Nat
  ty : MatchedNodeType
deriving DecidableEq, Repr

/-- Mirrors `InternalRecorder` (the stack's top is the list head; `ready`
and `finished` push at the back, as `Vec::push` does). -/
structure InternalRecorder where
  idx : Nat
  stack : List PartialNode
  ready : List PreparedNode
  finished : List (List Nat)
deriving DecidableEq, Repr

/-- Mirrors `InternalRecorder::new`. -/
def initialRecorder : InternalRecorder := ⟨0, [], [], []⟩

/-- ASCII whitespace as tested by `finalize_node`. -/
def isWs (b : Nat) : Bool := b == 32 || b == 9 || b == 10 || b == 13

/-- Mirrors `append_block` (`src_start` is the absolute position of `src`,
`read_start` the node's start). -/
def append_block (dest src : List Nat) (src_start read_start : Nat) :
    List Nat :=
  if src_start + src.length ≤ read_start then dest
  else if src_start < read_start then dest ++ src.drop (read_start - src_start)
  else dest ++ src

/-- Mirrors `append_final_block`: extends `dest` with
`src[in_block_start..in_block_end]`. -/
def append_final_block (dest src : List Nat)
    (src_start read_start read_end : Nat) : List Nat :=
  dest ++ ((src.take (read_end - src_start)).drop
    (if src_start < read_start then read_start - src_start else 0))

/-- Mirrors the trimming loop of `finalize_node`: walk `i` down from
`buf.len() - 2` while `buf[i]` is whitespace.  (The Rust loop would
underflow on an all-whitespace buffer; on the well-formed runs considered
the walk stops at a non-whitespace byte, which index `0` of this
structural version also does.) -/
def trimIdx (buf : List Nat) : Nat → Nat
  | 0 => 0
  | i + 1 => if isWs (buf.getD (i + 1) 0) then trimIdx buf i else i + 1

/-- Mirrors `finalize_node`: an `Atomic` buffer is truncated to
`trimIdx + 1` bytes (dropping the terminator and trailing whitespace),
then the buffer is pushed to `finished`. -/
def finalize_node (finished : List (List Nat)) (node : PreparedNode) :
    List (List Nat) :=
  if node.ty = MatchedNodeType.Atomic then
    finished ++ [node.buf.take (trimIdx node.buf (node.buf.length - 2) + 1)]
  else finished ++ [node.buf]

/-- Mirrors `record_match`.  Note: the Rust function computes a local
`start_depth` (`depth + 1` for `Atomic`) but initializes the field with
`start_depth: depth`, so the stored depth is `depth` for both kinds. -/
def record_match (r : InternalRecorder) (idx depth : Nat)
    (ty : MatchedNodeType) : InternalRecorder :=
  { r with stack := ⟨idx, depth, [], ty⟩ :: r.stack }

/-- The pop loop of `record_value_terminator`: pop stack tops whose
`start_depth` is at least `depth`, preparing them with end `idx + 1`. -/
def popLoop (idx depth : Nat) :
    List PartialNode → List PreparedNode → List PartialNode × List PreparedNode
  | [], ready => ([], ready)
  | node :: rest, ready =>
    if depth ≤ node.start_depth then
      popLoop idx depth rest
        (ready ++ [⟨node.start_idx, node.buf, idx + 1, node.ty⟩])
    else (node :: rest, ready)

/-- Mirrors `record_value_terminator`. -/
def record_value_terminator (r : InternalRecorder) (idx depth : Nat) :
    InternalRecorder :=
  { r with stack := (popLoop idx depth r.stack r.ready).1,
           ready := (popLoop idx depth r.stack r.ready).2 }

/-- Mirrors `record_block`: drain `ready` (append the final slice of each
prepared node from this block and finalize it), extend the buffers of the
in-progress stack nodes, and advance `idx`. -/
def record_block (r : InternalRecorder) (block : List Nat) :
    InternalRecorder :=
  { idx := r.idx + block.length,
    stack := r.stack.map fun node =>
      { node with buf := append_block node.buf block r.idx node.start_idx },
    ready := [],
    finished := r.ready.foldl (fun fs top =>
      finalize_node fs { top with
        buf := append_final_block top.buf block r.idx top.start_idx top.end_idx })
      r.finished }

/-- A match or value-terminator event between two block events. -/
inductive Mid where
  | m (idx depth : Nat) (ty : MatchedNodeType)
  | t (idx depth : Nat)
deriving DecidableEq, Repr

/-- One processing group: the events raised while a block is processed,
followed by the `record_block` call for that block. -/
structure Group where
  mids : List Mid
  block : List Nat
deriving DecidableEq, Repr

/-- Apply one mid event to the recorder. -/
def stepMid (r : InternalRecorder) : Mid → InternalRecorder
  | .m i d ty => record_match r i d ty
  | .t i d => record_value_terminator r i d

/-- Run one group: the mid events, then the block. -/
def runGroup (r : InternalRecorder) (g : Group) : InternalRecorder :=
  record_block (g.mids.foldl stepMid r) g.block

/-- Run a whole event stream. -/
def runGroups (r : InternalRecorder) (gs : List Group) : InternalRecorder :=
  gs.foldl runGroup r

/-- The document determined by the block events. -/
def docOf (gs : List Group) : List Nat := gs.flatMap Group.block

/-- Every event index lies within `[off, off + L)`. -/
def midsWf (off L : Nat) (mids : List Mid) : Bool :=
  mids.all fun e =>
    match e with
    | .m i _ _ => decide (off ≤ i ∧ i < off + L)
    | .t i _ => decide (off ≤ i ∧ i < off + L)

/-- Well-formedness of one group's events at absolute offset `off`: every
event index lies within the group's block. -/
def groupWf (off : Nat) (g : Group) : Bool :=
  midsWf off g.block.length g.mids

/-- Well-formedness of an event stream. -/
def groupsWf (off : Nat) : List Group → Bool
  | [] => true
  | g :: rest => groupWf off g && groupsWf (off + g.block.length) rest

/-- An open match of the reference machine. -/
structure OpenNode where
  start : Nat
  depth : Nat
  ty : MatchedNodeType
deriving DecidableEq, Repr

/-- The reference machine's state: the open matches (innermost first) and
the committed `(start, end, kind)` triples in commit order. -/
structure SpecState where
  opened : List OpenNode
  out : List (Nat × Nat × MatchedNodeType)
deriving DecidableEq, Repr

/-- Reference pop: a terminator at `idx, depth` closes every open match
of depth at least `depth`, innermost first, with end `idx + 1`. -/
def specTerm (idx depth : Nat) :
    List OpenNode → List (Nat × Nat × MatchedNodeType) →
      List OpenNode × List (Nat × Nat × MatchedNodeType)
  | [], out => ([], out)
  | n :: rest, out =>
    if depth ≤ n.depth then
      specTerm idx depth rest (out ++ [(n.start, idx + 1, n.ty)])
    else (n :: rest, out)

/-- Reference machine step on a mid event. -/
def specMid (st : SpecState) : Mid → SpecState
  | .m i d ty => { st with opened := ⟨i, d, ty⟩ :: st.opened }
  | .t i d =>
    ⟨(specTerm i d st.opened st.out).1, (specTerm i d st.opened st.out).2⟩

/-- Reference machine over a whole event stream (blocks are irrelevant to
it). -/
def specRun (st : SpecState) (gs : List Group) : SpecState :=
  gs.foldl (fun s g => g.mids.foldl specMid s) st

/-- Remove trailing ASCII whitespace. -/
def rtrim (l : List Nat) : List Nat := (l.reverse.dropWhile isWs).reverse

/-- The span the recorder should commit for a closed match: the document
bytes from `start` to `end` (exclusive); for an `Atomic` match the
terminating structural character and trailing whitespace are removed. -/
def spanOf (doc : List Nat) (x : Nat × Nat × MatchedNodeType) : List Nat :=
  if x.2.2 = MatchedNodeType.Atomic then
    rtrim ((doc.take x.2.1).drop x.1).dropLast
  else (doc.take x.2.1).drop x.1

theorem take_drop_append (doc : List Nat) (S len s : Nat)
    (hS : S + len ≤ doc.length) (hs : s ≤ S) :
    (doc.take S).drop s ++ ((doc.drop S).take len) =
      (doc.take (S + len)).drop s := by
  rw [List.take_add, List.drop_append_of_le_length
    (by rw [List.length_take] ; omega)]

theorem append_block_spec (doc : List Nat) (S len s : Nat)
    (hS : S + len ≤ doc.length) :
    append_block ((doc.take S).drop s) ((doc.drop S).take len) S s =
      (doc.take (S + len)).drop s := by
  rw [append_block]
  have hlen : ((doc.drop S).take len).length = len := by
    rw [List.length_take, List.length_drop]
    omega
  rw [hlen]
  by_cases h1 : S + len ≤ s
  · rw [if_pos h1, List.drop_eq_nil_of_le (by rw [List.length_take] ; omega),
      List.drop_eq_nil_of_le (by rw [List.length_take] ; omega)]
  · rw [if_neg h1]
    by_cases h2 : S < s
    · rw [if_pos h2,
        List.drop_eq_nil_of_le (by rw [List.length_take] ; omega),
        List.nil_append, List.drop_take, List.drop_drop,
        (by omega : S + (s - S) = s), List.drop_take,
        (by omega : len - (s - S) = S + len - s)]
    · rw [if_neg h2]
      exact take_drop_append doc S len s hS (by omega)

theorem append_final_block_spec (doc : List Nat) (S len s e : Nat)
    (hS : S + len ≤ doc.length) (he1 : S ≤ e) (he2 : e ≤ S + len) :
    append_final_block ((doc.take S).drop s) ((doc.drop S).take len) S s e =
      (doc.take e).drop s := by
  rw [append_final_block, List.take_take, (by omega : min (e - S) len = e - S)]
  by_cases h2 : S < s
  · rw [if_pos h2,
      List.drop_eq_nil_of_le (by rw [List.length_take] ; omega),
      List.nil_append, List.drop_take, List.drop_drop,
      (by omega : S + (s - S) = s), List.drop_take,
      (by omega : e - S - (s - S) = e - s)]
  · rw [if_neg h2]
    have h := take_drop_append doc S (e - S) s (by omega) (by omega)
    rw [(by omega : S + (e - S) = e)] at h
    exact h

theorem rtrim_append_not_ws (l : List Nat) (b : Nat) (hb : isWs b = false) :
    rtrim (l ++ [b]) = l ++ [b] := by
  rw [rtrim, List.reverse_append, List.reverse_cons, List.reverse_nil,
    List.nil_append, List.cons_append, List.nil_append, List.dropWhile_cons,
    hb]
  simp

theorem rtrim_append_ws (l : List Nat) (b : Nat) (hb : isWs b = true) :
    rtrim (l ++ [b]) = rtrim l := by
  rw [rtrim, rtrim, List.reverse_append, List.reverse_cons, List.reverse_nil,
    List.nil_append, List.cons_append, List.nil_append, List.dropWhile_cons,
    hb]
  simp

theorem trim_take (buf : List Nat) (h0 : isWs (buf.getD 0 0) = false) :
    ∀ j, j < buf.length →
      buf.take (trimIdx buf j + 1) = rtrim (buf.take (j + 1))
  | 0, hj => by
    rw [trimIdx]
    have e : buf.take 1 = [buf.getD 0 0] := by
      cases buf with
      | nil => simp at hj
      | cons a l => rfl
    rw [e]
    exact (rtrim_append_not_ws [] _ h0).symm
  | j + 1, hj => by
    have hsplit : buf.take (j + 1 + 1) = buf.take (j + 1) ++ [buf.getD (j + 1) 0] := by
      rw [List.take_succ, List.getD, List.get?_eq_getElem?,
        List.getElem?_eq_getElem hj]
      rfl
    rw [hsplit]
    cases hws : isWs (buf.getD (j + 1) 0)
    · have ht : trimIdx buf (j + 1) = j + 1 := by
        show (if isWs (buf.getD (j + 1) 0) then trimIdx buf j else j + 1) = j + 1
        rw [hws]
        simp
      rw [ht, rtrim_append_not_ws _ _ hws]
      exact hsplit
    · have ht : trimIdx buf (j + 1) = trimIdx buf j := by
        show (if isWs (buf.getD (j + 1) 0) then trimIdx buf j else j + 1) = _
        rw [hws]
        simp
      rw [ht, rtrim_append_ws _ _ hws]
      exact trim_take buf h0 j (by omega)

/-- The stack node of the recorder corresponding to an open match, when
the first `S` document bytes have been recorded. -/
def toPartial (doc : List Nat) (S : Nat) (n : OpenNode) : PartialNode :=
  ⟨n.start, n.depth, (doc.take S).drop n.start, n.ty⟩

/-- The ready node of the recorder corresponding to a committed triple,
when the first `S` document bytes have been recorded. -/
def toPrepared (doc : List Nat) (S : Nat)
    (x : Nat × Nat × MatchedNodeType) : PreparedNode :=
  ⟨x.1, (doc.take S).drop x.1, x.2.1, x.2.2⟩

theorem specTerm_out_shift (idx depth : Nat) : ∀ (opened : List OpenNode)
    (out0 acc : List (Nat × Nat × MatchedNodeType)),
    specTerm idx depth opened (out0 ++ acc) =
      ((specTerm idx depth opened acc).1,
        out0 ++ (specTerm idx depth opened acc).2)
  | [], out0, acc => rfl
  | n :: rest, out0, acc => by
    rw [specTerm, specTerm]
    by_cases h : depth ≤ n.depth
    · rw [if_pos h, if_pos h, List.append_assoc]
      exact specTerm_out_shift idx depth rest out0 (acc ++ [(n.start, idx + 1, n.ty)])
    · rw [if_neg h, if_neg h]

theorem specTerm_out_mem (idx depth : Nat) : ∀ (opened : List OpenNode)
    (acc : List (Nat × Nat × MatchedNodeType)) (x : Nat × Nat × MatchedNodeType),
    x ∈ (specTerm idx depth opened acc).2 → x ∈ acc ∨ x.2.1 = idx + 1
  | [], acc, x, hx => Or.inl hx
  | n :: rest, acc, x, hx => by
    rw [specTerm] at hx
    by_cases h : depth ≤ n.depth
    · rw [if_pos h] at hx
      rcases specTerm_out_mem idx depth rest _ x hx with h' | h'
      · rcases List.mem_append.mp h' with h'' | h''
        · exact Or.inl h''
        · rw [List.mem_singleton] at h''
          right
          rw [h'']
      · exact Or.inr h'
    · rw [if_neg h] at hx
      exact Or.inl hx

theorem popLoop_spec (doc : List Nat) (S idx depth : Nat) :
    ∀ (opened : List OpenNode) (acc : List (Nat × Nat × MatchedNodeType)),
    popLoop idx depth (opened.map (toPartial doc S))
        (acc.map (toPrepared doc S)) =
      ((specTerm idx depth opened acc).1.map (toPartial doc S),
        (specTerm idx depth opened acc).2.map (toPrepared doc S))
  | [], acc => rfl
  | n :: rest, acc => by
    rw [List.map_cons, popLoop, specTerm, toPartial]
    by_cases h : depth ≤ n.depth
    · rw [if_pos h, if_pos h]
      have e : acc.map (toPrepared doc S) ++
          [⟨n.start, (doc.take S).drop n.start, idx + 1, n.ty⟩] =
          (acc ++ [(n.start, idx + 1, n.ty)]).map (toPrepared doc S) := by
        rw [List.map_append]
        rfl
      rw [e]
      exact popLoop_spec doc S idx depth rest (acc ++ [(n.start, idx + 1, n.ty)])
    · rw [if_neg h, if_neg h, ← toPartial, ← List.map_cons]

theorem finalize_spec (doc : List Nat) (s e : Nat) (ty : MatchedNodeType)
    (fs : List (List Nat)) (he : e ≤ doc.length)
    (hat : ty = MatchedNodeType.Atomic →
      s + 2 ≤ e ∧ isWs (doc.getD s 0) = false) :
    finalize_node fs ⟨s, (doc.take e).drop s, e, ty⟩ =
      fs ++ [spanOf doc (s, e, ty)] := by
  rw [finalize_node, spanOf]
  by_cases hty : ty = MatchedNodeType.Atomic
  · rw [if_pos hty, if_pos hty]
    obtain ⟨hse, hws⟩ := hat hty
    have hblen : ((doc.take e).drop s).length = e - s := by
      rw [List.length_drop, List.length_take]
      omega
    have h0 : isWs (((doc.take e).drop s).getD 0 0) = false := by
      have hg : ((doc.take e).drop s).getD 0 0 = doc.getD s 0 := by
        rw [List.getD, List.getD, List.get?_eq_getElem?, List.get?_eq_getElem?,
          List.getElem?_drop, List.getElem?_take]
        rw [if_pos (by omega), Nat.add_zero]
      rw [hg, hws]
    rw [hblen, trim_take _ h0 (e - s - 2) (by omega),
      (by omega : e - s - 2 + 1 = e - s - 1), List.dropLast_eq_take, hblen]
  · rw [if_neg hty, if_neg hty]

/-- Relation between the recorder and the reference machine in the middle
of a group: `S` bytes recorded, `out0` the triples committed in earlier
groups, `L` the current block's length. -/
def midRel (doc : List Nat) (S L : Nat)
    (out0 : List (Nat × Nat × MatchedNodeType))
    (r : InternalRecorder) (st : SpecState) : Prop :=
  r.idx = S ∧
  r.finished = out0.map (spanOf doc) ∧
  r.stack = st.opened.map (toPartial doc S) ∧
  ∃ acc, st.out = out0 ++ acc ∧ r.ready = acc.map (toPrepared doc S) ∧
    ∀ x ∈ acc, S < x.2.1 ∧ x.2.1 ≤ S + L

/-- Relation between the recorder and the reference machine at a group
boundary. -/
def bRel (doc : List Nat) (S : Nat) (r : InternalRecorder)
    (st : SpecState) : Prop :=
  r.idx = S ∧ r.ready = [] ∧
  r.finished = st.out.map (spanOf doc) ∧
  r.stack = st.opened.map (toPartial doc S)

theorem mids_phase (doc : List Nat) (S L : Nat)
    (out0 : List (Nat × Nat × MatchedNodeType)) :
    ∀ (mids : List Mid) (r : InternalRecorder) (st : SpecState),
    midsWf S L mids = true →
    S ≤ doc.length →
    midRel doc S L out0 r st →
    midRel doc S L out0 (mids.foldl stepMid r) (mids.foldl specMid st)
  | [], _, _, _, _, h => h
  | e :: rest, r, st, hwf, hSlen, h => by
    rw [midsWf, List.all_cons] at hwf
    rcases (Bool.and_eq_true _ _).mp hwf with ⟨hwe, hwrest⟩
    rw [List.foldl_cons, List.foldl_cons]
    apply mids_phase doc S L out0 rest _ _ hwrest hSlen
    obtain ⟨hidx, hfin, hstack, acc, hout, hready, hbound⟩ := h
    cases e with
    | m i d ty =>
      rw [decide_eq_true_eq] at hwe
      refine ⟨hidx, hfin, ?_, acc, hout, hready, hbound⟩
      show (record_match r i d ty).stack =
        ((⟨i, d, ty⟩ : OpenNode) :: st.opened).map (toPartial doc S)
      rw [record_match]
      dsimp only
      rw [hstack, List.map_cons, toPartial,
        List.drop_eq_nil_of_le
          (show (doc.take S).length ≤ i from by rw [List.length_take] ; omega)]
    | t i d =>
      rw [decide_eq_true_eq] at hwe
      have hpop := popLoop_spec doc S i d st.opened acc
      have hshift := specTerm_out_shift i d st.opened out0 acc
      refine ⟨hidx, hfin, ?_, (specTerm i d st.opened acc).2, ?_, ?_, ?_⟩
      · show (record_value_terminator r i d).stack = (specMid st (Mid.t i d)).opened.map _
        rw [record_value_terminator]
        dsimp only
        rw [hstack, hready, hpop, specMid]
        dsimp only
        rw [hout, hshift]
      · show (specMid st (Mid.t i d)).out = _
        rw [specMid]
        dsimp only
        rw [hout, hshift]
      · show (record_value_terminator r i d).ready = _
        rw [record_value_terminator]
        dsimp only
        rw [hstack, hready, hpop]
      · intro x hx
        rcases specTerm_out_mem i d st.opened acc x hx with h' | h'
        · exact hbound x h'
        · rw [h']
          omega

theorem foldl_finalize (doc : List Nat) (S len : Nat)
    (hS : S + len ≤ doc.length) :
    ∀ (acc : List (Nat × Nat × MatchedNodeType)) (fs : List (List Nat)),
    (∀ x ∈ acc, S < x.2.1 ∧ x.2.1 ≤ S + len) →
    (∀ x ∈ acc, x.2.2 = MatchedNodeType.Atomic →
      x.1 + 2 ≤ x.2.1 ∧ isWs (doc.getD x.1 0) = false) →
    (acc.map (toPrepared doc S)).foldl (fun fs top =>
        finalize_node fs { top with
          buf := append_final_block top.buf ((doc.drop S).take len) S
            top.start_idx top.end_idx }) fs =
      fs ++ acc.map (spanOf doc)
  | [], fs, _, _ => by
    rw [List.map_nil, List.map_nil, List.foldl_nil, List.append_nil]
  | x :: acc, fs, hb, ht => by
    rw [List.map_cons, List.map_cons, List.foldl_cons]
    have hbx := hb x (List.mem_cons_self x acc)
    have hprep : { toPrepared doc S x with
        buf := append_final_block (toPrepared doc S x).buf
          ((doc.drop S).take len) S (toPrepared doc S x).start_idx
          (toPrepared doc S x).end_idx } =
        (⟨x.1, (doc.take x.2.1).drop x.1, x.2.1, x.2.2⟩ : PreparedNode) := by
      rw [toPrepared]
      dsimp only
      rw [append_final_block_spec doc S len x.1 x.2.1 hS (by omega) (by omega)]
    rw [hprep,
      finalize_spec doc x.1 x.2.1 x.2.2 fs (by omega)
        (ht x (List.mem_cons_self x acc)),
      foldl_finalize doc S len hS acc (fs ++ [spanOf doc (x.1, x.2.1, x.2.2)])
        (fun y hy => hb y (List.mem_cons_of_mem x hy))
        (fun y hy => ht y (List.mem_cons_of_mem x hy)),
      List.append_assoc, List.singleton_append]

theorem block_phase (doc : List Nat) (S : Nat)
    (out0 : List (Nat × Nat × MatchedNodeType)) (r : InternalRecorder)
    (st : SpecState) (block : List Nat)
    (hblock : block = (doc.drop S).take block.length)
    (hS : S + block.length ≤ doc.length)
    (h : midRel doc S block.length out0 r st)
    (htrim : ∀ x ∈ st.out, x.2.2 = MatchedNodeType.Atomic →
      x.1 + 2 ≤ x.2.1 ∧ isWs (doc.getD x.1 0) = false) :
    bRel doc (S + block.length) (record_block r block) st := by
  obtain ⟨hidx, hfin, hstack, acc, hout, hready, hbound⟩ := h
  refine ⟨?_, rfl, ?_, ?_⟩
  · show r.idx + block.length = S + block.length
    rw [hidx]
  · show r.ready.foldl _ r.finished = _
    rw [hready, hfin, hidx, hblock]
    rw [foldl_finalize doc S block.length hS acc (out0.map (spanOf doc))
      (fun y hy => hbound y hy)
      (fun y hy => htrim y (by rw [hout] ; exact List.mem_append_right out0 hy)),
      ← List.map_append, ← hout]
  · show r.stack.map _ = _
    rw [hstack, hidx, List.map_map]
    apply List.map_congr_left
    intro n _
    show { toPartial doc S n with
        buf := append_block (toPartial doc S n).buf block S
          (toPartial doc S n).start_idx } = toPartial doc (S + block.length) n
    have hab : append_block ((doc.take S).drop n.start) block S n.start =
        (doc.take (S + block.length)).drop n.start := by
      conv_lhs => rw [hblock]
      exact append_block_spec doc S block.length n.start hS
    rw [toPartial, toPartial]
    dsimp only
    rw [hab]

theorem specMid_out_extends (st : SpecState) (e : Mid) :
    ∃ tail, (specMid st e).out = st.out ++ tail := by
  cases e with
  | m i d ty =>
    refine ⟨[], ?_⟩
    rw [List.append_nil]
    rfl
  | t i d =>
    refine ⟨(specTerm i d st.opened []).2, ?_⟩
    show (specTerm i d st.opened st.out).2 = _
    have h := specTerm_out_shift i d st.opened st.out []
    rw [List.append_nil] at h
    rw [h]

theorem specMids_out_extends : ∀ (mids : List Mid) (st : SpecState),
    ∃ tail, (mids.foldl specMid st).out = st.out ++ tail
  | [], st => ⟨[], (List.append_nil _).symm⟩
  | e :: rest, st => by
    obtain ⟨t1, h1⟩ := specMid_out_extends st e
    obtain ⟨t2, h2⟩ := specMids_out_extends rest (specMid st e)
    refine ⟨t1 ++ t2, ?_⟩
    rw [List.foldl_cons, h2, h1, List.append_assoc]

theorem specRun_out_extends : ∀ (gs : List Group) (st : SpecState),
    ∃ tail, (specRun st gs).out = st.out ++ tail
  | [], st => ⟨[], (List.append_nil _).symm⟩
  | g :: rest, st => by
    obtain ⟨t1, h1⟩ := specMids_out_extends g.mids st
    obtain ⟨t2, h2⟩ := specRun_out_extends rest (g.mids.foldl specMid st)
    refine ⟨t1 ++ t2, ?_⟩
    show (specRun (g.mids.foldl specMid st) rest).out = _
    rw [h2, h1, List.append_assoc]

theorem run_groups_rel (doc : List Nat) : ∀ (gs : List Group) (S : Nat)
    (r : InternalRecorder) (st : SpecState),
    doc.drop S = docOf gs →
    S ≤ doc.length →
    groupsWf S gs = true →
    bRel doc S r st →
    (∀ x ∈ (specRun st gs).out, x.2.2 = MatchedNodeType.Atomic →
      x.1 + 2 ≤ x.2.1 ∧ isWs (doc.getD x.1 0) = false) →
    bRel doc (S + (docOf gs).length) (runGroups r gs) (specRun st gs)
  | [], S, r, st, _, _, _, hrel, _ => by
    rw [docOf, List.flatMap_nil, List.length_nil, Nat.add_zero]
    exact hrel
  | g :: rest, S, r, st, hdoc, hS, hwf, hrel, htrim => by
    rw [groupsWf] at hwf
    rcases (Bool.and_eq_true _ _).mp hwf with ⟨hwg, hwrest⟩
    rw [docOf, List.flatMap_cons] at hdoc
    have hlen : S + g.block.length ≤ doc.length := by
      have hl := congrArg List.length hdoc
      rw [List.length_drop, List.length_append] at hl
      omega
    have hblock : g.block = (doc.drop S).take g.block.length := by
      rw [hdoc]
      exact (List.take_left _ _).symm
    have hdrop : doc.drop (S + g.block.length) = docOf rest := by
      rw [← List.drop_drop, hdoc, List.drop_left]
      rfl
    obtain ⟨hidx, hready, hfin, hstack⟩ := hrel
    have hmid0 : midRel doc S g.block.length st.out r st :=
      ⟨hidx, hfin, hstack, [], (List.append_nil _).symm,
        by rw [hready] ; rfl, by intro x hx ; cases hx⟩
    have hmid1 := mids_phase doc S g.block.length st.out g.mids r st hwg
      (by omega) hmid0
    have hst'trim : ∀ x ∈ (g.mids.foldl specMid st).out,
        x.2.2 = MatchedNodeType.Atomic →
        x.1 + 2 ≤ x.2.1 ∧ isWs (doc.getD x.1 0) = false := by
      intro x hx hty
      apply htrim x _ hty
      obtain ⟨tail, hext⟩ := specRun_out_extends rest (g.mids.foldl specMid st)
      show x ∈ (specRun (g.mids.foldl specMid st) rest).out
      rw [hext]
      exact List.mem_append_left tail hx
    have hb := block_phase doc S st.out (g.mids.foldl stepMid r)
      (g.mids.foldl specMid st) g.block hblock hlen hmid1 hst'trim
    have hrec := run_groups_rel doc rest (S + g.block.length)
      (record_block (g.mids.foldl stepMid r) g.block)
      (g.mids.foldl specMid st) hdrop (by omega) hwrest hb htrim
    rw [docOf, List.flatMap_cons, List.length_append,
      (by omega : S + (g.block.length + (rest.flatMap Group.block).length) =
        S + g.block.length + (rest.flatMap Group.block).length)]
    rw [docOf] at hrec
    exact hrec

end Nodes

/-- C8 counterexample: over the document `[[5]]` with the outer array
matched first (at offset 0) and the inner array second (at offset 1),
both closed by one terminator, the recorder commits the inner span before
the outer span — the committed order is termination order, not match
order. -/
theorem c8_counterexample :
    (Nodes.runGroups Nodes.initialRecorder
        [⟨[Nodes.Mid.m 0 1 Nodes.MatchedNodeType.Complex,
           Nodes.Mid.m 1 2 Nodes.MatchedNodeType.Complex,
           Nodes.Mid.t 4 1], [91, 91, 53, 93, 93]⟩]).finished =
      [[91, 53, 93, 93], [91, 91, 53, 93, 93]] ∧
    [[91, 53, 93, 93], [91, 91, 53, 93, 93]] ≠
      [[91, 91, 53, 93, 93], [91, 53, 93, 93]] := by
  decide

/-- C8 (amended): for every well-formed recorder run, `finish` returns
exactly the spans of the closed matches in commit (termination) order —
nested matches closed by one terminator commit innermost first — where
each span consists of the document bytes from the match start to its
terminator, with the terminating character and trailing ASCII whitespace
removed for `Atomic` matches and no trimming for `Complex` matches. -/
theorem c8_nodes_recorder_spans (gs : List Nodes.Group)
    (hwf : Nodes.groupsWf 0 gs = true)
    (htrim : ∀ x ∈ (Nodes.specRun ⟨[], []⟩ gs).out,
      x.2.2 = Nodes.MatchedNodeType.Atomic →
      x.1 + 2 ≤ x.2.1 ∧ Nodes.isWs ((Nodes.docOf gs).getD x.1 0) = false) :
    (Nodes.runGroups Nodes.initialRecorder gs).finished =
      ((Nodes.specRun ⟨[], []⟩ gs).out).map (Nodes.spanOf (Nodes.docOf gs)) := by
  have h := Nodes.run_groups_rel (Nodes.docOf gs) gs 0 Nodes.initialRecorder
    ⟨[], []⟩ (List.drop_zero _) (by omega) hwf
    ⟨rfl, rfl, rfl, rfl⟩ htrim
  exact h.2.2.1

/-- C8 witness: the document `[5 ]` with the atomic `5` matched at offset
1 and terminated at offset 3: the committed span is `5` with the trailing
whitespace and the closing bracket removed. -/
theorem c8_witness :
    (Nodes.runGroups Nodes.initialRecorder
        [⟨[Nodes.Mid.m 1 1 Nodes.MatchedNodeType.Atomic, Nodes.Mid.t 3 1],
          [91, 53, 32, 93]⟩]).finished =
      ((Nodes.specRun ⟨[], []⟩
          [⟨[Nodes.Mid.m 1 1 Nodes.MatchedNodeType.Atomic, Nodes.Mid.t 3 1],
            [91, 53, 32, 93]⟩]).out).map
        (Nodes.spanOf (Nodes.docOf
          [⟨[Nodes.Mid.m 1 1 Nodes.MatchedNodeType.Atomic, Nodes.Mid.t 3 1],
            [91, 53, 32, 93]⟩])) ∧
    (Nodes.runGroups Nodes.initialRecorder
        [⟨[Nodes.Mid.m 1 1 Nodes.MatchedNodeType.Atomic, Nodes.Mid.t 3 1],
          [91, 53, 32, 93]⟩]).finished = [[53]] := by
  refine ⟨c8_nodes_recorder_spans
    [⟨[Nodes.Mid.m 1 1 Nodes.MatchedNodeType.Atomic, Nodes.Mid.t 3 1],
      [91, 53, 32, 93]⟩] (by decide) ?_, by decide⟩
  intro x hx hty
  revert hty
  revert hx
  revert x
  decide

/-! ## Member-name search (input.rs, `in_slice`) -/

namespace InputSlice

/-- Does `pat` occur in `hay` starting at index `i`, entirely within `hay`? -/
def occursAt (hay pat : List Nat) (i : Nat) : Bool :=
  decide (i + pat.length ≤ hay.length) && decide ((hay.drop i).take pat.length = pat)

/-- Model of `memmem::Finder::find` applied to the slice `bytes[idx..brr]`:
the least offset of an occurrence of `pat` lying entirely within the slice. -/
def findInRange (hay pat : List Nat) (idx brr : Nat) : Option Nat :=
  (List.range (brr + 1 - idx)).find? fun o =>
    occursAt hay pat (idx + o) && decide (idx + o + pat.length ≤ brr)

/-- A bounds-checked byte read; `none` models an access outside the
haystack bounds (in Rust, an out-of-bounds index panic). -/
def checkedRead (hay : List Nat) (i : Nat) : Option Nat :=
  if i < hay.length then some (hay.getD i 0) else none

/-- usize wrapping subtraction of one, as `starting_quote_idx - 1` computes
in release mode when `starting_quote_idx` is `0`. -/
def wrapSub1 (i : Nat) : Nat := if i = 0 then 2 ^ 64 - 1 else i - 1

/-- Loop of `in_slice::find_member` (input.rs): find the next candidate
occurrence, read the byte immediately preceding it (a bounds-checked access
with no guard for occurrences at offset 0), accept if it is not a
backslash, otherwise skip past the candidate.  Fuel-based; the fuel chosen
by `find_member` strictly exceeds the number of loop iterations. -/
def findMemberGo (hay pat : List Nat) (brr : Nat) : Nat → Nat → Except Unit (Option Nat)
  | 0, _ => Except.ok none
  | fuel + 1, idx =>
    match findInRange hay pat idx brr with
    | none => Except.ok none
    | some o =>
        match checkedRead hay (wrapSub1 (idx + o)) with
        | none => Except.error ()
        | some byte =>
            if byte ≠ 92 then Except.ok (some (idx + o))
            else findMemberGo hay pat brr fuel (idx + o + pat.length + 1)

/-- Mirrors `in_slice::find_member`: `brr` is `bytes.len()`, and the entry
check returns `None` when the start offset is past the end. -/
def find_member (hay pat : List Nat) (start : Nat) : Except Unit (Option Nat) :=
  if hay.length ≤ start then Except.ok none
  else findMemberGo hay pat hay.length (hay.length + 2 - start) start

/-- Mirrors `in_slice::is_member_match`: compare `bytes[from..to]` with the
pattern and check the preceding byte is not a backslash, explicitly treating
`from == 0` as unescaped. -/
def is_member_match (hay pat : List Nat) (f t : Nat) : Bool :=
  decide ((hay.drop f).take (t - f) = pat) &&
    (decide (f = 0) || decide (hay.getD (f - 1) 0 ≠ 92))

theorem findInRange_some (hay pat : List Nat) (idx brr o : Nat)
    (h : findInRange hay pat idx brr = some o) :
    occursAt hay pat (idx + o) = true ∧ idx + o + pat.length ≤ brr := by
  have hp := List.find?_some h
  have h1 := (Bool.and_eq_true _ _).mp hp
  exact ⟨h1.1, by have := h1.2 ; simpa using this⟩

theorem findMemberGo_no_error (hay pat : List Nat) (fuel idx : Nat)
    (hpre : occursAt hay pat 0 = false) :
    findMemberGo hay pat hay.length fuel idx ≠ Except.error () := by
  induction fuel generalizing idx with
  | zero => intro hc ; cases hc
  | succ fuel ih =>
      rw [findMemberGo]
      cases hfind : findInRange hay pat idx hay.length with
      | none => intro hc ; cases hc
      | some o =>
          dsimp only
          have ⟨hocc, hle⟩ := findInRange_some hay pat idx hay.length o hfind
          have hsqi : idx + o ≠ 0 := by
            intro hz
            rw [hz] at hocc
            rw [hocc] at hpre
            cases hpre
          have hlen : idx + o + pat.length ≤ hay.length := by
            have := (Bool.and_eq_true _ _).mp hocc
            have := of_decide_eq_true this.1
            exact this
          have hread : checkedRead hay (wrapSub1 (idx + o)) =
              some (hay.getD (idx + o - 1) 0) := by
            rw [wrapSub1, if_neg hsqi, checkedRead, if_pos (by omega)]
          rw [hread]
          dsimp only
          by_cases hbs : hay.getD (idx + o - 1) 0 ≠ 92
          · rw [if_pos hbs]
            intro hc ; cases hc
          · rw [if_neg hbs]
            exact ih (idx + o + pat.length + 1)

end InputSlice

/-- C9: under the precondition that no occurrence of the quoted member
pattern starts at byte offset 0 of the input, `in_slice::find_member` never
reads outside the haystack bounds — every candidate occurrence sits at an
offset `sqi ≥ 1`, so the unguarded read of the preceding byte `bytes[sqi-1]`
stays in bounds.  By contrast `is_member_match` explicitly treats
`from == 0` as an unescaped match and performs no preceding-byte read. -/
theorem c9_find_member_no_oob (hay pat : List Nat) (start : Nat)
    (hpre : InputSlice.occursAt hay pat 0 = false) :
    InputSlice.find_member hay pat start ≠ Except.error () ∧
    ∀ t, InputSlice.is_member_match hay pat 0 t = decide (hay.take t = pat) := by
  constructor
  · rw [InputSlice.find_member]
    by_cases hs : hay.length ≤ start
    · rw [if_pos hs]
      intro hc ; cases hc
    · rw [if_neg hs]
      exact InputSlice.findMemberGo_no_error hay pat _ start hpre
  · intro t
    rw [InputSlice.is_member_match]
    simp

/-- C9 witness: the pattern `"a"` preceded by a space: no occurrence at
offset 0, and the search finds the occurrence at offset 1 without an
out-of-bounds access. -/
theorem c9_witness :
    InputSlice.occursAt [32, 34, 97, 34] [34, 97, 34] 0 = false ∧
    InputSlice.find_member [32, 34, 97, 34] [34, 97, 34] 0 ≠ Except.error () :=
  ⟨by decide, (c9_find_member_no_oob [32, 34, 97, 34] [34, 97, 34] 0 (by decide)).1⟩

/-- C10 witness: a concrete classifier with commas on, stopped and resumed. -/
theorem c10_witness :
    (Classify.SequentialClassifier.resume (Classify.SequentialClassifier.stop
      ⟨⟨[], 0, 0⟩, some ⟨⟨[44], 0⟩, 0, true⟩, true⟩)).are_commas_on = false ∧
    Structural.Comma 0 ∉ (Classify.takeEvents 1 (Classify.SequentialClassifier.resume
      (Classify.SequentialClassifier.stop
        ⟨⟨[], 0, 0⟩, some ⟨⟨[44], 0⟩, 0, true⟩, true⟩))).1 :=
  ⟨(c10_resume_disables_commas ⟨⟨[], 0, 0⟩, some ⟨⟨[44], 0⟩, 0, true⟩, true⟩).1,
    (c10_resume_disables_commas ⟨⟨[], 0, 0⟩, some ⟨⟨[44], 0⟩, 0, true⟩, true⟩).2.2 1 0⟩

end Rsonpath
